import Mathlib

/-!
Verification of the valuable-value codec library.

This file contains a shallow embedding of the core of the
`valuable-value` Rust crate: the `Value` data model with its equality,
total order, meaningful partial order and lattice operations
(`src/value.rs`), the compact encoder (`src/compact/ser.rs`), the
compact decoder monomorphized at `Value` (`src/compact/de.rs` together
with `Value`'s serde `Visitor` in `src/value.rs`), the string escaping
of the human-readable encoder (`src/human/ser.rs`), and a model of the
canonic encoding and canonic decoding which the crate itself does not
ship (its `lib.rs` documents the absence; the fuzz targets call a
canonic-capable API whose implementation is not part of the sources),
modelled from the specification.

Floats are represented by their 64-bit IEEE-754 bit patterns (natural
numbers below 2^64); every float operation the library performs
(`is_nan`, `to_bits`, `total_cmp`) is a pure function of the bit
pattern and is embedded as such.
-/

namespace VV

/-! ## IEEE-754 double helpers on bit patterns -/

/-- `f64::is_nan` as a function of the bit pattern: exponent all ones,
mantissa non-zero. -/
def isNanBits (b : Nat) : Bool :=
  (b >>> 52) &&& 0x7FF == 0x7FF && b &&& 0xFFFFFFFFFFFFF != 0

/-- The injection underlying `f64::total_cmp`: reinterpret the bits as an
`i64` and flip the lower 63 bits of negative values
(`left ^= (((left >> 63) as u64) >> 1) as i64`), then compare as `i64`. -/
def totalKey (b : Nat) : Int :=
  if b < 2 ^ 63 then (b : Int) else (((b ^^^ 0x7FFFFFFFFFFFFFFF) : Nat) : Int) - 2 ^ 64

/-- `f64::total_cmp` on bit patterns. -/
def totalCmpBits (b1 b2 : Nat) : Ordering :=
  if totalKey b1 < totalKey b2 then .lt
  else if totalKey b2 < totalKey b1 then .gt
  else .eq

/-- The canonic NaN bit pattern `0xFFFF_FFFF_FFFF_FFFF` (spec §4.1.2). -/
def canonicalNaN : Nat := 0xFFFFFFFFFFFFFFFF

/-! ## The value data model (`src/value.rs`)

`Value::Map` is a `BTreeMap<Value, Value>` in the source; it is embedded
as the list of its entries in ascending key order (the order in which the
`BTreeMap` stores and iterates them).  The `wf` predicate below captures
the `BTreeMap` invariant (strictly ascending, hence unique, keys). -/

inductive Value : Type where
  | nil : Value
  | bool : Bool → Value
  | float : Nat → Value
  | int : Int → Value
  | array : List Value → Value
  | map : List (Value × Value) → Value
deriving Repr

/-- `bool::cmp`: `false < true`. -/
def cmpBool : Bool → Bool → Ordering
  | false, false => .eq
  | false, true => .lt
  | true, false => .gt
  | true, true => .eq

/-- `i64::cmp`. -/
def cmpInt (a b : Int) : Ordering :=
  if a < b then .lt else if b < a then .gt else .eq

/-- The float arm of `Ord::cmp for Value`: NaN is least (all NaNs equal),
otherwise `total_cmp`. -/
def cmpFloatBits (n1 n2 : Nat) : Ordering :=
  if isNanBits n1 && isNanBits n2 then .eq
  else if isNanBits n1 then .lt
  else if isNanBits n2 then .gt
  else totalCmpBits n1 n2

mutual

/-- `Ord::cmp for Value` (src/value.rs): by variant in the order
nil < bool < float < int < array < map, then within the variant. -/
def cmpV : Value → Value → Ordering
  | .nil, .nil => .eq
  | .nil, _ => .lt
  | _, .nil => .gt
  | .bool b1, .bool b2 => cmpBool b1 b2
  | .bool _, _ => .lt
  | _, .bool _ => .gt
  | .float n1, .float n2 => cmpFloatBits n1 n2
  | .float _, _ => .lt
  | _, .float _ => .gt
  | .int n1, .int n2 => cmpInt n1 n2
  | .int _, _ => .lt
  | _, .int _ => .gt
  | .array v1, .array v2 => cmpL v1 v2
  | .array _, _ => .lt
  | _, .array _ => .gt
  | .map m1, .map m2 => cmpE m1 m2

/-- `Vec::cmp`: lexicographic, a strict prefix is smaller. -/
def cmpL : List Value → List Value → Ordering
  | [], [] => .eq
  | [], _ :: _ => .lt
  | _ :: _, [] => .gt
  | a :: as_, b :: bs =>
    match cmpV a b with
    | .eq => cmpL as_ bs
    | o => o

/-- The `Map` arm of `Ord::cmp for Value`: walk both entry sequences in
parallel; at the first key difference the map holding the smaller key is
the *greater* one (`Less => return Greater`); for equal keys compare the
values; a strict prefix is smaller. -/
def cmpE : List (Value × Value) → List (Value × Value) → Ordering
  | [], [] => .eq
  | [], _ :: _ => .lt
  | _ :: _, [] => .gt
  | (k1, v1) :: r1, (k2, v2) :: r2 =>
    match cmpV k1 k2 with
    | .lt => .gt
    | .gt => .lt
    | .eq =>
      match cmpV v1 v2 with
      | .eq => cmpE r1 r2
      | o => o

end

mutual

/-- `PartialEq for Value`: structural, except that all NaN bit patterns
are equal to each other and floats otherwise compare by bit pattern. -/
def veq : Value → Value → Bool
  | .nil, .nil => true
  | .bool b1, .bool b2 => b1 == b2
  | .int n1, .int n2 => n1 == n2
  | .float n1, .float n2 => isNanBits n1 && isNanBits n2 || n1 == n2
  | .array v1, .array v2 => veqL v1 v2
  | .map m1, .map m2 => veqE m1 m2
  | _, _ => false

/-- `Vec::eq`: pointwise. -/
def veqL : List Value → List Value → Bool
  | [], [] => true
  | a :: as_, b :: bs => veq a b && veqL as_ bs
  | _, _ => false

/-- `BTreeMap::eq`: equal length and pairwise equal entries in iteration
order. -/
def veqE : List (Value × Value) → List (Value × Value) → Bool
  | [], [] => true
  | (k1, v1) :: r1, (k2, v2) :: r2 => veq k1 k2 && veq v1 v2 && veqE r1 r2
  | _, _ => false

end

/-! ## The meaningful partial order (`Value::meaningful_partial_cmp`) -/

mutual

/-- `Value::meaningful_partial_cmp` (src/value.rs): scalars of equal
variant delegate to the total order, arrays and maps run the `so_far`
state machines below, mixed variants are incomparable. -/
def meaningfulCmp : Value → Value → Option Ordering
  | .nil, .nil => some (cmpV .nil .nil)
  | .bool b1, .bool b2 => some (cmpV (.bool b1) (.bool b2))
  | .int n1, .int n2 => some (cmpV (.int n1) (.int n2))
  | .float n1, .float n2 => some (cmpV (.float n1) (.float n2))
  | .array v1, .array v2 => mCmpArr v1 v2 .eq
  | .map m1, .map m2 => mCmpMap m1 m2 .eq
  | _, _ => none

/-- The array loop of `meaningful_partial_cmp`, carrying the `so_far`
state. -/
def mCmpArr : List Value → List Value → Ordering → Option Ordering
  | x :: xs, y :: ys, .eq =>
    match meaningfulCmp x y with
    | none => none
    | some o => mCmpArr xs ys o
  | x :: xs, y :: ys, .lt =>
    match meaningfulCmp x y with
    | none => none
    | some .gt => none
    | some _ => mCmpArr xs ys .lt
  | x :: xs, y :: ys, .gt =>
    match meaningfulCmp x y with
    | none => none
    | some .lt => none
    | some _ => mCmpArr xs ys .gt
  | _ :: _, [], .eq => some .gt
  | _ :: _, [], .gt => some .gt
  | _ :: _, [], .lt => none
  | [], _ :: _, .eq => some .lt
  | [], _ :: _, .lt => some .lt
  | [], _ :: _, .gt => none
  | [], [], o => some o

/-- The map loop of `meaningful_partial_cmp`, carrying the `so_far`
state; entries are consumed like a merge of the two key-sorted
sequences. -/
def mCmpMap : List (Value × Value) → List (Value × Value) → Ordering → Option Ordering
  | (k1, v1) :: r1, (k2, v2) :: r2, .eq =>
    match cmpV k1 k2 with
    | .lt => mCmpMap r1 ((k2, v2) :: r2) .gt
    | .gt => mCmpMap ((k1, v1) :: r1) r2 .lt
    | .eq =>
      match meaningfulCmp v1 v2 with
      | none => none
      | some o => mCmpMap r1 r2 o
  | (k1, v1) :: r1, (k2, v2) :: r2, .lt =>
    match cmpV k1 k2 with
    | .lt => none
    | .gt => mCmpMap ((k1, v1) :: r1) r2 .lt
    | .eq =>
      match meaningfulCmp v1 v2 with
      | none => none
      | some .gt => none
      | some _ => mCmpMap r1 r2 .lt
  | (k1, v1) :: r1, (k2, v2) :: r2, .gt =>
    match cmpV k1 k2 with
    | .lt => mCmpMap r1 ((k2, v2) :: r2) .gt
    | .gt => none
    | .eq =>
      match meaningfulCmp v1 v2 with
      | none => none
      | some .lt => none
      | some _ => mCmpMap r1 r2 .gt
  | _ :: _, [], .eq => some .gt
  | _ :: _, [], .gt => some .gt
  | _ :: _, [], .lt => none
  | [], _ :: _, .eq => some .lt
  | [], _ :: _, .lt => some .lt
  | [], _ :: _, .gt => none
  | [], [], o => some o

end

/-- `Value::meaningful_le`: scalars of equal variant use the total-order
`le`, arrays and maps ask `meaningful_partial_cmp` for `Less | Equal`,
mixed variants are `false`. -/
def meaningful_le (a b : Value) : Bool :=
  match a, b with
  | .nil, .nil | .bool _, .bool _ | .int _, .int _ | .float _, .float _ =>
    match cmpV a b with
    | .gt => false
    | _ => true
  | .array _, .array _ | .map _, .map _ =>
    match meaningfulCmp a b with
    | some .lt => true
    | some .eq => true
    | _ => false
  | _, _ => false

/-! ## Lattice operations (`greatest_lower_bound`, `least_upper_bound`) -/

/-- `BTreeMap::get`: the value stored under the key comparing `Equal`. -/
def lookupM : List (Value × Value) → Value → Option Value
  | [], _ => none
  | (k', v') :: r, k => if cmpV k' k = .eq then some v' else lookupM r k

/-- `BTreeMap::insert`: the value is updated, the key is not. -/
def insertE : List (Value × Value) → Value → Value → List (Value × Value)
  | [], k, v => [(k, v)]
  | (k', v') :: r, k, v =>
    match cmpV k k' with
    | .lt => (k, v) :: (k', v') :: r
    | .eq => (k', v) :: r
    | .gt => (k', v') :: insertE r k v

theorem lookupM_sizeOf {es : List (Value × Value)} {k v : Value}
    (h : lookupM es k = some v) : sizeOf v < sizeOf es := by
  induction es with
  | nil => simp [lookupM] at h
  | cons e r ih =>
    obtain ⟨k', v'⟩ := e
    simp only [lookupM] at h
    split at h
    · cases h
      simp
      omega
    · have := ih h
      simp
      omega

/-- The float arm shared by `greatest_lower_bound`: NaN is least, so the
meet keeps a NaN side, otherwise the `total_cmp`-smaller side. -/
def glbFloat (n1 n2 : Nat) : Value :=
  if isNanBits n1 && isNanBits n2 then .float n1
  else if isNanBits n1 then .float n1
  else if isNanBits n2 then .float n2
  else if totalCmpBits n1 n2 = .gt then .float n2 else .float n1

/-- The float arm of `least_upper_bound`. -/
def lubFloat (n1 n2 : Nat) : Value :=
  if isNanBits n1 && isNanBits n2 then .float n1
  else if isNanBits n1 then .float n2
  else if isNanBits n2 then .float n1
  else if totalCmpBits n1 n2 = .lt then .float n2 else .float n1

mutual

/-- `Value::greatest_lower_bound` (src/value.rs). -/
def glbV : Value → Value → Option Value
  | .nil, .nil => some .nil
  | .bool b1, .bool b2 => some (.bool (b1 && b2))
  | .int n1, .int n2 => some (.int (min n1 n2))
  | .float n1, .float n2 => some (glbFloat n1 n2)
  | .array v1, .array v2 =>
    match glbArr v1 v2 with
    | none => none
    | some r => some (.array r)
  | .map m1, .map m2 =>
    match glbMap m1 m2 [] with
    | none => none
    | some r => some (.map r)
  | _, _ => none

/-- The array loop of `greatest_lower_bound`: truncate to the shorter
length, keep the `meaningful_partial_cmp`-smaller element at each index,
abort if a pair is incomparable. -/
def glbArr : List Value → List Value → Option (List Value)
  | x :: xs, y :: ys =>
    match meaningfulCmp x y with
    | none => none
    | some .gt =>
      match glbArr xs ys with
      | none => none
      | some r => some (y :: r)
    | some _ =>
      match glbArr xs ys with
      | none => none
      | some r => some (x :: r)
  | _, _ => some []

/-- The map loop of `greatest_lower_bound`: for each key of the first
map present in the second, insert the meet of the two values. -/
def glbMap : List (Value × Value) → List (Value × Value) → List (Value × Value) →
    Option (List (Value × Value))
  | [], _, r => some r
  | (k, v1) :: rest, m2, r =>
    match h : lookupM m2 k with
    | none => glbMap rest m2 r
    | some v2 =>
      match glbV v1 v2 with
      | none => none
      | some g => glbMap rest m2 (insertE r k g)

end

mutual

/-- `Value::least_upper_bound` (src/value.rs). -/
def lubV : Value → Value → Option Value
  | .nil, .nil => some .nil
  | .bool b1, .bool b2 => some (.bool (b1 || b2))
  | .int n1, .int n2 => some (.int (max n1 n2))
  | .float n1, .float n2 => some (lubFloat n1 n2)
  | .array v1, .array v2 =>
    match lubArr v1 v2 with
    | none => none
    | some r => some (.array r)
  | .map m1, .map m2 =>
    match lubMap1 m1 m2 [] with
    | none => none
    | some r1 =>
      match lubMap2 m2 m1 r1 with
      | none => none
      | some r2 => some (.map r2)
  | _, _ => none
termination_by a b => sizeOf a + sizeOf b
decreasing_by
  all_goals simp_wf
  all_goals omega

/-- The array loop of `least_upper_bound`: extend to the longer length
using the defined side, keep the `meaningful_partial_cmp`-greater element
at common indices. -/
def lubArr : List Value → List Value → Option (List Value)
  | x :: xs, y :: ys =>
    match meaningfulCmp x y with
    | none => none
    | some .lt =>
      match lubArr xs ys with
      | none => none
      | some r => some (y :: r)
    | some _ =>
      match lubArr xs ys with
      | none => none
      | some r => some (x :: r)
  | [], ys => some ys
  | xs, [] => some xs
termination_by xs ys => sizeOf xs + sizeOf ys
decreasing_by
  all_goals simp_wf
  all_goals omega

/-- First loop of the map arm of `least_upper_bound`: over the first
map, inserting `v1.least_upper_bound(v2)?` for common keys and `v1`
for keys only in the first map. -/
def lubMap1 : List (Value × Value) → List (Value × Value) → List (Value × Value) →
    Option (List (Value × Value))
  | [], _, r => some r
  | (k, v1) :: rest, m2, r =>
    match h : lookupM m2 k with
    | none => lubMap1 rest m2 (insertE r k v1)
    | some v2 =>
      match lubV v1 v2 with
      | none => none
      | some j => lubMap1 rest m2 (insertE r k j)
termination_by m1 m2 _ => sizeOf m1 + sizeOf m2
decreasing_by
  all_goals simp_wf
  all_goals try omega
  all_goals (have hlk := lookupM_sizeOf (by assumption); omega)

/-- Second loop of the map arm of `least_upper_bound`: over the second
map, inserting `v2.least_upper_bound(v1)?` for common keys (overwriting
the first loop's value; `BTreeMap::insert` keeps the original key) and
`v2` for keys only in the second map. -/
def lubMap2 : List (Value × Value) → List (Value × Value) → List (Value × Value) →
    Option (List (Value × Value))
  | [], _, r => some r
  | (k, v2) :: rest, m1, r =>
    match h : lookupM m1 k with
    | none => lubMap2 rest m1 (insertE r k v2)
    | some v1 =>
      match lubV v2 v1 with
      | none => none
      | some j => lubMap2 rest m1 (insertE r k j)
termination_by m2 m1 _ => sizeOf m2 + sizeOf m1
decreasing_by
  all_goals simp_wf
  all_goals try omega
  all_goals (have hlk := lookupM_sizeOf (by assumption); omega)

end

/-! ## The `BTreeMap`/`i64` data-type invariants

A Rust `Value` always satisfies: map entries are stored in strictly
ascending key order (`BTreeMap`), and ints are in signed 64-bit range
(spec §3 invariants).  Array and map lengths are `usize` values and hence
at most `2^63 - 1` on the supported targets (spec §4.1.1 length
invariant). -/

/-- Keys of consecutive entries are strictly ascending. -/
def sortedE : List (Value × Value) → Bool
  | [] => true
  | [_] => true
  | (k1, _) :: (k2, v2) :: r => cmpV k1 k2 == .lt && sortedE ((k2, v2) :: r)

mutual

/-- The data-type invariant of a Rust `Value`. -/
def wf : Value → Bool
  | .nil => true
  | .bool _ => true
  | .float b => b < 2 ^ 64
  | .int n => -(2 ^ 63) ≤ n && n < 2 ^ 63
  | .array vs => vs.length < 2 ^ 63 && wfL vs
  | .map es => es.length < 2 ^ 63 && sortedE es && wfE es

def wfL : List Value → Bool
  | [] => true
  | v :: r => wf v && wfL r

def wfE : List (Value × Value) → Bool
  | [] => true
  | (k, v) :: r => wf k && wf v && wfE r

end

/-! ## The compact encoder (`src/compact/ser.rs`), monomorphized at `Value` -/

/-- `to_be_bytes` of the low `w` bytes of `n`, big-endian. -/
def beBytes : Nat → Nat → List Nat
  | 0, _ => []
  | w + 1, n => (n >>> (8 * w)) % 256 :: beBytes w n

/-- `VVSerializer::serialize_count` (src/compact/ser.rs lines 33-53).
Note: the third branch (counts of 2^16 … 2^32 − 1) pushes the marker
`tag | 0b000_11101` — argument 29, the same marker as the 2-byte form —
before the four count bytes, exactly as the source does. -/
def serialize_count (n : Nat) (tag : Nat) : Option (List Nat) :=
  if n ≤ 27 then some [tag ||| n]
  else if n ≤ 0xFF then some (((tag ||| 0b00011100) : Nat) :: beBytes 1 n)
  else if n ≤ 0xFFFF then some (((tag ||| 0b00011101) : Nat) :: beBytes 2 n)
  else if n ≤ 0xFFFFFFFF then some (((tag ||| 0b00011101) : Nat) :: beBytes 4 n)
  else if n ≤ 2 ^ 63 - 1 then some (((tag ||| 0b00011111) : Nat) :: beBytes 8 n)
  else none

/-- `VVSerializer::serialize_i64`: inline argument for `0..=27`,
otherwise the smallest of the 1/2/4/8-byte signed big-endian forms. -/
def encInt (v : Int) : List Nat :=
  if 0 ≤ v && v ≤ 27 then [0b01100000 ||| v.toNat]
  else if -128 ≤ v && v ≤ 127 then 0b01111100 :: beBytes 1 (v % 256).toNat
  else if -32768 ≤ v && v ≤ 32767 then 0b01111101 :: beBytes 2 (v % 65536).toNat
  else if -2147483648 ≤ v && v ≤ 2147483647 then
    0b01111110 :: beBytes 4 (v % 4294967296).toNat
  else 0b01111111 :: beBytes 8 (v % 18446744073709551616).toNat

mutual

/-- `compact::ser::to_vec` applied to a `Value`: the `Serialize`
implementation of `Value` (src/value.rs) driving `VVSerializer`
(src/compact/ser.rs).  Fails (as the serializer does) only when a
collection length exceeds `2^63 - 1`. -/
def encV : Value → Option (List Nat)
  | .nil => some [0b00000000]
  | .bool b => some [if b then 0b00100001 else 0b00100000]
  | .float bits => some (0b01000000 :: beBytes 8 bits)
  | .int v => some (encInt v)
  | .array vs =>
    match serialize_count vs.length 0b10100000 with
    | none => none
    | some head =>
      match encL vs with
      | none => none
      | some body => some (head ++ body)
  | .map es =>
    match serialize_count es.length 0b11100000 with
    | none => none
    | some head =>
      match encE es with
      | none => none
      | some body => some (head ++ body)

def encL : List Value → Option (List Nat)
  | [] => some []
  | v :: r =>
    match encV v with
    | none => none
    | some b =>
      match encL r with
      | none => none
      | some rest => some (b ++ rest)

def encE : List (Value × Value) → Option (List Nat)
  | [] => some []
  | (k, v) :: r =>
    match encV k with
    | none => none
    | some bk =>
      match encV v with
      | none => none
      | some bv =>
        match encE r with
        | none => none
        | some rest => some (bk ++ bv ++ rest)

end

/-! ## The compact decoder (`src/compact/de.rs`), monomorphized at `Value`

`Value::deserialize` calls `deserialize_any` with `ValueVisitor`
(src/value.rs).  The parser state is the remaining input together with
the absolute byte position (the `ParserHelper` of the `atm_parser_helper`
crate holds the full input and a position; the remainder determines both
given the input).  Errors carry the position they are reported at, as in
`parser_helper::Error`. -/

/-- Decoder error reasons: `Reason::UnexpectedEndOfInput` of the parser
helper, the variants of `compact::de::DecodeError` that the `Value`
decoding paths can raise, and `outOfFuel`, an artifact of the embedding's
recursion bound (never reached when the fuel exceeds the input length,
since every recursive step consumes at least one byte). -/
inductive DecErr : Type where
  | ueoi
  | eoi
  | expectedNil
  | expectedBool
  | expectedFloat
  | expectedInt
  | expectedBytes
  | expectedArray
  | expectedMap
  | outOfBoundsString
  | outOfBoundsArray
  | outOfBoundsSet
  | outOfBoundsMap
  | outOfFuel
deriving Repr, DecidableEq

/-- A decode error: byte position plus reason. -/
structure DError : Type where
  position : Nat
  reason : DecErr
deriving Repr, DecidableEq

/-- Big-endian value of a byte list. -/
def fromBE (bs : List Nat) : Nat := bs.foldl (fun a b => a * 256 + b) 0

/-- Two's-complement reading of a `w`-byte big-endian unsigned value. -/
def toSigned (n : Nat) (w : Nat) : Int :=
  if n < 2 ^ (8 * w - 1) then (n : Int) else (n : Int) - 2 ^ (8 * w)

/-- `ParserHelper::expect`: consume one byte, require it to equal
`expected`, otherwise report `err` at the byte's position. -/
def pExpect (expected : Nat) (err : DecErr) (rest : List Nat) (pos : Nat) :
    Except DError (List Nat × Nat) :=
  match rest with
  | [] => .error ⟨pos, .ueoi⟩
  | b :: r => if b = expected then .ok (r, pos + 1) else .error ⟨pos, err⟩

/-- `advance_or(w, Eoi)` followed by slicing the advanced-over bytes:
reads exactly `w` bytes, reporting `DecodeError::Eoi` at the starting
position when fewer are available. -/
def readN (w : Nat) (rest : List Nat) (pos : Nat) :
    Except DError (Nat × List Nat × Nat) :=
  if rest.length < w then .error ⟨pos, .eoi⟩
  else .ok (fromBE (rest.take w), rest.drop w, pos + w)

/-- `VVDeserializer::parse_bool`. -/
def parse_bool (rest : List Nat) (pos : Nat) :
    Except DError (Bool × List Nat × Nat) :=
  match rest with
  | [] => .error ⟨pos, .ueoi⟩
  | b :: r =>
    if b = 0b00100000 then .ok (false, r, pos + 1)
    else if b = 0b00100001 then .ok (true, r, pos + 1)
    else .error ⟨pos, .expectedBool⟩

/-- `VVDeserializer::parse_float`: the float tag byte, then eight
big-endian bytes of the bit pattern. -/
def parse_float (rest : List Nat) (pos : Nat) :
    Except DError (Nat × List Nat × Nat) := do
  let (r, p) ← pExpect 0b01000000 .expectedFloat rest pos
  let (bits, r, p) ← readN 8 r p
  return (bits, r, p)

/-- `VVDeserializer::parse_int`: int tag with inline argument or
1/2/4/8-byte signed big-endian payload. -/
def parse_int (rest : List Nat) (pos : Nat) :
    Except DError (Int × List Nat × Nat) :=
  match rest with
  | [] => .error ⟨pos, .ueoi⟩
  | b :: r =>
    if b &&& 0b11100000 = 0b01100000 then
      if b = 0b01111111 then do
        let (n, r, p) ← readN 8 r (pos + 1)
        return (toSigned n 8, r, p)
      else if b = 0b01111110 then do
        let (n, r, p) ← readN 4 r (pos + 1)
        return (toSigned n 4, r, p)
      else if b = 0b01111101 then do
        let (n, r, p) ← readN 2 r (pos + 1)
        return (toSigned n 2, r, p)
      else if b = 0b01111100 then do
        let (n, r, p) ← readN 1 r (pos + 1)
        return (toSigned n 1, r, p)
      else
        .ok ((b &&& 0b00011111 : Nat), r, pos + 1)
    else .error ⟨pos, .expectedInt⟩

/-- `VVDeserializer::parse_count`: a tag byte carrying the major `tag`,
with inline argument or 1/2/4/8-byte big-endian count; only the 8-byte
form is range-checked against `2^63 - 1` (reported at the position after
the count bytes). -/
def parse_count (tag : Nat) (expected oob : DecErr) (rest : List Nat) (pos : Nat) :
    Except DError (Nat × List Nat × Nat) :=
  match rest with
  | [] => .error ⟨pos, .ueoi⟩
  | b :: r =>
    if b &&& 0b11100000 = tag then
      if b = tag ||| 0b00011111 then do
        let (n, r, p) ← readN 8 r (pos + 1)
        if n > 2 ^ 63 - 1 then .error ⟨p, oob⟩ else return (n, r, p)
      else if b = tag ||| 0b00011110 then do
        let (n, r, p) ← readN 4 r (pos + 1)
        return (n, r, p)
      else if b = tag ||| 0b00011101 then do
        let (n, r, p) ← readN 2 r (pos + 1)
        return (n, r, p)
      else if b = tag ||| 0b00011100 then do
        let (n, r, p) ← readN 1 r (pos + 1)
        return (n, r, p)
      else
        .ok (b &&& 0b00011111, r, pos + 1)
    else .error ⟨pos, expected⟩

/-- `VVDeserializer::parse_bytes`: byte-string header then the raw
bytes; reports end of input at the position after the header when the
input is shorter than the count. -/
def parse_bytes (rest : List Nat) (pos : Nat) :
    Except DError (List Nat × List Nat × Nat) := do
  let (count, r, p) ← parse_count 0b10000000 .expectedBytes .outOfBoundsString rest pos
  if r.length < count then .error ⟨p, .ueoi⟩
  else return (r.take count, r.drop count, p + count)

mutual

/-- `deserialize_any` with `ValueVisitor` (src/compact/de.rs lines
226-244, src/value.rs): dispatch on the major tag of the peeked byte.
Byte strings become arrays of ints (`visit_bytes`), the set tag becomes
a map whose values are all nil (`MapAccessor` with `set = true`
feeding `AlwaysNil`, which is not among the sources; modelled from the
spec: "For set tag consumed as a map: synthesize a nil value for each
key"), duplicate map keys resolve by `BTreeMap::insert`. -/
def decodeAny (fuel : Nat) (rest : List Nat) (pos : Nat) :
    Except DError (Value × List Nat × Nat) :=
  match fuel, rest, pos with
  | 0, _, pos => .error ⟨pos, .outOfFuel⟩
  | fuel + 1, rest, pos =>
    match rest with
    | [] => .error ⟨pos, .ueoi⟩
    | b :: _ =>
      if b >>> 5 = 0 then do
        let (r, p) ← pExpect 0b00000000 .expectedNil rest pos
        return (.nil, r, p)
      else if b >>> 5 = 1 then do
        let (v, r, p) ← parse_bool rest pos
        return (.bool v, r, p)
      else if b >>> 5 = 2 then do
        let (bits, r, p) ← parse_float rest pos
        return (.float bits, r, p)
      else if b >>> 5 = 3 then do
        let (n, r, p) ← parse_int rest pos
        return (.int n, r, p)
      else if b >>> 5 = 4 then do
        let (bytes, r, p) ← parse_bytes rest pos
        return (.array (bytes.map (fun x => .int (x : Int))), r, p)
      else if b >>> 5 = 5 then do
        let (count, r, p) ← parse_count 0b10100000 .expectedArray .outOfBoundsArray rest pos
        let (vs, r, p) ← decodeElems fuel count r p
        return (.array vs, r, p)
      else if b >>> 5 = 6 then do
        let (count, r, p) ← parse_count 0b11000000 .expectedMap .outOfBoundsSet rest pos
        let (es, r, p) ← decodeSetEntries fuel count [] r p
        return (.map es, r, p)
      else do
        let (count, r, p) ← parse_count 0b11100000 .expectedMap .outOfBoundsMap rest pos
        let (es, r, p) ← decodeMapEntries fuel count [] r p
        return (.map es, r, p)
termination_by structural fuel

/-- The `SequenceAccessor` loop: `count` further values.  The loop
itself ticks the fuel down once per iteration so that the whole decoder
is structurally recursive on the fuel. -/
def decodeElems (fuel : Nat) (count : Nat) (rest : List Nat) (pos : Nat) :
    Except DError (List Value × List Nat × Nat) :=
  match fuel, count, rest, pos with
  | _, 0, rest, pos => .ok ([], rest, pos)
  | 0, _ + 1, _, pos => .error ⟨pos, .outOfFuel⟩
  | fuel + 1, count + 1, rest, pos => do
    let (v, r, p) ← decodeAny fuel rest pos
    let (vs, r, p) ← decodeElems fuel count r p
    return (v :: vs, r, p)
termination_by structural fuel

/-- The `MapAccessor` loop with `set = false`: `count` key/value pairs
inserted into the accumulating `BTreeMap`. -/
def decodeMapEntries (fuel : Nat) (count : Nat) (acc : List (Value × Value))
    (rest : List Nat) (pos : Nat) :
    Except DError (List (Value × Value) × List Nat × Nat) :=
  match fuel, count, acc, rest, pos with
  | _, 0, acc, rest, pos => .ok (acc, rest, pos)
  | 0, _ + 1, _, _, pos => .error ⟨pos, .outOfFuel⟩
  | fuel + 1, count + 1, acc, rest, pos => do
    let (k, r, p) ← decodeAny fuel rest pos
    let (v, r, p) ← decodeAny fuel r p
    decodeMapEntries fuel count (insertE acc k v) r p
termination_by structural fuel

/-- The `MapAccessor` loop with `set = true`: `count` keys, each bound
to nil. -/
def decodeSetEntries (fuel : Nat) (count : Nat) (acc : List (Value × Value))
    (rest : List Nat) (pos : Nat) :
    Except DError (List (Value × Value) × List Nat × Nat) :=
  match fuel, count, acc, rest, pos with
  | _, 0, acc, rest, pos => .ok (acc, rest, pos)
  | 0, _ + 1, _, _, pos => .error ⟨pos, .outOfFuel⟩
  | fuel + 1, count + 1, acc, rest, pos => do
    let (k, r, p) ← decodeAny fuel rest pos
    decodeSetEntries fuel count (insertE acc k .nil) r p
termination_by structural fuel

end

/-- `Value::deserialize(&mut VVDeserializer::new(input))`: run
`deserialize_any` from the start of the input; trailing bytes are not an
error.  The fuel `2 * input.length + 1` never runs out: each fuel tick is
either a value (which consumes at least one byte) or one loop step of a
collection body (whose value consumes at least one byte). -/
def decodeValue (input : List Nat) : Except DError Value :=
  match decodeAny (2 * input.length + 1) input 0 with
  | .error e => .error e
  | .ok (v, _, _) => .ok v

/-! ## Human-readable string escaping (`src/human/ser.rs`, `serialize_str`) -/

/-- The nibble-to-hex-digit step of the `\x7bHH\x7d` escape: `0`–`9` then
uppercase `A`–`F` (`nibble + 0x37`). -/
def nibbleHex (n : Nat) : Nat := if n ≤ 9 then n + 0x30 else n + 0x37

/-- UTF-8 bytes of a unicode scalar value (`c.to_string().as_bytes()`
for a single `char`). -/
def utf8Bytes (c : Char) : List Nat :=
  let n := c.toNat
  if n < 0x80 then [n]
  else if n < 0x800 then
    [0xC0 + (n >>> 6), 0x80 + (n &&& 0x3F)]
  else if n < 0x10000 then
    [0xE0 + (n >>> 12), 0x80 + ((n >>> 6) &&& 0x3F), 0x80 + (n &&& 0x3F)]
  else
    [0xF0 + (n >>> 18), 0x80 + ((n >>> 12) &&& 0x3F), 0x80 + ((n >>> 6) &&& 0x3F),
      0x80 + (n &&& 0x3F)]

/-- The per-character body of the `serialize_str` loop
(src/human/ser.rs lines 134-168): NUL becomes `\0`; LF, TAB and CR are
pushed as single raw bytes; the remaining controls `0x01`–`0x1F` become
`\x7bHH\x7d` with an uppercase hex digit; `0x7F` becomes `\x7b7f\x7d`
(lowercase, a literal in the source); backslash and double quote are
doubled/escaped; everything else is emitted as its UTF-8 bytes. -/
def escapeChar (c : Char) : List Nat :=
  if c.toNat = 0x00 then [0x5C, 0x30]
  else if c.toNat = 0x0A then [0x0A]
  else if c.toNat = 0x09 then [0x09]
  else if c.toNat = 0x0D then [0x0D]
  else if c.toNat ≤ 0x1F then
    [0x5C, 0x7B, if c.toNat ≤ 0x0F then 0x30 else 0x31, nibbleHex (c.toNat &&& 0x0F), 0x7D]
  else if c.toNat = 0x7F then [0x5C, 0x7B, 0x37, 0x66, 0x7D]
  else if c.toNat = 0x5C then [0x5C, 0x5C]
  else if c.toNat = 0x22 then [0x5C, 0x22]
  else utf8Bytes c

/-- `VVSerializer::serialize_str`: an opening quote, every character
escaped, a closing quote. -/
def serializeStr (s : List Char) : List Nat :=
  0x22 :: (s.map escapeChar).flatten ++ [0x22]

/-! ## Specification-side comparators for the map ordering claim -/

/-- Lexicographic comparison of two lists under an element comparator:
the first position whose comparison is not `eq` decides, a strict prefix
is smaller. -/
def lexCmp {α : Type} (f : α → α → Ordering) : List α → List α → Ordering
  | [], [] => Ordering.eq
  | [], _ :: _ => Ordering.lt
  | _ :: _, [] => Ordering.gt
  | a :: as_, b :: bs => (f a b).then (lexCmp f as_ bs)

/-- The entry comparator the claim describes: at the first differing
position the entry with the smaller key makes its map smaller; for equal
keys the values are compared. -/
def entryCmpClaim (e1 e2 : Value × Value) : Ordering :=
  (cmpV e1.1 e2.1).then (cmpV e1.2 e2.2)

/-- The entry comparator the code implements: at the first differing
position the entry with the smaller key makes its map *greater*; for
equal keys the values are compared. -/
def entryCmpAmended (e1 e2 : Value × Value) : Ordering :=
  (match cmpV e1.1 e2.1 with
    | .lt => Ordering.gt
    | .gt => Ordering.lt
    | .eq => Ordering.eq).then (cmpV e1.2 e2.2)

/-! ## The canonic codec, modelled from the spec

Modelled from the spec: the crate has no canonic encoder or canonic
decoder (`lib.rs`: "There is no support for the canonic encoding
because the serde API is not flexible enough to incorporate the required
canonicity checks"; the fuzz targets call `to_vec(&v, canonic)` and
`VVDeserializer::new(input, canonic)`, whose implementation is not among
the sources).  The definitions below follow §4.1.1 and §4.1.2 of the
specification: smallest int width, smallest count width (inline for
0–27, then 1/2/4/8 bytes introduced by arguments 28/29/30/31), NaN
normalized to `0xFFFF_FFFF_FFFF_FFFF`, no byte-string tag, no set tag,
and map keys in strictly ascending total order. -/

/-- Modelled from the spec: the minimal-width count encoding of §4.1.1
with the canonic smallest-width constraint of §4.1.2. -/
def minCount (n : Nat) (tag : Nat) : Option (List Nat) :=
  if n ≤ 27 then some [tag ||| n]
  else if n ≤ 0xFF then some (((tag ||| 28) : Nat) :: beBytes 1 n)
  else if n ≤ 0xFFFF then some (((tag ||| 29) : Nat) :: beBytes 2 n)
  else if n ≤ 0xFFFFFFFF then some (((tag ||| 30) : Nat) :: beBytes 4 n)
  else if n ≤ 2 ^ 63 - 1 then some (((tag ||| 31) : Nat) :: beBytes 8 n)
  else none

mutual

/-- Modelled from the spec: the canonic encoder `C` (§4.1.2, §4.1.4).
Ints use the same smallest-width rule the compact serializer implements;
floats normalize every NaN to the canonic bit pattern; arrays and maps
use minimal-width counts; maps emit their entries in storage order
(which is ascending key order for well-formed values). -/
def encC : Value → Option (List Nat)
  | .nil => some [0b00000000]
  | .bool b => some [if b then 0b00100001 else 0b00100000]
  | .float bits =>
    some (0b01000000 :: beBytes 8 (if isNanBits bits then canonicalNaN else bits))
  | .int v => some (encInt v)
  | .array vs =>
    match minCount vs.length 0b10100000 with
    | none => none
    | some head =>
      match encCL vs with
      | none => none
      | some body => some (head ++ body)
  | .map es =>
    match minCount es.length 0b11100000 with
    | none => none
    | some head =>
      match encCE es with
      | none => none
      | some body => some (head ++ body)

def encCL : List Value → Option (List Nat)
  | [] => some []
  | v :: r =>
    match encC v with
    | none => none
    | some b =>
      match encCL r with
      | none => none
      | some rest => some (b ++ rest)

def encCE : List (Value × Value) → Option (List Nat)
  | [] => some []
  | (k, v) :: r =>
    match encC k with
    | none => none
    | some bk =>
      match encC v with
      | none => none
      | some bv =>
        match encCE r with
        | none => none
        | some rest => some (bk ++ bv ++ rest)

end

/-- Read `w` raw bytes big-endian, or fail. -/
def readOpt (w : Nat) (rest : List Nat) : Option (Nat × List Nat) :=
  if rest.length < w then none
  else some (fromBE (rest.take w), rest.drop w)

/-- Modelled from the spec: canonic count decoding — the argument
selects the width, and the decoder rejects any count that a smaller
width could have carried, as well as 8-byte counts above `2^63 - 1`. -/
def decCountArg (arg : Nat) (rest : List Nat) : Option (Nat × List Nat) :=
  if arg ≤ 27 then some (arg, rest)
  else if arg = 28 then
    match readOpt 1 rest with
    | none => none
    | some (n, r) => if 28 ≤ n then some (n, r) else none
  else if arg = 29 then
    match readOpt 2 rest with
    | none => none
    | some (n, r) => if 2 ^ 8 ≤ n then some (n, r) else none
  else if arg = 30 then
    match readOpt 4 rest with
    | none => none
    | some (n, r) => if 2 ^ 16 ≤ n then some (n, r) else none
  else
    match readOpt 8 rest with
    | none => none
    | some (n, r) => if 2 ^ 32 ≤ n ∧ n ≤ 2 ^ 63 - 1 then some (n, r) else none

/-- Modelled from the spec: canonic int decoding — inline argument for
`0..=27`, otherwise the signed payload of the selected width, rejected
when a smaller width (or the inline form) could have carried the
value. -/
def decCInt (arg : Nat) (rest : List Nat) : Option (Int × List Nat) :=
  if arg ≤ 27 then some ((arg : Int), rest)
  else if arg = 28 then
    match readOpt 1 rest with
    | none => none
    | some (n, r) =>
      let v := toSigned n 1
      if 0 ≤ v ∧ v ≤ 27 then none else some (v, r)
  else if arg = 29 then
    match readOpt 2 rest with
    | none => none
    | some (n, r) =>
      let v := toSigned n 2
      if -128 ≤ v ∧ v ≤ 127 then none else some (v, r)
  else if arg = 30 then
    match readOpt 4 rest with
    | none => none
    | some (n, r) =>
      let v := toSigned n 4
      if -(2 ^ 15) ≤ v ∧ v ≤ 2 ^ 15 - 1 then none else some (v, r)
  else
    match readOpt 8 rest with
    | none => none
    | some (n, r) =>
      let v := toSigned n 8
      if -(2 ^ 31) ≤ v ∧ v ≤ 2 ^ 31 - 1 then none else some (v, r)

mutual

/-- Modelled from the spec: the canonic decoder `D_c` (§4.1.1–§4.1.3).
It consumes a prefix of the input and returns the decoded value together
with the unconsumed remainder, rejecting every non-canonic shape: a nil,
bool or float tag with an argument the canonic encoder never emits, a
non-canonic NaN bit pattern, non-minimal int or count widths, the
byte-string and set tags, and map keys out of ascending order (§8
requires the accepted prefix for a value to be unique, so every tag
argument is pinned to the encoder's output). -/
def decC : Nat → List Nat → Option (Value × List Nat)
  | 0, _ => none
  | _ + 1, [] => none
  | fuel + 1, b :: r =>
    if 256 ≤ b then none
    else if b >>> 5 = 0 then
      if b &&& 31 = 0 then some (.nil, r) else none
    else if b >>> 5 = 1 then
      if b &&& 31 = 0 then some (.bool false, r)
      else if b &&& 31 = 1 then some (.bool true, r)
      else none
    else if b >>> 5 = 2 then
      if b &&& 31 = 0 then
        match readOpt 8 r with
        | none => none
        | some (bits, r) =>
          if isNanBits bits && bits ≠ canonicalNaN then none else some (.float bits, r)
      else none
    else if b >>> 5 = 3 then
      match decCInt (b &&& 31) r with
      | none => none
      | some (v, r) => some (.int v, r)
    else if b >>> 5 = 4 then none
    else if b >>> 5 = 5 then
      match decCountArg (b &&& 31) r with
      | none => none
      | some (n, r) =>
        match decCList fuel n r with
        | none => none
        | some (vs, r) => some (.array vs, r)
    else if b >>> 5 = 6 then none
    else
      match decCountArg (b &&& 31) r with
      | none => none
      | some (n, r) =>
        match decCEntries fuel n none r with
        | none => none
        | some (es, r) => some (.map es, r)

/-- Modelled from the spec: `count` consecutive canonic values. -/
def decCList : Nat → Nat → List Nat → Option (List Value × List Nat)
  | _, 0, rest => some ([], rest)
  | fuel, count + 1, rest =>
    match decC fuel rest with
    | none => none
    | some (v, r) =>
      match decCList fuel count r with
      | none => none
      | some (vs, r) => some (v :: vs, r)

/-- Modelled from the spec: `count` consecutive canonic key/value pairs
whose keys must be strictly ascending in the total order (`prev` is the
previous key, if any). -/
def decCEntries : Nat → Nat → Option Value → List Nat →
    Option (List (Value × Value) × List Nat)
  | _, 0, _, rest => some ([], rest)
  | fuel, count + 1, prev, rest =>
    match decC fuel rest with
    | none => none
    | some (k, r1) =>
      if (match prev with
        | none => true
        | some p => cmpV p k == .lt) = true
      then
        match decC fuel r1 with
        | none => none
        | some (v, r2) =>
          match decCEntries fuel count (some k) r2 with
          | none => none
          | some (es, r3) => some ((k, v) :: es, r3)
      else none

end

/-- Modelled from the spec: run the canonic decoder on an input; fuel
`input.length + 1` never runs out since every level consumes a byte. -/
def decodeCanonic (input : List Nat) : Option (Value × List Nat) :=
  decC (input.length + 1) input

/-!
# Proof development

## Part A: the total order

The three scalar comparators embed into linear orders on `Int`: booleans
through 0/1, ints identically, float bit patterns through `fkey` (the
NaN class strictly below every `totalKey`).  All order laws of `cmpV`
then follow by structural induction.
-/

/-- Booleans as integers, `false ↦ 0`, `true ↦ 1`. -/
def bkey : Bool → Int
  | false => 0
  | true => 1

/-- Float bit patterns as integers: the NaN class below every total-order
key. -/
def fkey (n : Nat) : Int :=
  if isNanBits n then -(2 ^ 65) else totalKey n

theorem totalKey_lb (n : Nat) : -(2 ^ 64) ≤ totalKey n := by
  unfold totalKey
  split <;> omega

theorem totalKey_ub (n : Nat) (h : n < 2 ^ 64) : totalKey n < 2 ^ 64 := by
  unfold totalKey
  split
  · omega
  · have hx : n ^^^ 0x7FFFFFFFFFFFFFFF < 2 ^ 64 :=
      Nat.xor_lt_two_pow h (by norm_num)
    omega

theorem cmpInt_lt_iff {a b : Int} : cmpInt a b = .lt ↔ a < b := by
  unfold cmpInt
  by_cases h : a < b
  · simp [h]
  · by_cases h2 : b < a <;> simp [h, h2]

theorem cmpInt_eq_iff {a b : Int} : cmpInt a b = .eq ↔ a = b := by
  unfold cmpInt
  by_cases h : a < b
  · simp [h]
    omega
  · by_cases h2 : b < a <;> simp [h, h2] <;> omega

theorem cmpInt_gt_iff {a b : Int} : cmpInt a b = .gt ↔ b < a := by
  unfold cmpInt
  by_cases h : a < b
  · simp [h]
    omega
  · by_cases h2 : b < a <;> simp [h, h2]

theorem cmpInt_swap (a b : Int) : cmpInt b a = (cmpInt a b).swap := by
  rcases h : cmpInt a b with _ | _ | _
  · rw [cmpInt_lt_iff] at h
    simpa [Ordering.swap, cmpInt_gt_iff]
  · rw [cmpInt_eq_iff] at h
    simp [Ordering.swap, cmpInt_eq_iff, h]
  · rw [cmpInt_gt_iff] at h
    simpa [Ordering.swap, cmpInt_lt_iff]

theorem cmpBool_key (b1 b2 : Bool) : cmpBool b1 b2 = cmpInt (bkey b1) (bkey b2) := by
  cases b1 <;> cases b2 <;> simp [cmpBool, cmpInt, bkey]

theorem cmpFloatBits_key (n1 n2 : Nat) :
    cmpFloatBits n1 n2 = cmpInt (fkey n1) (fkey n2) := by
  unfold cmpFloatBits fkey
  have h1 := totalKey_lb n1
  have h2 := totalKey_lb n2
  rcases e1 : isNanBits n1 <;> rcases e2 : isNanBits n2 <;> simp [e1, e2]
  · rfl
  · rw [cmpInt_gt_iff.mpr (by omega)]
  · rw [cmpInt_lt_iff.mpr (by omega)]
  · rw [cmpInt_eq_iff.mpr rfl]

/-- The key of the int arm: the int itself (for uniform treatment). -/
theorem cmpInt_key (a b : Int) : cmpInt a b = cmpInt a b := rfl

/-- `totalKey` is injective on bit patterns (below `2^64`). -/
theorem totalKey_inj {n1 n2 : Nat} (h1 : n1 < 2 ^ 64) (h2 : n2 < 2 ^ 64)
    (h : totalKey n1 = totalKey n2) : n1 = n2 := by
  have hxlow : ∀ n : Nat, 2 ^ 63 ≤ n → n < 2 ^ 64 → 2 ^ 63 ≤ n ^^^ 0x7FFFFFFFFFFFFFFF := by
    intro n hge hlt
    by_contra hcon
    push_neg at hcon
    have hbit : (n ^^^ 0x7FFFFFFFFFFFFFFF).testBit 63 = false :=
      Nat.testBit_lt_two_pow hcon
    rw [Nat.testBit_xor] at hbit
    have hn : n.testBit 63 = true := by
      simp only [Nat.testBit_to_div_mod, decide_eq_true_eq]
      omega
    have hm : (0x7FFFFFFFFFFFFFFF : Nat).testBit 63 = false :=
      Nat.testBit_lt_two_pow (by norm_num)
    rw [hn, hm] at hbit
    simp at hbit
  unfold totalKey at h
  split at h <;> split at h
  · omega
  · rename_i hlt1 hge2
    have := hxlow n2 (by omega) h2
    have hub : n2 ^^^ 0x7FFFFFFFFFFFFFFF < 2 ^ 64 :=
      Nat.xor_lt_two_pow h2 (by norm_num)
    omega
  · rename_i hge1 hlt2
    have := hxlow n1 (by omega) h1
    have hub : n1 ^^^ 0x7FFFFFFFFFFFFFFF < 2 ^ 64 :=
      Nat.xor_lt_two_pow h1 (by norm_num)
    omega
  · have hx : n1 ^^^ 0x7FFFFFFFFFFFFFFF = n2 ^^^ 0x7FFFFFFFFFFFFFFF := by omega
    have := congrArg (· ^^^ 0x7FFFFFFFFFFFFFFF) hx
    simpa [Nat.xor_cancel_right] using this

/-- `fkey` equality forces value equality in the sense of `veq`:
either both NaN, or identical bit patterns. -/
theorem fkey_eq {n1 n2 : Nat} (h1 : n1 < 2 ^ 64) (h2 : n2 < 2 ^ 64)
    (h : fkey n1 = fkey n2) :
    (isNanBits n1 = true ∧ isNanBits n2 = true) ∨ n1 = n2 := by
  unfold fkey at h
  have l1 := totalKey_lb n1
  have l2 := totalKey_lb n2
  split at h <;> split at h
  · left
    constructor <;> assumption
  · omega
  · omega
  · right
    exact totalKey_inj h1 h2 h

mutual

theorem cmp_swap : ∀ (a b : Value), cmpV b a = (cmpV a b).swap
  | .nil, .nil => rfl
  | .nil, .bool _ | .nil, .float _ | .nil, .int _ | .nil, .array _ | .nil, .map _ => rfl
  | .bool _, .nil | .float _, .nil | .int _, .nil | .array _, .nil | .map _, .nil => rfl
  | .bool b1, .bool b2 => by
    show cmpBool b2 b1 = (cmpBool b1 b2).swap
    rw [cmpBool_key, cmpBool_key, cmpInt_swap]
  | .bool _, .float _ | .bool _, .int _ | .bool _, .array _ | .bool _, .map _ => rfl
  | .float _, .bool _ | .int _, .bool _ | .array _, .bool _ | .map _, .bool _ => rfl
  | .float n1, .float n2 => by
    show cmpFloatBits n2 n1 = (cmpFloatBits n1 n2).swap
    rw [cmpFloatBits_key, cmpFloatBits_key, cmpInt_swap]
  | .float _, .int _ | .float _, .array _ | .float _, .map _ => rfl
  | .int _, .float _ | .array _, .float _ | .map _, .float _ => rfl
  | .int n1, .int n2 => by
    show cmpInt n2 n1 = (cmpInt n1 n2).swap
    rw [cmpInt_swap]
  | .int _, .array _ | .int _, .map _ => rfl
  | .array _, .int _ | .map _, .int _ => rfl
  | .array v1, .array v2 => by
    show cmpL v2 v1 = (cmpL v1 v2).swap
    exact cmpL_swap v1 v2
  | .array _, .map _ => rfl
  | .map _, .array _ => rfl
  | .map m1, .map m2 => by
    show cmpE m2 m1 = (cmpE m1 m2).swap
    exact cmpE_swap m1 m2
termination_by a b => sizeOf a + sizeOf b

theorem cmpL_swap : ∀ (as_ bs : List Value), cmpL bs as_ = (cmpL as_ bs).swap
  | [], [] => by simp [cmpL, Ordering.swap]
  | [], _ :: _ => by simp [cmpL, Ordering.swap]
  | _ :: _, [] => by simp [cmpL, Ordering.swap]
  | a :: as_, b :: bs => by
    simp only [cmpL]
    rw [cmp_swap a b]
    rcases cmpV a b with _ | _ | _ <;> simp [Ordering.swap]
    exact cmpL_swap as_ bs
termination_by as_ bs => sizeOf as_ + sizeOf bs

theorem cmpE_swap : ∀ (es fs : List (Value × Value)), cmpE fs es = (cmpE es fs).swap
  | [], [] => by simp [cmpE, Ordering.swap]
  | [], _ :: _ => by simp [cmpE, Ordering.swap]
  | _ :: _, [] => by simp [cmpE, Ordering.swap]
  | (k1, v1) :: r1, (k2, v2) :: r2 => by
    simp only [cmpE]
    rw [cmp_swap k1 k2]
    rcases cmpV k1 k2 with _ | _ | _ <;> simp [Ordering.swap]
    rw [cmp_swap v1 v2]
    rcases cmpV v1 v2 with _ | _ | _ <;> simp [Ordering.swap]
    exact cmpE_swap r1 r2
termination_by es fs => sizeOf es + sizeOf fs

end

theorem cmpV_bool (b1 b2 : Bool) :
    cmpV (.bool b1) (.bool b2) = cmpInt (bkey b1) (bkey b2) := cmpBool_key b1 b2

theorem cmpV_float (n1 n2 : Nat) :
    cmpV (.float n1) (.float n2) = cmpInt (fkey n1) (fkey n2) := cmpFloatBits_key n1 n2

theorem cmpV_int (n1 n2 : Int) : cmpV (.int n1) (.int n2) = cmpInt n1 n2 := rfl

theorem cmpV_array (v1 v2 : List Value) : cmpV (.array v1) (.array v2) = cmpL v1 v2 := rfl

theorem cmpV_map (m1 m2 : List (Value × Value)) : cmpV (.map m1) (.map m2) = cmpE m1 m2 := rfl

mutual

theorem veq_refl : ∀ a : Value, veq a a = true
  | .nil => rfl
  | .bool b => by
    show (b == b) = true
    simp
  | .float n => by
    show (isNanBits n && isNanBits n || n == n) = true
    simp
  | .int n => by
    show (n == n) = true
    simp
  | .array vs => veqL_refl vs
  | .map es => veqE_refl es
termination_by a => sizeOf a

theorem veqL_refl : ∀ vs : List Value, veqL vs vs = true
  | [] => rfl
  | v :: r => by
    show (veq v v && veqL r r) = true
    rw [veq_refl v, veqL_refl r]
    rfl
termination_by vs => sizeOf vs

theorem veqE_refl : ∀ es : List (Value × Value), veqE es es = true
  | [] => rfl
  | (k, v) :: r => by
    show (veq k k && veq v v && veqE r r) = true
    rw [veq_refl k, veq_refl v, veqE_refl r]
    rfl
termination_by es => sizeOf es

end

mutual

/-- Equal values (in the sense of `PartialEq`) compare `Equal`. -/
theorem veq_cmp_eq : ∀ a b : Value, veq a b = true → cmpV a b = .eq
  | .nil, .nil, _ => rfl
  | .nil, .bool _, h | .nil, .float _, h | .nil, .int _, h | .nil, .array _, h
  | .nil, .map _, h => nomatch h
  | .bool _, .nil, h | .float _, .nil, h | .int _, .nil, h | .array _, .nil, h
  | .map _, .nil, h => nomatch h
  | .bool b1, .bool b2, h => by
    have : b1 = b2 := by
      have : (b1 == b2) = true := h
      exact eq_of_beq this
    rw [cmpV_bool, this, cmpInt_eq_iff]
  | .bool _, .float _, h | .bool _, .int _, h | .bool _, .array _, h
  | .bool _, .map _, h => nomatch h
  | .float _, .bool _, h | .int _, .bool _, h | .array _, .bool _, h
  | .map _, .bool _, h => nomatch h
  | .float n1, .float n2, h => by
    rw [cmpV_float, cmpInt_eq_iff]
    have h' : (isNanBits n1 && isNanBits n2 || n1 == n2) = true := h
    rcases Bool.or_eq_true_iff.mp h' with hnan | heq
    · unfold fkey
      rw [Bool.and_eq_true] at hnan
      rw [hnan.1, hnan.2]
      simp
    · rw [eq_of_beq heq]
  | .float _, .int _, h | .float _, .array _, h | .float _, .map _, h => nomatch h
  | .int _, .float _, h | .array _, .float _, h | .map _, .float _, h => nomatch h
  | .int n1, .int n2, h => by
    rw [cmpV_int, cmpInt_eq_iff]
    exact_mod_cast eq_of_beq (h : (n1 == n2) = true)
  | .int _, .array _, h | .int _, .map _, h => nomatch h
  | .array _, .int _, h | .map _, .int _, h => nomatch h
  | .array v1, .array v2, h => by
    rw [cmpV_array]
    exact veqL_cmp_eq v1 v2 h
  | .array _, .map _, h => nomatch h
  | .map _, .array _, h => nomatch h
  | .map m1, .map m2, h => by
    rw [cmpV_map]
    exact veqE_cmp_eq m1 m2 h
termination_by a b => sizeOf a + sizeOf b

theorem veqL_cmp_eq : ∀ as_ bs : List Value, veqL as_ bs = true → cmpL as_ bs = .eq
  | [], [], _ => rfl
  | [], _ :: _, h => nomatch h
  | _ :: _, [], h => nomatch h
  | a :: as_, b :: bs, h => by
    have h' : (veq a b && veqL as_ bs) = true := h
    rw [Bool.and_eq_true] at h'
    simp only [cmpL, veq_cmp_eq a b h'.1]
    exact veqL_cmp_eq as_ bs h'.2
termination_by as_ bs => sizeOf as_ + sizeOf bs

theorem veqE_cmp_eq : ∀ es fs : List (Value × Value), veqE es fs = true → cmpE es fs = .eq
  | [], [], _ => rfl
  | [], _ :: _, h => nomatch h
  | _ :: _, [], h => nomatch h
  | (k1, v1) :: r1, (k2, v2) :: r2, h => by
    have h' : (veq k1 k2 && veq v1 v2 && veqE r1 r2) = true := h
    rw [Bool.and_eq_true, Bool.and_eq_true] at h'
    simp only [cmpE, veq_cmp_eq k1 k2 h'.1.1, veq_cmp_eq v1 v2 h'.1.2]
    exact veqE_cmp_eq r1 r2 h'.2
termination_by es fs => sizeOf es + sizeOf fs

end

theorem wfL_mem {vs : List Value} (h : wfL vs = true) {v : Value} (hv : v ∈ vs) :
    wf v = true := by
  induction vs with
  | nil => cases hv
  | cons x r ih =>
    have h' : (wf x && wfL r) = true := h
    rw [Bool.and_eq_true] at h'
    rcases List.mem_cons.mp hv with rfl | hr
    · exact h'.1
    · exact ih h'.2 hr

theorem wfE_mem {es : List (Value × Value)} (h : wfE es = true) {e : Value × Value}
    (he : e ∈ es) : wf e.1 = true ∧ wf e.2 = true := by
  induction es with
  | nil => cases he
  | cons x r ih =>
    obtain ⟨k, v⟩ := x
    have h' := h
    rw [wfE, Bool.and_eq_true, Bool.and_eq_true] at h'
    rcases List.mem_cons.mp he with rfl | hr
    · exact ⟨h'.1.1, h'.1.2⟩
    · exact ih h'.2 hr

theorem wf_array {vs : List Value} (h : wf (.array vs) = true) : wfL vs = true := by
  have h' : ((vs.length < 2 ^ 63 : Bool) && wfL vs) = true := h
  rw [Bool.and_eq_true] at h'
  exact h'.2

theorem wf_map_entries {es : List (Value × Value)} (h : wf (.map es) = true) :
    wfE es = true := by
  have h' := h
  rw [wf, Bool.and_eq_true, Bool.and_eq_true] at h'
  exact h'.2

theorem wf_map_sorted {es : List (Value × Value)} (h : wf (.map es) = true) :
    sortedE es = true := by
  have h' := h
  rw [wf, Bool.and_eq_true, Bool.and_eq_true] at h'
  exact h'.1.2

theorem wf_float {n : Nat} (h : wf (.float n) = true) : n < 2 ^ 64 := by
  have h' : (n < 2 ^ 64 : Bool) = true := h
  exact of_decide_eq_true h'

mutual

/-- Values comparing `Equal` are equal in the sense of `PartialEq`
(for well-formed values: float bit patterns below `2^64`). -/
theorem cmp_eq_veq : ∀ a b : Value, wf a = true → wf b = true →
    cmpV a b = .eq → veq a b = true
  | .nil, .nil, _, _, _ => rfl
  | .nil, .bool _, _, _, h | .nil, .float _, _, _, h | .nil, .int _, _, _, h
  | .nil, .array _, _, _, h | .nil, .map _, _, _, h => nomatch h
  | .bool _, .nil, _, _, h | .float _, .nil, _, _, h | .int _, .nil, _, _, h
  | .array _, .nil, _, _, h | .map _, .nil, _, _, h => nomatch h
  | .bool b1, .bool b2, _, _, h => by
    rw [cmpV_bool, cmpInt_eq_iff] at h
    have : b1 = b2 := by cases b1 <;> cases b2 <;> simp [bkey] at h ⊢
    show (b1 == b2) = true
    rw [this]
    simp
  | .bool _, .float _, _, _, h | .bool _, .int _, _, _, h | .bool _, .array _, _, _, h
  | .bool _, .map _, _, _, h => nomatch h
  | .float _, .bool _, _, _, h | .int _, .bool _, _, _, h | .array _, .bool _, _, _, h
  | .map _, .bool _, _, _, h => nomatch h
  | .float n1, .float n2, w1, w2, h => by
    rw [cmpV_float, cmpInt_eq_iff] at h
    show (isNanBits n1 && isNanBits n2 || n1 == n2) = true
    rcases fkey_eq (wf_float w1) (wf_float w2) h with ⟨ha, hb⟩ | rfl
    · rw [ha, hb]
      rfl
    · simp
  | .float _, .int _, _, _, h | .float _, .array _, _, _, h
  | .float _, .map _, _, _, h => nomatch h
  | .int _, .float _, _, _, h | .array _, .float _, _, _, h
  | .map _, .float _, _, _, h => nomatch h
  | .int n1, .int n2, _, _, h => by
    rw [cmpV_int, cmpInt_eq_iff] at h
    show (n1 == n2) = true
    rw [h]
    simp
  | .int _, .array _, _, _, h | .int _, .map _, _, _, h => nomatch h
  | .array _, .int _, _, _, h | .map _, .int _, _, _, h => nomatch h
  | .array v1, .array v2, w1, w2, h => by
    rw [cmpV_array] at h
    exact cmpL_eq_veq v1 v2 (wf_array w1) (wf_array w2) h
  | .array _, .map _, _, _, h => nomatch h
  | .map _, .array _, _, _, h => nomatch h
  | .map m1, .map m2, w1, w2, h => by
    rw [cmpV_map] at h
    exact cmpE_eq_veq m1 m2 (wf_map_entries w1) (wf_map_entries w2) h
termination_by a b => sizeOf a + sizeOf b

theorem cmpL_eq_veq : ∀ as_ bs : List Value, wfL as_ = true → wfL bs = true →
    cmpL as_ bs = .eq → veqL as_ bs = true
  | [], [], _, _, _ => rfl
  | [], _ :: _, _, _, h => nomatch h
  | _ :: _, [], _, _, h => nomatch h
  | a :: as_, b :: bs, w1, w2, h => by
    have w1' : (wf a && wfL as_) = true := w1
    have w2' : (wf b && wfL bs) = true := w2
    rw [Bool.and_eq_true] at w1' w2'
    show (veq a b && veqL as_ bs) = true
    rcases hab : cmpV a b with _ | _ | _ <;> simp only [cmpL, hab] at h
    · exact nomatch h
    · rw [cmp_eq_veq a b w1'.1 w2'.1 hab, cmpL_eq_veq as_ bs w1'.2 w2'.2 h]
      rfl
    · exact nomatch h
termination_by as_ bs => sizeOf as_ + sizeOf bs

theorem cmpE_eq_veq : ∀ es fs : List (Value × Value), wfE es = true → wfE fs = true →
    cmpE es fs = .eq → veqE es fs = true
  | [], [], _, _, _ => rfl
  | [], _ :: _, _, _, h => nomatch h
  | _ :: _, [], _, _, h => nomatch h
  | (k1, v1) :: r1, (k2, v2) :: r2, w1, w2, h => by
    have w1' := w1
    have w2' := w2
    rw [wfE, Bool.and_eq_true, Bool.and_eq_true] at w1' w2'
    show (veq k1 k2 && veq v1 v2 && veqE r1 r2) = true
    rcases hk : cmpV k1 k2 with _ | _ | _ <;> simp only [cmpE, hk] at h
    · exact nomatch h
    · rcases hv : cmpV v1 v2 with _ | _ | _ <;> simp only [hv] at h
      · exact nomatch h
      · rw [cmp_eq_veq k1 k2 w1'.1.1 w2'.1.1 hk, cmp_eq_veq v1 v2 w1'.1.2 w2'.1.2 hv,
          cmpE_eq_veq r1 r2 w1'.2 w2'.2 h]
        rfl
      · exact nomatch h
    · exact nomatch h
termination_by es fs => sizeOf es + sizeOf fs

end

/-- The transitivity package of three comparison outcomes `o1 = cmp a b`,
`o2 = cmp b c`, `o3 = cmp a c`: `lt`/`eq` compositions behave like a
transitive relation. -/
@[reducible] def Trio (o1 o2 o3 : Ordering) : Prop :=
  (o1 = .lt → o2 = .lt → o3 = .lt) ∧
  (o1 = .lt → o2 = .eq → o3 = .lt) ∧
  (o1 = .eq → o2 = .lt → o3 = .lt) ∧
  (o1 = .eq → o2 = .eq → o3 = .eq)

theorem trio_o1_gt (o2 o3 : Ordering) : Trio .gt o2 o3 := by
  refine ⟨?_, ?_, ?_, ?_⟩ <;> intro h1 h2 <;> simp at h1

theorem trio_o2_gt (o1 o3 : Ordering) : Trio o1 .gt o3 := by
  refine ⟨?_, ?_, ?_, ?_⟩ <;> intro h1 h2 <;> simp at h2

theorem trio_left_lt (o2 : Ordering) {o3 : Ordering} (h3 : o3 = .lt) : Trio .lt o2 o3 := by
  refine ⟨?_, ?_, ?_, ?_⟩ <;> intro h1 h2 <;> first | exact h3 | simp at h1

theorem trio_mid_lt (o1 : Ordering) {o3 : Ordering} (h3 : o3 = .lt) : Trio o1 .lt o3 := by
  refine ⟨?_, ?_, ?_, ?_⟩ <;> intro h1 h2 <;> first | exact h3 | simp at h2

theorem cmpInt_trio (a b c : Int) : Trio (cmpInt a b) (cmpInt b c) (cmpInt a c) := by
  refine ⟨?_, ?_, ?_, ?_⟩ <;> intro h1 h2 <;>
    simp only [cmpInt_lt_iff, cmpInt_eq_iff] at h1 h2 ⊢ <;> omega

mutual

/-- Transitivity of `Ord::cmp for Value` over `lt`/`eq` compositions. -/
theorem cmp_trans : ∀ a b c : Value, Trio (cmpV a b) (cmpV b c) (cmpV a c) := by
  intro a b c
  cases a <;> cases b <;> cases c <;>
    refine ⟨fun h1 h2 => ?_, fun h1 h2 => ?_, fun h1 h2 => ?_, fun h1 h2 => ?_⟩ <;>
    first
    | rfl
    | exact Ordering.noConfusion h1
    | exact Ordering.noConfusion h2
    | (simp only [cmpV_bool, cmpV_float, cmpV_int, cmpInt_lt_iff, cmpInt_eq_iff]
        at h1 h2 ⊢
       omega)
    | (rename_i x y z
       first
       | exact (cmpL_trans x y z).1 h1 h2
       | exact (cmpL_trans x y z).2.1 h1 h2
       | exact (cmpL_trans x y z).2.2.1 h1 h2
       | exact (cmpL_trans x y z).2.2.2 h1 h2
       | exact (cmpE_trans x y z).1 h1 h2
       | exact (cmpE_trans x y z).2.1 h1 h2
       | exact (cmpE_trans x y z).2.2.1 h1 h2
       | exact (cmpE_trans x y z).2.2.2 h1 h2)
termination_by a b c => sizeOf a + sizeOf b + sizeOf c

theorem cmpL_trans : ∀ x y z : List Value, Trio (cmpL x y) (cmpL y z) (cmpL x z) := by
  intro x y z
  cases x with
  | nil =>
    cases y with
    | nil =>
      cases z <;>
        refine ⟨fun h1 h2 => ?_, fun h1 h2 => ?_, fun h1 h2 => ?_, fun h1 h2 => ?_⟩ <;>
        first | rfl | exact h2 | exact Ordering.noConfusion h1
    | cons b bs =>
      cases z with
      | nil => exact trio_o2_gt _ _
      | cons c cs => exact trio_left_lt _ rfl
  | cons a as_ =>
    cases y with
    | nil => exact trio_o1_gt _ _
    | cons b bs =>
      cases z with
      | nil => exact trio_o2_gt _ _
      | cons c cs =>
        have ht := cmp_trans a b c
        have htl := cmpL_trans as_ bs cs
        rcases hab : cmpV a b with _ | _ | _ <;> rcases hbc : cmpV b c with _ | _ | _ <;>
          simp only [cmpL, hab, hbc]
        · rw [hab, hbc] at ht
          rw [ht.1 rfl rfl]
          exact trio_left_lt _ rfl
        · rw [hab, hbc] at ht
          rw [ht.2.1 rfl rfl]
          exact trio_left_lt _ rfl
        · exact trio_o2_gt _ _
        · rw [hab, hbc] at ht
          rw [ht.2.2.1 rfl rfl]
          exact trio_mid_lt _ rfl
        · rw [hab, hbc] at ht
          rw [ht.2.2.2 rfl rfl]
          exact htl
        · exact trio_o2_gt _ _
        · exact trio_o1_gt _ _
        · exact trio_o1_gt _ _
        · exact trio_o1_gt _ _
termination_by x y z => sizeOf x + sizeOf y + sizeOf z

theorem cmpE_trans : ∀ x y z : List (Value × Value), Trio (cmpE x y) (cmpE y z) (cmpE x z) := by
  intro x y z
  cases x with
  | nil =>
    cases y with
    | nil =>
      cases z <;>
        refine ⟨fun h1 h2 => ?_, fun h1 h2 => ?_, fun h1 h2 => ?_, fun h1 h2 => ?_⟩ <;>
        first | rfl | exact h2 | exact Ordering.noConfusion h1
    | cons f fs =>
      cases z with
      | nil => exact trio_o2_gt _ _
      | cons g gs => exact trio_left_lt _ rfl
  | cons e es =>
    obtain ⟨k1, v1⟩ := e
    cases y with
    | nil => exact trio_o1_gt _ _
    | cons f fs =>
      obtain ⟨k2, v2⟩ := f
      cases z with
      | nil => exact trio_o2_gt _ _
      | cons g gs =>
        obtain ⟨k3, v3⟩ := g
        have htk := cmp_trans k1 k2 k3
        rcases hk12 : cmpV k1 k2 with _ | _ | _ <;>
          rcases hk23 : cmpV k2 k3 with _ | _ | _ <;>
          simp only [cmpE, hk12, hk23]
        · exact trio_o1_gt _ _
        · exact trio_o1_gt _ _
        · exact trio_o1_gt _ _
        · exact trio_o2_gt _ _
        · rw [hk12, hk23] at htk
          rw [htk.2.2.2 rfl rfl]
          have htv := cmp_trans v1 v2 v3
          have hte := cmpE_trans es fs gs
          rcases hv12 : cmpV v1 v2 with _ | _ | _ <;>
            rcases hv23 : cmpV v2 v3 with _ | _ | _ <;>
            simp only [hv12, hv23]
          · rw [hv12, hv23] at htv
            rw [htv.1 rfl rfl]
            exact trio_left_lt _ rfl
          · rw [hv12, hv23] at htv
            rw [htv.2.1 rfl rfl]
            exact trio_left_lt _ rfl
          · exact trio_o2_gt _ _
          · rw [hv12, hv23] at htv
            rw [htv.2.2.1 rfl rfl]
            exact trio_mid_lt _ rfl
          · rw [hv12, hv23] at htv
            rw [htv.2.2.2 rfl rfl]
            exact hte
          · exact trio_o2_gt _ _
          · exact trio_o1_gt _ _
          · exact trio_o1_gt _ _
          · exact trio_o1_gt _ _
        · have h21 : cmpV k2 k1 = .eq := by
            rw [cmp_swap k1 k2, hk12]
            rfl
          have h32 : cmpV k3 k2 = .lt := by
            rw [cmp_swap k2 k3, hk23]
            rfl
          have ht2 := cmp_trans k3 k2 k1
          rw [h21, h32] at ht2
          have h31 : cmpV k3 k1 = .lt := ht2.2.1 rfl rfl
          have h13 : cmpV k1 k3 = .gt := by
            rw [cmp_swap k3 k1, h31]
            rfl
          rw [h13]
          exact trio_mid_lt _ rfl
        · exact trio_o2_gt _ _
        · have h21 : cmpV k2 k1 = .lt := by
            rw [cmp_swap k1 k2, hk12]
            rfl
          have h32 : cmpV k3 k2 = .eq := by
            rw [cmp_swap k2 k3, hk23]
            rfl
          have ht2 := cmp_trans k3 k2 k1
          rw [h21, h32] at ht2
          have h31 : cmpV k3 k1 = .lt := ht2.2.2.1 rfl rfl
          have h13 : cmpV k1 k3 = .gt := by
            rw [cmp_swap k3 k1, h31]
            rfl
          rw [h13]
          exact trio_left_lt _ rfl
        · have h21 : cmpV k2 k1 = .lt := by
            rw [cmp_swap k1 k2, hk12]
            rfl
          have h32 : cmpV k3 k2 = .lt := by
            rw [cmp_swap k2 k3, hk23]
            rfl
          have ht2 := cmp_trans k3 k2 k1
          rw [h21, h32] at ht2
          have h31 : cmpV k3 k1 = .lt := ht2.1 rfl rfl
          have h13 : cmpV k1 k3 = .gt := by
            rw [cmp_swap k3 k1, h31]
            rfl
          rw [h13]
          exact trio_left_lt _ rfl
termination_by x y z => sizeOf x + sizeOf y + sizeOf z

end

theorem cmp_refl (a : Value) : cmpV a a = .eq := veq_cmp_eq a a (veq_refl a)

theorem cmp_gt_iff_lt {a b : Value} : cmpV a b = .gt ↔ cmpV b a = .lt := by
  rw [cmp_swap a b]
  rcases cmpV a b with _ | _ | _ <;> simp [Ordering.swap]

theorem cmp_eq_comm {a b : Value} (h : cmpV a b = .eq) : cmpV b a = .eq := by
  rw [cmp_swap a b, h]
  rfl

/-- Rewriting the left argument of `cmpV` along an `Equal` comparison. -/
theorem cmp_congr_left {a a' : Value} (h : cmpV a a' = .eq) (b : Value) :
    cmpV a b = cmpV a' b := by
  rcases h2 : cmpV a' b with _ | _ | _
  · exact (cmp_trans a a' b).2.2.1 h h2
  · exact (cmp_trans a a' b).2.2.2 h h2
  · rw [cmp_gt_iff_lt] at h2 ⊢
    exact (cmp_trans b a' a).2.1 h2 (cmp_eq_comm h)

/-- Rewriting the right argument of `cmpV` along an `Equal` comparison. -/
theorem cmp_congr_right {b b' : Value} (h : cmpV b b' = .eq) (a : Value) :
    cmpV a b = cmpV a b' := by
  rw [cmp_swap b a, cmp_swap b' a, cmp_congr_left h a]

/-! ## Part B: the map-ordering claim (C4) -/

theorem cmpE_eq_lexCmp : ∀ es fs : List (Value × Value),
    cmpE es fs = lexCmp entryCmpAmended es fs
  | [], [] => rfl
  | [], _ :: _ => rfl
  | _ :: _, [] => rfl
  | (k1, v1) :: r1, (k2, v2) :: r2 => by
    simp only [cmpE, lexCmp, entryCmpAmended]
    rcases cmpV k1 k2 with _ | _ | _
    · rfl
    · rcases cmpV v1 v2 with _ | _ | _
      · rfl
      · simpa [Ordering.then] using cmpE_eq_lexCmp r1 r2
      · rfl
    · rfl

/-- C4: the claim as stated — map comparison is lexicographic over the
entry sequences with the smaller key making its map smaller — fails on
the code: the singleton maps `{nil: nil}` and `{false: nil}` compare
`Greater` although the claimed comparison yields `Less`. -/
theorem C4_counterexample :
    cmpV (.map [(.nil, .nil)]) (.map [(.bool false, .nil)]) = .gt ∧
    lexCmp entryCmpClaim [((.nil : Value), (.nil : Value))]
      [(.bool false, .nil)] = .lt ∧
    cmpV (.map [(.nil, .nil)]) (.map [(.bool false, .nil)]) ≠
      lexCmp entryCmpClaim [((.nil : Value), (.nil : Value))] [(.bool false, .nil)] := by
  refine ⟨rfl, rfl, ?_⟩
  intro h
  rw [show lexCmp entryCmpClaim [((.nil : Value), (.nil : Value))]
      [(.bool false, .nil)] = .lt from rfl] at h
  exact Ordering.noConfusion h

/-- C4 (amended): map comparison is lexicographic over the entry
sequences in ascending key order, where at the first differing position
the entry with the smaller key makes its map *greater*, entries with
equal keys are decided by comparing the values, and a strict prefix is
smaller. -/
theorem C4_map_cmp_lexicographic (m1 m2 : List (Value × Value)) :
    cmpV (.map m1) (.map m2) = lexCmp entryCmpAmended m1 m2 := by
  rw [cmpV_map]
  exact cmpE_eq_lexCmp m1 m2

/-! ## Part C: total-order laws (C7) -/

/-- C7: the linear order on values is reflexive, antisymmetric with
respect to `PartialEq` equality, transitive and total, and `cmp`
agrees with equality and the strict comparisons — including NaN floats
(every `Value` whose float bit patterns are 64-bit, which is the `wf`
data-type invariant). -/
theorem C7_total_order_laws (a b c : Value)
    (wa : wf a = true) (wb : wf b = true) (wc : wf c = true) :
    cmpV a a = .eq ∧
    (veq a b = true → cmpV a b ≠ .gt) ∧
    (cmpV a b ≠ .gt → cmpV b a ≠ .gt → veq a b = true) ∧
    (cmpV a b ≠ .gt → cmpV b c ≠ .gt → cmpV a c ≠ .gt) ∧
    (cmpV a b ≠ .gt ∨ cmpV b a ≠ .gt) ∧
    (cmpV a b = .eq ↔ veq a b = true) ∧
    (cmpV a b = .lt ↔ (cmpV a b ≠ .gt ∧ veq a b ≠ true)) ∧
    (cmpV a b = .gt ↔ cmpV b a = .lt) := by
  refine ⟨cmp_refl a, ?_, ?_, ?_, ?_, ⟨cmp_eq_veq a b wa wb, veq_cmp_eq a b⟩, ?_,
    cmp_gt_iff_lt⟩
  · intro h
    rw [veq_cmp_eq a b h]
    simp
  · intro h1 h2
    rcases hab : cmpV a b with _ | _ | _
    · exfalso
      apply h2
      rw [cmp_gt_iff_lt.mpr hab]
    · exact cmp_eq_veq a b wa wb hab
    · exact absurd hab h1
  · intro h1 h2
    have ht := cmp_trans a b c
    rcases hab : cmpV a b with _ | _ | _ <;> rcases hbc : cmpV b c with _ | _ | _ <;>
      rw [hab, hbc] at ht
    · rw [ht.1 rfl rfl]
      simp
    · rw [ht.2.1 rfl rfl]
      simp
    · exact absurd hbc h2
    · rw [ht.2.2.1 rfl rfl]
      simp
    · rw [ht.2.2.2 rfl rfl]
      simp
    · exact absurd hbc h2
    · exact absurd hab h1
    · exact absurd hab h1
    · exact absurd hab h1
  · rcases hab : cmpV a b with _ | _ | _
    · left
      simp
    · left
      simp
    · right
      rw [cmp_gt_iff_lt.mp hab]
      simp
  · constructor
    · intro h
      refine ⟨by rw [h]; simp, ?_⟩
      intro hv
      rw [veq_cmp_eq a b hv] at h
      exact Ordering.noConfusion h
    · intro ⟨h1, h2⟩
      rcases hab : cmpV a b with _ | _ | _
      · rfl
      · exact absurd (cmp_eq_veq a b wa wb hab) h2
      · exact absurd hab h1

/-- C7 witness: the laws instantiated at a NaN float, an int and a
nested map. -/
theorem C7_total_order_laws_witness :
    cmpV (.float canonicalNaN) (.float canonicalNaN) = .eq ∧
    (veq (.float canonicalNaN) (.int 5) = true → cmpV (.float canonicalNaN) (.int 5) ≠ .gt) ∧
    (cmpV (.float canonicalNaN) (.int 5) ≠ .gt → cmpV (.int 5) (.float canonicalNaN) ≠ .gt →
      veq (.float canonicalNaN) (.int 5) = true) ∧
    (cmpV (.float canonicalNaN) (.int 5) ≠ .gt →
      cmpV (.int 5) (.map [(.nil, .bool true)]) ≠ .gt →
      cmpV (.float canonicalNaN) (.map [(.nil, .bool true)]) ≠ .gt) ∧
    (cmpV (.float canonicalNaN) (.int 5) ≠ .gt ∨ cmpV (.int 5) (.float canonicalNaN) ≠ .gt) ∧
    (cmpV (.float canonicalNaN) (.int 5) = .eq ↔ veq (.float canonicalNaN) (.int 5) = true) ∧
    (cmpV (.float canonicalNaN) (.int 5) = .lt ↔
      (cmpV (.float canonicalNaN) (.int 5) ≠ .gt ∧ veq (.float canonicalNaN) (.int 5) ≠ true)) ∧
    (cmpV (.float canonicalNaN) (.int 5) = .gt ↔ cmpV (.int 5) (.float canonicalNaN) = .lt) :=
  C7_total_order_laws (.float canonicalNaN) (.int 5) (.map [(.nil, .bool true)])
    (by simp [wf, canonicalNaN]) (by simp [wf]) (by simp [wf, wfE, sortedE, wfL])

/-! ## Part D: the meaningful partial order on floats (C5) -/

/-- C5: the claim — NaN incomparable to non-NaN floats and `-0.0`
incomparable to `+0.0` in the meaningful partial order — fails on the
code: `meaningful_partial_cmp` on two floats always returns
`Some(total-order comparison)`; both claimed `None` results are
`Some(Less)`.  (`0x3FF0000000000000` is `1.0`, `0x8000000000000000` is
`-0.0`.) -/
theorem C5_counterexample :
    isNanBits 0x3FF0000000000000 = false ∧
    meaningfulCmp (.float canonicalNaN) (.float 0x3FF0000000000000) = some .lt ∧
    meaningfulCmp (.float canonicalNaN) (.float 0x3FF0000000000000) ≠ none ∧
    meaningfulCmp (.float 0x8000000000000000) (.float 0) = some .lt ∧
    meaningfulCmp (.float 0x8000000000000000) (.float 0) ≠ none := by
  refine ⟨by decide, ?_, ?_, ?_, ?_⟩ <;>
    simp [meaningfulCmp, cmpV, cmpFloatBits, totalCmpBits, totalKey, isNanBits] <;> decide

/-- C5 (amended): in the meaningful partial order two floats are always
comparable, ordered exactly as in the total order; in particular a NaN
compares `Some(Less)` against every non-NaN float, and `-0.0` compares
`Some(Less)` against `+0.0` — not `None`. -/
theorem C5_float_meaningful_total (x y : Nat)
    (hx : isNanBits x = true) (hy : isNanBits y = false) :
    meaningfulCmp (.float x) (.float y) = some (cmpFloatBits x y) ∧
    meaningfulCmp (.float x) (.float y) = some .lt ∧
    meaningfulCmp (.float 0x8000000000000000) (.float 0) = some .lt := by
  refine ⟨by simp [meaningfulCmp]; rfl, ?_, ?_⟩
  · simp only [meaningfulCmp]
    have : cmpFloatBits x y = .lt := by
      unfold cmpFloatBits
      rw [hx, hy]
      simp
    rw [show cmpV (.float x) (.float y) = cmpFloatBits x y from rfl, this]
  · simp [meaningfulCmp, cmpV, cmpFloatBits, totalCmpBits, totalKey, isNanBits]
    try decide

/-- C5 witness: the amended statement at the canonic NaN and `1.0`. -/
theorem C5_float_meaningful_total_witness :
    meaningfulCmp (.float canonicalNaN) (.float 0x3FF0000000000000) =
      some (cmpFloatBits canonicalNaN 0x3FF0000000000000) ∧
    meaningfulCmp (.float canonicalNaN) (.float 0x3FF0000000000000) = some .lt ∧
    meaningfulCmp (.float 0x8000000000000000) (.float 0) = some .lt :=
  C5_float_meaningful_total canonicalNaN 0x3FF0000000000000 (by decide) (by decide)

/-! ## Part E: the compact count-width slip (C3) -/

/-- C3: the claim — counts `2^16 ≤ n < 2^32` carry the five-bit
argument 30 before the 4-byte big-endian count — is right about the
format but the encoder violates it: `serialize_count` pushes the
argument-29 marker (the 2-byte introducer) before the four count bytes.
The crate's own `parse_count` then reads a 2-byte count of 1 from the
encoder's output for `n = 65536` and leaves the last two count bytes as
payload. -/
theorem C3_count_width_bug :
    serialize_count 65536 0b10100000 = some [0b10111101, 0x00, 0x01, 0x00, 0x00] ∧
    (0b10111101 : Nat) &&& 0b00011111 = 29 ∧
    (0b10111101 : Nat) ≠ 0b10100000 ||| 30 ∧
    parse_count 0b10100000 .expectedArray .outOfBoundsArray
      [0b10111101, 0x00, 0x01, 0x00, 0x00] 0 = .ok (1, [0x00, 0x00], 3) := by
  refine ⟨by decide, by decide, by decide, rfl⟩

/-! ## Part F: nil decoding (C8) -/

/-- C8: the claim — the permissive compact decoder maps `[0x1F]` to nil
— fails on the code: `parse_nil` demands the exact byte `0x00`, so
`deserialize_any` rejects `[0x1F]` with `ExpectedNil` at offset 0. -/
theorem C8_counterexample :
    decodeValue [0x1F] = .error ⟨0, .expectedNil⟩ ∧
    decodeValue [0x1F] ≠ .ok .nil := by
  refine ⟨rfl, ?_⟩
  intro h
  rw [show decodeValue [0x1F] = .error ⟨0, .expectedNil⟩ from rfl] at h
  exact Except.noConfusion h

/-- C8 (amended): the compact decoder — which has no canonic mode —
rejects every single-byte nil-tagged input other than `0x00` with
`ExpectedNil` at offset 0, and accepts `0x00` as nil. -/
theorem C8_nil_strict (b : Nat) (hb : b ≤ 31) :
    decodeValue [b] = if b = 0 then .ok .nil else .error ⟨0, .expectedNil⟩ := by
  have hshift : b >>> 5 = 0 := by
    rw [Nat.shiftRight_eq_div_pow]
    omega
  by_cases h0 : b = 0
  · subst h0
    rfl
  · simp only [decodeValue, decodeAny, hshift]
    simp [pExpect, h0, if_neg h0]

/-- C8 witness: the amended statement at `b = 31` (the byte `0x1F`). -/
theorem C8_nil_strict_witness :
    decodeValue [31] = if 31 = 0 then .ok .nil else .error ⟨0, .expectedNil⟩ :=
  C8_nil_strict 31 (by decide)

/-! ## Part G: human-readable string escaping (C9) -/

theorem nibbleHex_bounds (n : Nat) : 0x30 ≤ nibbleHex n := by
  unfold nibbleHex
  split <;> omega

/-- Bytes produced for a single character: every byte below `0x20` in
the output of `escapeChar` is a raw TAB, LF or CR (emitted for the
characters TAB, LF and CR themselves). -/
theorem escapeChar_controls (c : Char) :
    ∀ b ∈ escapeChar c, b < 0x20 → b = 0x09 ∨ b = 0x0A ∨ b = 0x0D := by
  intro b hb hlt
  have hx := nibbleHex_bounds (c.toNat &&& 0x0F)
  unfold escapeChar at hb
  split_ifs at hb
  all_goals try (simp only [List.mem_cons, List.not_mem_nil, or_false] at hb; omega)
  unfold utf8Bytes at hb
  dsimp only at hb
  split_ifs at hb
  all_goals (simp only [List.mem_cons, List.not_mem_nil, or_false] at hb; omega)

/-- C9: the claim — every ASCII control `0x00`–`0x1F` appears escaped
and never as a raw byte — fails on the code: `serialize_str` pushes LF,
TAB and CR as raw bytes; for the one-character string `"\n"` the output
is quote, raw `0x0A`, quote, with no escape. -/
theorem C9_counterexample :
    serializeStr [Char.ofNat 0x0A] = [0x22, 0x0A, 0x22] ∧
    0x0A ∈ serializeStr [Char.ofNat 0x0A] ∧
    serializeStr [Char.ofNat 0x0A] ≠ [0x22, 0x5C, 0x6E, 0x22] := by
  refine ⟨rfl, by decide, by decide⟩

/-- C9 (amended): in the human encoder's output for any string, the only
control bytes are raw TAB (`0x09`), LF (`0x0A`) and CR (`0x0D`), which
are emitted unescaped for those three characters; NUL becomes `\0`,
every other control `0x01`–`0x1F` becomes the five-byte escape
`\x7bHH\x7d` (uppercase hex digit letters), `0x7F` becomes `\x7b7f\x7d`,
and backslash and double quote are escaped as `\\` and `\"`. -/
theorem C9_string_escaping (s : List Char) :
    (∀ b ∈ serializeStr s, b < 0x20 → b = 0x09 ∨ b = 0x0A ∨ b = 0x0D) ∧
    escapeChar (Char.ofNat 0x00) = [0x5C, 0x30] ∧
    escapeChar (Char.ofNat 0x09) = [0x09] ∧
    escapeChar (Char.ofNat 0x0A) = [0x0A] ∧
    escapeChar (Char.ofNat 0x0D) = [0x0D] ∧
    (∀ c : Char, c.toNat ≤ 0x1F → c.toNat ≠ 0x00 → c.toNat ≠ 0x09 → c.toNat ≠ 0x0A →
      c.toNat ≠ 0x0D →
      escapeChar c = [0x5C, 0x7B, if c.toNat ≤ 0x0F then 0x30 else 0x31,
        nibbleHex (c.toNat &&& 0x0F), 0x7D]) ∧
    escapeChar (Char.ofNat 0x7F) = [0x5C, 0x7B, 0x37, 0x66, 0x7D] ∧
    escapeChar (Char.ofNat 0x5C) = [0x5C, 0x5C] ∧
    escapeChar (Char.ofNat 0x22) = [0x5C, 0x22] := by
  refine ⟨?_, rfl, rfl, rfl, rfl, ?_, rfl, rfl, rfl⟩
  · intro b hb hlt
    unfold serializeStr at hb
    rcases List.mem_cons.mp hb with rfl | hb2
    · omega
    rcases List.mem_append.mp hb2 with hb3 | hb4
    · obtain ⟨l, hl, hbl⟩ := List.mem_flatten.mp hb3
      obtain ⟨c, _, rfl⟩ := List.mem_map.mp hl
      exact escapeChar_controls c b hbl hlt
    · have : b = 0x22 := List.mem_singleton.mp hb4
      omega
  · intro c h1 h2 h3 h4 h5
    unfold escapeChar
    rw [if_neg h2, if_neg h3, if_neg (by omega), if_neg h5, if_pos h1]

/-- C9 witness: the escaping facts at the two-character string
`[ESC, 'a']` (`0x1B` and a printable character). -/
theorem C9_string_escaping_witness :
    ((∀ b ∈ serializeStr [Char.ofNat 0x1B, Char.ofNat 0x61], b < 0x20 →
      b = 0x09 ∨ b = 0x0A ∨ b = 0x0D) ∧
    escapeChar (Char.ofNat 0x00) = [0x5C, 0x30] ∧
    escapeChar (Char.ofNat 0x09) = [0x09] ∧
    escapeChar (Char.ofNat 0x0A) = [0x0A] ∧
    escapeChar (Char.ofNat 0x0D) = [0x0D] ∧
    (∀ c : Char, c.toNat ≤ 0x1F → c.toNat ≠ 0x00 → c.toNat ≠ 0x09 → c.toNat ≠ 0x0A →
      c.toNat ≠ 0x0D →
      escapeChar c = [0x5C, 0x7B, if c.toNat ≤ 0x0F then 0x30 else 0x31,
        nibbleHex (c.toNat &&& 0x0F), 0x7D]) ∧
    escapeChar (Char.ofNat 0x7F) = [0x5C, 0x7B, 0x37, 0x66, 0x7D] ∧
    escapeChar (Char.ofNat 0x5C) = [0x5C, 0x5C] ∧
    escapeChar (Char.ofNat 0x22) = [0x5C, 0x22]) ∧
    serializeStr [Char.ofNat 0x1B, Char.ofNat 0x61] =
      [0x22, 0x5C, 0x7B, 0x31, 0x42, 0x7D, 0x61, 0x22] :=
  ⟨C9_string_escaping [Char.ofNat 0x1B, Char.ofNat 0x61], rfl⟩

/-! ## Part H: duplicate keys in the permissive compact decoder (C10) -/

/-- Binding an `Except.ok` just applies the continuation. -/
theorem okbind {α β : Type} (a : α) (g : α → Except DError β) :
    (Except.ok a >>= g : Except DError β) = g a := rfl

/-- `pure` in the `Except DError` monad is `Except.ok`. -/
theorem exPure {α : Type} (a : α) :
    (pure a : Except DError α) = Except.ok a := rfl

/-- One step of `deserialize_any` on a map tag with inline count 2. -/
theorem decodeAny_mapTag2 (F : Nat) (t : List Nat) (pos : Nat) :
    decodeAny (F+1) (0b11100010 :: t) pos =
      (do
        let (es, r, p) ← decodeMapEntries F 2 [] t (pos+1)
        return (Value.map es, r, p)) := rfl

/-- One step of `deserialize_any` on a set tag with inline count 2. -/
theorem decodeAny_setTag2 (F : Nat) (t : List Nat) (pos : Nat) :
    decodeAny (F+1) (0b11000010 :: t) pos =
      (do
        let (es, r, p) ← decodeSetEntries F 2 [] t (pos+1)
        return (Value.map es, r, p)) := rfl

/-- The `MapAccessor` loop with 2 remaining entries reads one key/value
pair, inserts it, and continues. -/
theorem decodeMapEntries_two (F : Nat) (acc : List (Value × Value))
    (rest : List Nat) (pos : Nat) :
    decodeMapEntries (F+1) 2 acc rest pos =
      (do
        let (k, r, p) ← decodeAny F rest pos
        let (v, r, p) ← decodeAny F r p
        decodeMapEntries F 1 (insertE acc k v) r p) := rfl

/-- The `MapAccessor` loop with 1 remaining entry. -/
theorem decodeMapEntries_one (F : Nat) (acc : List (Value × Value))
    (rest : List Nat) (pos : Nat) :
    decodeMapEntries (F+1) 1 acc rest pos =
      (do
        let (k, r, p) ← decodeAny F rest pos
        let (v, r, p) ← decodeAny F r p
        decodeMapEntries F 0 (insertE acc k v) r p) := rfl

/-- The exhausted `MapAccessor` loop returns the accumulated map. -/
theorem decodeMapEntries_zero (F : Nat) (acc : List (Value × Value))
    (rest : List Nat) (pos : Nat) :
    decodeMapEntries F 0 acc rest pos = .ok (acc, rest, pos) := by
  cases F <;> rfl

/-- The `MapAccessor` loop in set mode with 2 remaining keys. -/
theorem decodeSetEntries_two (F : Nat) (acc : List (Value × Value))
    (rest : List Nat) (pos : Nat) :
    decodeSetEntries (F+1) 2 acc rest pos =
      (do
        let (k, r, p) ← decodeAny F rest pos
        decodeSetEntries F 1 (insertE acc k .nil) r p) := rfl

/-- The `MapAccessor` loop in set mode with 1 remaining key. -/
theorem decodeSetEntries_one (F : Nat) (acc : List (Value × Value))
    (rest : List Nat) (pos : Nat) :
    decodeSetEntries (F+1) 1 acc rest pos =
      (do
        let (k, r, p) ← decodeAny F rest pos
        decodeSetEntries F 0 (insertE acc k .nil) r p) := rfl

/-- The exhausted set-mode loop returns the accumulated map. -/
theorem decodeSetEntries_zero (F : Nat) (acc : List (Value × Value))
    (rest : List Nat) (pos : Nat) :
    decodeSetEntries F 0 acc rest pos = .ok (acc, rest, pos) := by
  cases F <;> rfl

/-- C10: when the permissive compact decoder reads a two-entry map
encoding whose two keys are equal under value equality (`cmpV`'s
`Equal`), it does not error; it returns a ONE-entry map binding the
key to the value of the LAST wire occurrence (`BTreeMap::insert`
last-writer-wins, the stored key object being the first occurrence),
so the returned key count is smaller than the wire entry count.  The
same holds for a set encoding with a duplicated key, each key bound to
nil.  The hypotheses say that each of the four byte segments decodes,
at any sufficient fuel, to the corresponding value at any position. -/
theorem C10_duplicate_keys (f : Nat) (kb1 vb1 kb2 vb2 s : List Nat)
    (k1 u1 k2 u2 : Value) (pos : Nat)
    (hk1 : ∀ g, f ≤ g → ∀ t q, decodeAny g (kb1 ++ t) q = .ok (k1, t, q + kb1.length))
    (hv1 : ∀ g, f ≤ g → ∀ t q, decodeAny g (vb1 ++ t) q = .ok (u1, t, q + vb1.length))
    (hk2 : ∀ g, f ≤ g → ∀ t q, decodeAny g (kb2 ++ t) q = .ok (k2, t, q + kb2.length))
    (hv2 : ∀ g, f ≤ g → ∀ t q, decodeAny g (vb2 ++ t) q = .ok (u2, t, q + vb2.length))
    (heq : cmpV k2 k1 = .eq) :
    decodeAny (f + 3) (0b11100010 :: (kb1 ++ (vb1 ++ (kb2 ++ (vb2 ++ s))))) pos =
      .ok (.map [(k1, u2)], s,
        pos + 1 + kb1.length + vb1.length + kb2.length + vb2.length) ∧
    decodeAny (f + 3) (0b11000010 :: (kb1 ++ (kb2 ++ s))) pos =
      .ok (.map [(k1, .nil)], s, pos + 1 + kb1.length + kb2.length) := by
  constructor
  · show decodeAny (f + 1 + 1 + 1)
      (0b11100010 :: (kb1 ++ (vb1 ++ (kb2 ++ (vb2 ++ s))))) pos = _
    simp only [decodeAny_mapTag2, decodeMapEntries_two, decodeMapEntries_one,
      decodeMapEntries_zero, hk1 (f + 1) (by omega), hv1 (f + 1) (by omega),
      hk2 f (by omega), hv2 f (by omega), okbind, insertE, heq, exPure]
  · show decodeAny (f + 1 + 1 + 1) (0b11000010 :: (kb1 ++ (kb2 ++ s))) pos = _
    simp only [decodeAny_setTag2, decodeSetEntries_two, decodeSetEntries_one,
      decodeSetEntries_zero, hk1 (f + 1) (by omega), hk2 f (by omega),
      okbind, insertE, heq, exPure]

/-- C10 witness: the five-byte wire `E2 60 20 60 21` (map, count 2,
entries `0 ↦ false` then `0 ↦ true`) decodes to the one-entry map
`0 ↦ true`, and the set wire `C2 60 60` to the one-entry map
`0 ↦ nil`. -/
theorem C10_duplicate_keys_witness :
    decodeAny 4 [0b11100010, 0x60, 0x20, 0x60, 0x21] 0 =
      .ok (.map [(.int 0, .bool true)], ([] : List Nat), 5) ∧
    decodeAny 4 [0b11000010, 0x60, 0x60] 0 =
      .ok (.map [(.int 0, .nil)], ([] : List Nat), 3) := by
  have hk : ∀ g, 1 ≤ g → ∀ t q,
      decodeAny g ([0x60] ++ t) q = .ok (.int 0, t, q + [0x60].length) := by
    intro g hg t q
    match g with
    | g + 1 => rfl
  have hv1 : ∀ g, 1 ≤ g → ∀ t q,
      decodeAny g ([0x20] ++ t) q = .ok (.bool false, t, q + [0x20].length) := by
    intro g hg t q
    match g with
    | g + 1 => rfl
  have hv2 : ∀ g, 1 ≤ g → ∀ t q,
      decodeAny g ([0x21] ++ t) q = .ok (.bool true, t, q + [0x21].length) := by
    intro g hg t q
    match g with
    | g + 1 => rfl
  exact C10_duplicate_keys 1 [0x60] [0x20] [0x60] [0x21] []
    (.int 0) (.bool false) (.int 0) (.bool true) 0 hk hv1 hk hv2 rfl

/-! ## Part I: the permissive compact round-trip (C2) -/

/-- An array of `n` nils serializes element-wise to `n` zero bytes. -/
theorem encL_replicate_nil (n : Nat) :
    encL (List.replicate n .nil) = some (List.replicate n 0) := by
  induction n with
  | zero => rfl
  | succ n ih =>
    rw [List.replicate_succ, List.replicate_succ]
    simp only [encL, encV, ih, List.singleton_append]

/-- The encoder's output for an array of `n` nils whose header is the
(buggy) 29-marker form. -/
theorem encV_array_nilrep (n : Nat)
    (hs : serialize_count n 0b10100000 = some [0xBD, 0, 1, 0, 0]) :
    encV (.array (List.replicate n .nil)) =
      some ([0xBD, 0, 1, 0, 0] ++ List.replicate n 0) := by
  simp only [encV, List.length_replicate, encL_replicate_nil, hs]

/-- Reading two big-endian bytes off the front of the input. -/
theorem readN_two (a b : Nat) (t : List Nat) (pos : Nat) :
    readN 2 (a :: b :: t) pos = .ok ((0 * 256 + a) * 256 + b, t, pos + 2) := by
  unfold readN
  rw [if_neg (by simp)]
  rfl

/-- `parse_count` on the array tag with argument 29 followed by the
count bytes `00 01` reads a 2-byte count of 1. -/
theorem parse_count_29_01 (t : List Nat) (pos : Nat) :
    parse_count 0b10100000 .expectedArray .outOfBoundsArray (0xBD :: 0 :: 1 :: t) pos =
      .ok (1, t, pos + 3) := by
  show (do
      let (n, r, p) ← readN 2 ((0 : Nat) :: 1 :: t) (pos + 1)
      return (n, r, p) : Except DError (Nat × List Nat × Nat)) = _
  rw [readN_two]
  rfl

/-- `deserialize_any` on the header `BD 00 01` decodes a one-element
array body. -/
theorem decodeAny_arr29_01 (F : Nat) (t : List Nat) (pos : Nat) :
    decodeAny (F+1) (0xBD :: 0 :: 1 :: t) pos =
      (do
        let (vs, r, p) ← decodeElems F 1 t (pos+3)
        return (Value.array vs, r, p)) := by
  show (do
      let (count, r, p) ← parse_count 0b10100000 .expectedArray .outOfBoundsArray
        ((0xBD : Nat) :: 0 :: 1 :: t) pos
      let (vs, r, p) ← decodeElems F count r p
      return (Value.array vs, r, p)) = _
  rw [parse_count_29_01]
  rfl

/-- The `SequenceAccessor` loop with one remaining element. -/
theorem decodeElems_one (F : Nat) (rest : List Nat) (pos : Nat) :
    decodeElems (F+1) 1 rest pos =
      (do
        let (v, r, p) ← decodeAny F rest pos
        let (vs, r, p) ← decodeElems F 0 r p
        return (v :: vs, r, p)) := rfl

/-- The exhausted `SequenceAccessor` loop. -/
theorem decodeElems_zero (F : Nat) (rest : List Nat) (pos : Nat) :
    decodeElems F 0 rest pos = .ok ([], rest, pos) := by
  cases F <;> rfl

/-- `deserialize_any` on a `0x00` byte decodes nil. -/
theorem decodeAny_nilByte (F : Nat) (t : List Nat) (pos : Nat) :
    decodeAny (F+1) (0 :: t) pos = .ok (.nil, t, pos + 1) := rfl

/-- `decodeValue` unfolded to its `deserialize_any` run. -/
theorem decodeValue_eq (input : List Nat) :
    decodeValue input =
      (match decodeAny (2 * input.length + 1) input 0 with
        | Except.error e => Except.error e
        | Except.ok (v, _, _) => Except.ok v) := rfl

/-- C2: the permissive round-trip law fails on the code.  For the array
of 65536 nils the compact encoder succeeds, emitting the header
`BD 00 01 00 00` (the serialize_count bug: argument 29, a 2-byte-count
marker, followed by four count bytes) and 65536 zero bytes; the
permissive compact decoder applied to those bytes reads a 2-byte count
of 1 and returns the one-element array `[nil]`, not the encoded
value. -/
theorem C2_roundtrip_bug :
    encV (.array (List.replicate 65536 .nil)) =
      some (0xBD :: 0 :: 1 :: 0 :: 0 :: List.replicate 65536 0) ∧
    decodeValue (0xBD :: 0 :: 1 :: 0 :: 0 :: List.replicate 65536 0) =
      .ok (.array [.nil]) ∧
    Value.array [.nil] ≠ .array (List.replicate 65536 .nil) := by
  refine ⟨?_, ?_, ?_⟩
  · rw [encV_array_nilrep 65536 (by rfl)]
    rfl
  · have hda : decodeAny (131080+1+1+1)
        (0xBD :: 0 :: 1 :: 0 :: 0 :: List.replicate 65536 0) 0 =
        .ok (.array [.nil], 0 :: List.replicate 65536 0, 4) := by
      rw [decodeAny_arr29_01]
      simp only [decodeElems_one, decodeAny_nilByte, decodeElems_zero, okbind, exPure]
    have hf : 2 * (0xBD :: 0 :: 1 :: 0 :: 0 :: List.replicate 65536 0 : List Nat).length
        + 1 = 131080+1+1+1 := by
      rw [List.length_cons, List.length_cons, List.length_cons, List.length_cons,
        List.length_cons, List.length_replicate]
    rw [decodeValue_eq, hf, hda]
  · intro h
    injection h with h2
    have := congrArg List.length h2
    rw [List.length_cons, List.length_nil, List.length_replicate] at this
    omega

/-! ## Part J: the meaningful lattice operations (C6) -/

set_option maxRecDepth 8192 in
/-- `meaningful_le` holds exactly when `meaningful_partial_cmp` returns
`Less` or `Equal`. -/
theorem mle_iff_mcmp (x y : Value) :
    meaningful_le x y = true ↔
      (meaningfulCmp x y = some .lt ∨ meaningfulCmp x y = some .eq) := by
  cases x <;> cases y <;>
    simp only [meaningful_le, meaningfulCmp] <;>
    try simp
  case nil.nil => simp [cmpV]
  case bool.bool b1 b2 => rcases h : cmpV (.bool b1) (.bool b2) with _ | _ | _ <;> simp
  case float.float n1 n2 => rcases h : cmpV (.float n1) (.float n2) with _ | _ | _ <;> simp
  case int.int n1 n2 => rcases h : cmpV (.int n1) (.int n2) with _ | _ | _ <;> simp
  case array.array v1 v2 =>
    rcases h : mCmpArr v1 v2 .eq with _ | o
    · simp
    · rcases o with _ | _ | _ <;> simp
  case map.map m1 m2 =>
    rcases h : mCmpMap m1 m2 .eq with _ | o
    · simp
    · rcases o with _ | _ | _ <;> simp

/-- The array `so_far = Greater` state never yields `Less` or `Equal`. -/
theorem mCmpArr_gt : ∀ xs ys : List Value, ∀ o,
    mCmpArr xs ys .gt = some o → o = .gt
  | [], [], o => by intro h; simp only [mCmpArr] at h; exact (Option.some_inj.mp h).symm
  | [], _ :: _, o => by intro h; simp [mCmpArr] at h
  | _ :: _, [], o => by intro h; simp only [mCmpArr] at h; exact (Option.some_inj.mp h).symm
  | x :: xs, y :: ys, o => by
    intro h
    simp only [mCmpArr] at h
    rcases hm : meaningfulCmp x y with _ | oc
    · simp [hm] at h
    · rw [hm] at h
      rcases oc with _ | _ | _
      · simp at h
      · exact mCmpArr_gt xs ys o h
      · exact mCmpArr_gt xs ys o h

/-- The map `so_far = Greater` state never yields `Less` or `Equal`. -/
theorem mCmpMap_gt : ∀ m1 m2 : List (Value × Value), ∀ o,
    mCmpMap m1 m2 .gt = some o → o = .gt
  | [], [], o => by intro h; simp only [mCmpMap] at h; exact (Option.some_inj.mp h).symm
  | [], _ :: _, o => by intro h; simp [mCmpMap] at h
  | _ :: _, [], o => by intro h; simp only [mCmpMap] at h; exact (Option.some_inj.mp h).symm
  | (k1, v1) :: r1, (k2, v2) :: r2, o => by
    intro h
    simp only [mCmpMap] at h
    rcases hk : cmpV k1 k2 with _ | _ | _
    · rw [hk] at h
      exact mCmpMap_gt r1 ((k2, v2) :: r2) o h
    · rw [hk] at h
      rcases hv : meaningfulCmp v1 v2 with _ | ov
      · simp [hv] at h
      · rw [hv] at h
        rcases ov with _ | _ | _
        · simp at h
        · exact mCmpMap_gt r1 r2 o h
        · exact mCmpMap_gt r1 r2 o h
    · simp [hk] at h
termination_by m1 m2 => m1.length + m2.length
decreasing_by all_goals (simp [List.length_cons]; try omega)


mutual

/-- `meaningful_partial_cmp` is antisymmetric: swapping the arguments
swaps the outcome. -/
theorem mcmp_swap : ∀ x y : Value,
    meaningfulCmp y x = (meaningfulCmp x y).map Ordering.swap
  | .nil, .nil => by simp [meaningfulCmp, cmpV, Ordering.swap]
  | .bool b1, .bool b2 => by
    simp only [meaningfulCmp, cmp_swap (Value.bool b1) (Value.bool b2), Option.map]
  | .float n1, .float n2 => by
    simp only [meaningfulCmp, cmp_swap (Value.float n1) (Value.float n2), Option.map]
  | .int n1, .int n2 => by
    simp only [meaningfulCmp, cmp_swap (Value.int n1) (Value.int n2), Option.map]
  | .array v1, .array v2 => by
    simp only [meaningfulCmp]
    exact mCmpArr_swap v1 v2 .eq
  | .map m1, .map m2 => by
    simp only [meaningfulCmp]
    exact mCmpMap_swap m1 m2 .eq
  | .nil, .bool _ | .nil, .float _ | .nil, .int _ | .nil, .array _ | .nil, .map _
  | .bool _, .nil | .bool _, .float _ | .bool _, .int _ | .bool _, .array _ | .bool _, .map _
  | .float _, .nil | .float _, .bool _ | .float _, .int _ | .float _, .array _ | .float _, .map _
  | .int _, .nil | .int _, .bool _ | .int _, .float _ | .int _, .array _ | .int _, .map _
  | .array _, .nil | .array _, .bool _ | .array _, .float _ | .array _, .int _ | .array _, .map _
  | .map _, .nil | .map _, .bool _ | .map _, .float _ | .map _, .int _ | .map _, .array _ => by
    simp [meaningfulCmp]

theorem mCmpArr_swap : ∀ xs ys : List Value, ∀ st : Ordering,
    mCmpArr ys xs (Ordering.swap st) = (mCmpArr xs ys st).map Ordering.swap
  | [], [], st => by rcases st with _ | _ | _ <;> simp [mCmpArr, Ordering.swap]
  | [], y :: ys, st => by rcases st with _ | _ | _ <;> simp [mCmpArr, Ordering.swap]
  | x :: xs, [], st => by rcases st with _ | _ | _ <;> simp [mCmpArr, Ordering.swap]
  | x :: xs, y :: ys, st => by
    have hsw := mcmp_swap x y
    rcases hm : meaningfulCmp x y with _ | oc
    · rw [hm] at hsw
      rcases st with _ | _ | _ <;> simp [mCmpArr, hm, hsw, Ordering.swap]
    · rw [hm] at hsw
      rcases st with _ | _ | _ <;> rcases oc with _ | _ | _ <;>
        simp only [mCmpArr, hm, hsw, Ordering.swap, Option.map] <;>
        first
          | rfl
          | exact mCmpArr_swap xs ys .lt
          | exact mCmpArr_swap xs ys .eq
          | exact mCmpArr_swap xs ys .gt

theorem mCmpMap_swap : ∀ m1 m2 : List (Value × Value), ∀ st : Ordering,
    mCmpMap m2 m1 (Ordering.swap st) = (mCmpMap m1 m2 st).map Ordering.swap
  | [], [], st => by rcases st with _ | _ | _ <;> simp [mCmpMap, Ordering.swap]
  | [], e :: r, st => by rcases st with _ | _ | _ <;> simp [mCmpMap, Ordering.swap]
  | e :: r, [], st => by rcases st with _ | _ | _ <;> simp [mCmpMap, Ordering.swap]
  | (k1, v1) :: r1, (k2, v2) :: r2, st => by
    have hks := cmp_swap k1 k2
    rcases hk : cmpV k1 k2 with _ | _ | _
    · rw [hk] at hks
      rcases st with _ | _ | _ <;>
        simp only [mCmpMap, hk, hks, Ordering.swap, Option.map] <;>
        first
          | rfl
          | exact mCmpMap_swap r1 ((k2, v2) :: r2) .gt
    · rw [hk] at hks
      have hvs := mcmp_swap v1 v2
      rcases hv : meaningfulCmp v1 v2 with _ | ov
      · rw [hv] at hvs
        rcases st with _ | _ | _ <;> simp [mCmpMap, hk, hks, hv, hvs, Ordering.swap]
      · rw [hv] at hvs
        rcases st with _ | _ | _ <;> rcases ov with _ | _ | _ <;>
          simp only [mCmpMap, hk, hks, hv, hvs, Ordering.swap, Option.map] <;>
          first
            | rfl
            | exact mCmpMap_swap r1 r2 .lt
            | exact mCmpMap_swap r1 r2 .eq
            | exact mCmpMap_swap r1 r2 .gt
    · rw [hk] at hks
      rcases st with _ | _ | _ <;>
        simp only [mCmpMap, hk, hks, Ordering.swap, Option.map] <;>
        first
          | rfl
          | exact mCmpMap_swap ((k1, v1) :: r1) r2 .lt

end


/-- On non-NaN bit patterns the total order on floats is `total_cmp`. -/
theorem cmpFloat_nonNan (n1 n2 : Nat) (h1 : isNanBits n1 = false)
    (h2 : isNanBits n2 = false) : cmpFloatBits n1 n2 = totalCmpBits n1 n2 := by
  simp [cmpFloatBits, h1, h2]

theorem sortedE_tail {e : Value × Value} {r : List (Value × Value)}
    (h : sortedE (e :: r) = true) : sortedE r = true := by
  cases r with
  | nil => rfl
  | cons e2 r2 =>
    obtain ⟨k1, v1⟩ := e
    obtain ⟨k2, v2⟩ := e2
    simp only [sortedE, Bool.and_eq_true] at h
    exact h.2

/-- In a sorted entry list the head key is below every later key. -/
theorem sorted_head_lt : ∀ (k1 v1 : Value) (r : List (Value × Value)),
    sortedE ((k1, v1) :: r) = true → ∀ p ∈ r, cmpV k1 p.1 = .lt := by
  intro k1 v1 r
  induction r generalizing k1 v1 with
  | nil => intro _ p hp; nomatch hp
  | cons e2 r2 ih =>
    obtain ⟨k2, v2⟩ := e2
    intro h p hp
    simp only [sortedE, Bool.and_eq_true] at h
    obtain ⟨hb, hrest⟩ := h
    have h1 : cmpV k1 k2 = .lt := by
      rcases hcv : cmpV k1 k2 with _ | _ | _
      · rfl
      · rw [hcv] at hb; exact Bool.noConfusion hb
      · rw [hcv] at hb; exact Bool.noConfusion hb
    rcases List.mem_cons.mp hp with rfl | hp2
    · exact h1
    · have h2 := ih k2 v2 hrest p hp2
      exact (cmp_trans k1 k2 p.1).1 h1 h2

/-- A successful `BTreeMap::get` comes from an entry with an
`Equal`-comparing key. -/
theorem lookupM_mem : ∀ (m : List (Value × Value)) (k v : Value),
    lookupM m k = some v → ∃ k', (k', v) ∈ m ∧ cmpV k' k = .eq := by
  intro m
  induction m with
  | nil => intro k v h; simp [lookupM] at h
  | cons e r ih =>
    obtain ⟨k1, v1⟩ := e
    intro k v h
    simp only [lookupM] at h
    split at h
    · cases h
      exact ⟨k1, List.mem_cons_self _ _, by assumption⟩
    · obtain ⟨k', hm, he⟩ := ih k v h
      exact ⟨k', List.mem_cons_of_mem _ hm, he⟩

/-- In a sorted entry list, `BTreeMap::get` finds the value of any
entry whose key compares `Equal` to the query. -/
theorem lookup_sorted_of_mem : ∀ (m : List (Value × Value)),
    sortedE m = true → ∀ (k2 v2 k : Value), (k2, v2) ∈ m → cmpV k k2 = .eq →
      lookupM m k = some v2 := by
  intro m
  induction m with
  | nil => intro _ k2 v2 k hm; nomatch hm
  | cons e r ih =>
    obtain ⟨k1, v1⟩ := e
    intro hs k2 v2 k hm he
    rcases List.mem_cons.mp hm with heq | hm2
    · have hk12 : k2 = k1 := congrArg Prod.fst heq
      have hv12 : v2 = v1 := congrArg Prod.snd heq
      have hck : cmpV k1 k = .eq := by
        rw [cmp_swap k k1, ← hk12, he]
        rfl
      simp only [lookupM]
      rw [if_pos hck, ← hv12]
    · have hlt : cmpV k1 k2 = .lt := sorted_head_lt k1 v1 r hs (k2, v2) hm2
      have hne : cmpV k1 k ≠ .eq := by
        rw [cmp_congr_right he k1, hlt]
        simp
      simp only [lookupM]
      rw [if_neg hne]
      exact ih (sortedE_tail hs) k2 v2 k hm2 he

/-- Inserting a key above all keys of a map appends the entry. -/
theorem insertE_append : ∀ (acc : List (Value × Value)) (k v : Value),
    (∀ p ∈ acc, cmpV p.1 k = .lt) → insertE acc k v = acc ++ [(k, v)] := by
  intro acc
  induction acc with
  | nil => intro k v _; rfl
  | cons e r ih =>
    obtain ⟨k1, v1⟩ := e
    intro k v hlt
    have h1 : cmpV k1 k = .lt := hlt (k1, v1) (List.mem_cons_self _ _)
    have h2 : cmpV k k1 = .gt := by rw [cmp_swap k1 k, h1]; rfl
    simp only [insertE, h2]
    rw [ih k v (fun p hp => hlt p (List.mem_cons_of_mem _ hp))]
    rfl

mutual

/-- `PartialEq for Value` is symmetric. -/
theorem veq_symm : ∀ a b : Value, veq a b = true → veq b a = true
  | .nil, .nil, _ => rfl
  | .bool b1, .bool b2, h => by
    have h' : (b1 == b2) = true := h
    show (b2 == b1) = true
    rw [eq_of_beq h']
    simp
  | .int n1, .int n2, h => by
    have h' : (n1 == n2) = true := h
    show (n2 == n1) = true
    rw [eq_of_beq h']
    simp
  | .float n1, .float n2, h => by
    have h' : (isNanBits n1 && isNanBits n2 || n1 == n2) = true := h
    show (isNanBits n2 && isNanBits n1 || n2 == n1) = true
    rcases Bool.or_eq_true_iff.mp h' with hnan | heq
    · rw [Bool.and_comm] at hnan
      rw [hnan]
      rfl
    · rw [eq_of_beq heq]
      simp
  | .array v1, .array v2, h => veqL_symm v1 v2 h
  | .map m1, .map m2, h => veqE_symm m1 m2 h
  | .nil, .bool _, h | .nil, .float _, h | .nil, .int _, h | .nil, .array _, h
  | .nil, .map _, h => nomatch h
  | .bool _, .nil, h | .float _, .nil, h | .int _, .nil, h | .array _, .nil, h
  | .map _, .nil, h => nomatch h
  | .bool _, .float _, h | .bool _, .int _, h | .bool _, .array _, h
  | .bool _, .map _, h => nomatch h
  | .float _, .bool _, h | .int _, .bool _, h | .array _, .bool _, h
  | .map _, .bool _, h => nomatch h
  | .float _, .int _, h | .float _, .array _, h | .float _, .map _, h => nomatch h
  | .int _, .float _, h | .array _, .float _, h | .map _, .float _, h => nomatch h
  | .int _, .array _, h | .int _, .map _, h => nomatch h
  | .array _, .int _, h | .map _, .int _, h => nomatch h
  | .array _, .map _, h | .map _, .array _, h => nomatch h

theorem veqL_symm : ∀ xs ys : List Value, veqL xs ys = true → veqL ys xs = true
  | [], [], _ => rfl
  | [], _ :: _, h => nomatch h
  | _ :: _, [], h => nomatch h
  | x :: xs, y :: ys, h => by
    have h' : (veq x y && veqL xs ys) = true := h
    rw [Bool.and_eq_true] at h'
    show (veq y x && veqL ys xs) = true
    rw [veq_symm x y h'.1, veqL_symm xs ys h'.2]
    rfl

theorem veqE_symm : ∀ es fs : List (Value × Value), veqE es fs = true → veqE fs es = true
  | [], [], _ => rfl
  | [], _ :: _, h => nomatch h
  | _ :: _, [], h => nomatch h
  | (k1, v1) :: r1, (k2, v2) :: r2, h => by
    have h' : (veq k1 k2 && veq v1 v2 && veqE r1 r2) = true := h
    simp only [Bool.and_eq_true] at h'
    show (veq k2 k1 && veq v2 v1 && veqE r2 r1) = true
    rw [veq_symm k1 k2 h'.1.1, veq_symm v1 v2 h'.1.2, veqE_symm r1 r2 h'.2]
    rfl

end

mutual

/-- `PartialEq`-equal values are meaningfully comparable, with outcome
`Equal`. -/
theorem mcmp_of_veq : ∀ a b : Value, veq a b = true → meaningfulCmp a b = some .eq
  | .nil, .nil, _ => by simp [meaningfulCmp, cmpV]
  | .bool b1, .bool b2, h => by
    simp only [meaningfulCmp]
    rw [veq_cmp_eq _ _ h]
  | .int n1, .int n2, h => by
    simp only [meaningfulCmp]
    rw [veq_cmp_eq _ _ h]
  | .float n1, .float n2, h => by
    simp only [meaningfulCmp]
    rw [veq_cmp_eq _ _ h]
  | .array v1, .array v2, h => by
    simp only [meaningfulCmp]
    exact mCmpArr_of_veqL v1 v2 h
  | .map m1, .map m2, h => by
    simp only [meaningfulCmp]
    exact mCmpMap_of_veqE m1 m2 h
  | .nil, .bool _, h | .nil, .float _, h | .nil, .int _, h | .nil, .array _, h
  | .nil, .map _, h => nomatch h
  | .bool _, .nil, h | .float _, .nil, h | .int _, .nil, h | .array _, .nil, h
  | .map _, .nil, h => nomatch h
  | .bool _, .float _, h | .bool _, .int _, h | .bool _, .array _, h
  | .bool _, .map _, h => nomatch h
  | .float _, .bool _, h | .int _, .bool _, h | .array _, .bool _, h
  | .map _, .bool _, h => nomatch h
  | .float _, .int _, h | .float _, .array _, h | .float _, .map _, h => nomatch h
  | .int _, .float _, h | .array _, .float _, h | .map _, .float _, h => nomatch h
  | .int _, .array _, h | .int _, .map _, h => nomatch h
  | .array _, .int _, h | .map _, .int _, h => nomatch h
  | .array _, .map _, h | .map _, .array _, h => nomatch h

theorem mCmpArr_of_veqL : ∀ xs ys : List Value, veqL xs ys = true →
    mCmpArr xs ys .eq = some .eq
  | [], [], _ => by simp [mCmpArr]
  | [], _ :: _, h => nomatch h
  | _ :: _, [], h => nomatch h
  | x :: xs, y :: ys, h => by
    have h' : (veq x y && veqL xs ys) = true := h
    rw [Bool.and_eq_true] at h'
    simp only [mCmpArr]
    rw [mcmp_of_veq x y h'.1]
    exact mCmpArr_of_veqL xs ys h'.2

theorem mCmpMap_of_veqE : ∀ m1 m2 : List (Value × Value), veqE m1 m2 = true →
    mCmpMap m1 m2 .eq = some .eq
  | [], [], _ => by simp [mCmpMap]
  | [], _ :: _, h => nomatch h
  | _ :: _, [], h => nomatch h
  | (k1, v1) :: r1, (k2, v2) :: r2, h => by
    have h' : (veq k1 k2 && veq v1 v2 && veqE r1 r2) = true := h
    simp only [Bool.and_eq_true] at h'
    simp only [mCmpMap]
    rw [veq_cmp_eq _ _ h'.1.1, mcmp_of_veq v1 v2 h'.1.2]
    exact mCmpMap_of_veqE r1 r2 h'.2

end

/-- The array `so_far = Less` state never yields `Greater` or `Equal`. -/
theorem mCmpArr_lt (xs ys : List Value) (o : Ordering)
    (h : mCmpArr xs ys .lt = some o) : o = .lt := by
  have hs := mCmpArr_swap xs ys .lt
  rw [h] at hs
  have h2 : mCmpArr ys xs .gt = some o.swap := hs
  have h3 := mCmpArr_gt ys xs o.swap h2
  rcases o with _ | _ | _
  · rfl
  · exact absurd h3 (by simp [Ordering.swap])
  · exact absurd h3 (by simp [Ordering.swap])

/-- The map `so_far = Less` state never yields `Greater` or `Equal`. -/
theorem mCmpMap_lt (m1 m2 : List (Value × Value)) (o : Ordering)
    (h : mCmpMap m1 m2 .lt = some o) : o = .lt := by
  have hs := mCmpMap_swap m1 m2 .lt
  rw [h] at hs
  have h2 : mCmpMap m2 m1 .gt = some o.swap := hs
  have h3 := mCmpMap_gt m2 m1 o.swap h2
  rcases o with _ | _ | _
  · rfl
  · exact absurd h3 (by simp [Ordering.swap])
  · exact absurd h3 (by simp [Ordering.swap])

mutual

/-- A `meaningful_partial_cmp` outcome of `Equal` means the values are
`PartialEq`-equal (for well-formed values). -/
theorem veq_of_mcmp_eq : ∀ a b : Value, wf a = true → wf b = true →
    meaningfulCmp a b = some .eq → veq a b = true
  | .nil, .nil, _, _, _ => rfl
  | .bool b1, .bool b2, wa, wb, h => by
    simp only [meaningfulCmp, Option.some_inj] at h
    exact cmp_eq_veq _ _ wa wb h
  | .int n1, .int n2, wa, wb, h => by
    simp only [meaningfulCmp, Option.some_inj] at h
    exact cmp_eq_veq _ _ wa wb h
  | .float n1, .float n2, wa, wb, h => by
    simp only [meaningfulCmp, Option.some_inj] at h
    exact cmp_eq_veq _ _ wa wb h
  | .array v1, .array v2, wa, wb, h => by
    simp only [meaningfulCmp] at h
    exact veqL_of_mCmpArr_eq v1 v2 (wf_array wa) (wf_array wb) h
  | .map m1, .map m2, wa, wb, h => by
    simp only [meaningfulCmp] at h
    exact veqE_of_mCmpMap_eq m1 m2 (wf_map_entries wa) (wf_map_entries wb) h
  | .nil, .bool _, _, _, h | .nil, .float _, _, _, h | .nil, .int _, _, _, h
  | .nil, .array _, _, _, h | .nil, .map _, _, _, h => by simp [meaningfulCmp] at h
  | .bool _, .nil, _, _, h | .float _, .nil, _, _, h | .int _, .nil, _, _, h
  | .array _, .nil, _, _, h | .map _, .nil, _, _, h => by simp [meaningfulCmp] at h
  | .bool _, .float _, _, _, h | .bool _, .int _, _, _, h | .bool _, .array _, _, _, h
  | .bool _, .map _, _, _, h => by simp [meaningfulCmp] at h
  | .float _, .bool _, _, _, h | .int _, .bool _, _, _, h | .array _, .bool _, _, _, h
  | .map _, .bool _, _, _, h => by simp [meaningfulCmp] at h
  | .float _, .int _, _, _, h | .float _, .array _, _, _, h
  | .float _, .map _, _, _, h => by simp [meaningfulCmp] at h
  | .int _, .float _, _, _, h | .array _, .float _, _, _, h
  | .map _, .float _, _, _, h => by simp [meaningfulCmp] at h
  | .int _, .array _, _, _, h | .int _, .map _, _, _, h => by simp [meaningfulCmp] at h
  | .array _, .int _, _, _, h | .map _, .int _, _, _, h => by simp [meaningfulCmp] at h
  | .array _, .map _, _, _, h | .map _, .array _, _, _, h => by simp [meaningfulCmp] at h

theorem veqL_of_mCmpArr_eq : ∀ xs ys : List Value, wfL xs = true → wfL ys = true →
    mCmpArr xs ys .eq = some .eq → veqL xs ys = true
  | [], [], _, _, _ => rfl
  | [], _ :: _, _, _, h => by simp [mCmpArr] at h
  | _ :: _, [], _, _, h => by simp [mCmpArr] at h
  | x :: xs, y :: ys, wx, wy, h => by
    have hwx : wf x = true ∧ wfL xs = true := by
      have hx : (wf x && wfL xs) = true := wx
      simpa [Bool.and_eq_true] using hx
    have hwy : wf y = true ∧ wfL ys = true := by
      have hy : (wf y && wfL ys) = true := wy
      simpa [Bool.and_eq_true] using hy
    simp only [mCmpArr] at h
    rcases hm : meaningfulCmp x y with _ | oc <;> rw [hm] at h
    · exact Option.noConfusion h
    · rcases oc with _ | _ | _
      · exact absurd (mCmpArr_lt xs ys .eq h) (by simp)
      · show (veq x y && veqL xs ys) = true
        rw [veq_of_mcmp_eq x y hwx.1 hwy.1 hm,
          veqL_of_mCmpArr_eq xs ys hwx.2 hwy.2 h]
        rfl
      · exact absurd (mCmpArr_gt xs ys .eq h) (by simp)

theorem veqE_of_mCmpMap_eq : ∀ m1 m2 : List (Value × Value), wfE m1 = true →
    wfE m2 = true → mCmpMap m1 m2 .eq = some .eq → veqE m1 m2 = true
  | [], [], _, _, _ => rfl
  | [], _ :: _, _, _, h => by simp [mCmpMap] at h
  | _ :: _, [], _, _, h => by simp [mCmpMap] at h
  | (k1, v1) :: r1, (k2, v2) :: r2, w1, w2, h => by
    have hw1 : (wf k1 = true ∧ wf v1 = true) ∧ wfE r1 = true := by
      have hx : (wf k1 && wf v1 && wfE r1) = true := w1
      simpa [Bool.and_eq_true] using hx
    have hw2 : (wf k2 = true ∧ wf v2 = true) ∧ wfE r2 = true := by
      have hx : (wf k2 && wf v2 && wfE r2) = true := w2
      simpa [Bool.and_eq_true] using hx
    simp only [mCmpMap] at h
    rcases hk : cmpV k1 k2 with _ | _ | _ <;> rw [hk] at h
    · exact absurd (mCmpMap_gt _ _ _ h) (by simp)
    · rcases hv : meaningfulCmp v1 v2 with _ | ov <;> rw [hv] at h
      · exact Option.noConfusion h
      · rcases ov with _ | _ | _
        · exact absurd (mCmpMap_lt r1 r2 .eq h) (by simp)
        · show (veq k1 k2 && veq v1 v2 && veqE r1 r2) = true
          rw [cmp_eq_veq k1 k2 hw1.1.1 hw2.1.1 hk,
            veq_of_mcmp_eq v1 v2 hw1.1.2 hw2.1.2 hv,
            veqE_of_mCmpMap_eq r1 r2 hw1.2 hw2.2 h]
          rfl
        · exact absurd (mCmpMap_gt r1 r2 .eq h) (by simp)
    · exact absurd (mCmpMap_lt _ _ _ h) (by simp)

end

/-- An elementwise at-most-`Equal` hypothesis on the common prefix, with
the first array no longer than the second, keeps the array state machine
at most `Equal`. -/
theorem arrLe : ∀ xs ys : List Value,
    (∀ p ∈ List.zip xs ys, ∃ o, meaningfulCmp p.1 p.2 = some o ∧ o ≠ Ordering.gt) →
    xs.length ≤ ys.length → ∀ st : Ordering, st ≠ .gt →
    ∃ o, mCmpArr xs ys st = some o ∧ o ≠ Ordering.gt := by
  intro xs
  induction xs with
  | nil =>
    intro ys _ _ st hst
    cases ys with
    | nil => exact ⟨st, by simp [mCmpArr], hst⟩
    | cons y t =>
      rcases st with _ | _ | _
      · exact ⟨.lt, by simp [mCmpArr], by simp⟩
      · exact ⟨.lt, by simp [mCmpArr], by simp⟩
      · exact absurd rfl hst
  | cons x t ih =>
    intro ys hz hlen st hst
    cases ys with
    | nil => simp at hlen
    | cons y t2 =>
      obtain ⟨o0, ho0, ho0g⟩ := hz (x, y) (by
        rw [List.zip_cons_cons]
        exact List.mem_cons_self _ _)
      have hz' : ∀ p ∈ List.zip t t2,
          ∃ o, meaningfulCmp p.1 p.2 = some o ∧ o ≠ Ordering.gt := by
        intro p hp
        refine hz p ?_
        rw [List.zip_cons_cons]
        exact List.mem_cons_of_mem _ hp
      have hlen' : t.length ≤ t2.length := by
        simp at hlen
        omega
      rcases st with _ | _ | _
      · obtain ⟨o, ho, hog⟩ := ih t2 hz' hlen' .lt (by simp)
        refine ⟨o, ?_, hog⟩
        simp only [mCmpArr]
        rw [ho0]
        rcases o0 with _ | _ | _
        · exact ho
        · exact ho
        · exact absurd rfl ho0g
      · obtain ⟨o, ho, hog⟩ := ih t2 hz' hlen' o0 ho0g
        refine ⟨o, ?_, hog⟩
        simp only [mCmpArr]
        rw [ho0]
        exact ho
      · exact absurd rfl hst

/-- For arrays with `meaningful_partial_cmp` at most `Equal` (never
through the `Greater` state), the glb loop returns the first array
literally and both lub loops return a list `PartialEq`-equal to the
second (larger) array. -/
theorem arrBounds : ∀ xs ys : List Value, ∀ st o : Ordering, st ≠ .gt → o ≠ .gt →
    wfL xs = true → wfL ys = true → mCmpArr xs ys st = some o →
    glbArr xs ys = some xs ∧ (∃ r, lubArr xs ys = some r ∧ veqL r ys = true) ∧
      (∃ r, lubArr ys xs = some r ∧ veqL r ys = true)
  | [], ys, st, o => by
    intro _ _ _ _ _
    refine ⟨by simp [glbArr], ⟨ys, by simp [lubArr], veqL_refl ys⟩, ?_⟩
    cases ys with
    | nil => exact ⟨[], by simp [lubArr], rfl⟩
    | cons y ys => exact ⟨y :: ys, by simp [lubArr], veqL_refl _⟩
  | x :: xs, [], st, o => by
    intro hst ho _ _ h
    rcases st with _ | _ | _
    · simp [mCmpArr] at h
    · simp only [mCmpArr] at h
      exact absurd (Option.some_inj.mp h).symm ho
    · exact absurd rfl hst
  | x :: xs, y :: ys, st, o => by
    intro hst ho wxs wys h
    have hwx : wf x = true ∧ wfL xs = true := by
      have hx : (wf x && wfL xs) = true := wxs
      simpa [Bool.and_eq_true] using hx
    have hwy : wf y = true ∧ wfL ys = true := by
      have hy : (wf y && wfL ys) = true := wys
      simpa [Bool.and_eq_true] using hy
    rcases st with _ | _ | _
    · -- state lt
      simp only [mCmpArr] at h
      rcases hm : meaningfulCmp x y with _ | oc <;> rw [hm] at h
      · exact Option.noConfusion h
      · have hmsw := mcmp_swap x y
        rw [hm] at hmsw
        rcases oc with _ | _ | _
        · have ⟨g1, ⟨r1, l1, e1⟩, ⟨r2, l2, e2⟩⟩ :=
            arrBounds xs ys .lt o (by simp) ho hwx.2 hwy.2 h
          refine ⟨?_, ⟨y :: r1, ?_, ?_⟩, ⟨y :: r2, ?_, ?_⟩⟩
          · simp only [glbArr]; rw [hm, g1]
          · simp only [lubArr]; rw [hm, l1]
          · show (veq y y && veqL r1 ys) = true
            rw [veq_refl y, e1]
            rfl
          · simp only [lubArr]; rw [hmsw]; simp only [Option.map, Ordering.swap]
            rw [l2]
          · show (veq y y && veqL r2 ys) = true
            rw [veq_refl y, e2]
            rfl
        · have ⟨g1, ⟨r1, l1, e1⟩, ⟨r2, l2, e2⟩⟩ :=
            arrBounds xs ys .lt o (by simp) ho hwx.2 hwy.2 h
          refine ⟨?_, ⟨x :: r1, ?_, ?_⟩, ⟨y :: r2, ?_, ?_⟩⟩
          · simp only [glbArr]; rw [hm, g1]
          · simp only [lubArr]; rw [hm, l1]
          · show (veq x y && veqL r1 ys) = true
            rw [veq_of_mcmp_eq x y hwx.1 hwy.1 hm, e1]
            rfl
          · simp only [lubArr]; rw [hmsw]; simp only [Option.map, Ordering.swap]
            rw [l2]
          · show (veq y y && veqL r2 ys) = true
            rw [veq_refl y, e2]
            rfl
        · exact Option.noConfusion h
    · -- state eq
      simp only [mCmpArr] at h
      rcases hm : meaningfulCmp x y with _ | oc <;> rw [hm] at h
      · exact Option.noConfusion h
      · have hmsw := mcmp_swap x y
        rw [hm] at hmsw
        have hoc : oc ≠ .gt := by
          intro hgt
          rw [hgt] at h
          exact ho (mCmpArr_gt xs ys o h)
        have ⟨g1, ⟨r1, l1, e1⟩, ⟨r2, l2, e2⟩⟩ :=
          arrBounds xs ys oc o hoc ho hwx.2 hwy.2 h
        rcases oc with _ | _ | _
        · refine ⟨?_, ⟨y :: r1, ?_, ?_⟩, ⟨y :: r2, ?_, ?_⟩⟩
          · simp only [glbArr]; rw [hm, g1]
          · simp only [lubArr]; rw [hm, l1]
          · show (veq y y && veqL r1 ys) = true
            rw [veq_refl y, e1]
            rfl
          · simp only [lubArr]; rw [hmsw]; simp only [Option.map, Ordering.swap]
            rw [l2]
          · show (veq y y && veqL r2 ys) = true
            rw [veq_refl y, e2]
            rfl
        · refine ⟨?_, ⟨x :: r1, ?_, ?_⟩, ⟨y :: r2, ?_, ?_⟩⟩
          · simp only [glbArr]; rw [hm, g1]
          · simp only [lubArr]; rw [hm, l1]
          · show (veq x y && veqL r1 ys) = true
            rw [veq_of_mcmp_eq x y hwx.1 hwy.1 hm, e1]
            rfl
          · simp only [lubArr]; rw [hmsw]; simp only [Option.map, Ordering.swap]
            rw [l2]
          · show (veq y y && veqL r2 ys) = true
            rw [veq_refl y, e2]
            rfl
        · exact absurd rfl hoc
    · exact absurd rfl hst

/-- If the array meet is `PartialEq`-equal to the first input, the first
array is no longer than the second and every common pair compares at
most `Equal`. -/
theorem glbArr_veq_left : ∀ xs ys r : List Value, glbArr xs ys = some r →
    veqL r xs = true → xs.length ≤ ys.length ∧
      ∀ p ∈ List.zip xs ys, ∃ o, meaningfulCmp p.1 p.2 = some o ∧ o ≠ Ordering.gt
  | [], ys, r => by
    intro h hv
    refine ⟨by simp, ?_⟩
    intro p hp
    simp at hp
  | x :: xs, [], r => by
    intro h hv
    simp only [glbArr] at h
    injection h with h2
    subst h2
    exact absurd hv (by simp [veqL])
  | x :: xs, y :: ys, r => by
    intro h hv
    simp only [glbArr] at h
    rcases hm : meaningfulCmp x y with _ | oc <;> rw [hm] at h
    · exact Option.noConfusion h
    rcases oc with _ | _ | _
    · rcases hg : glbArr xs ys with _ | r' <;> rw [hg] at h
      · exact Option.noConfusion h
      injection h with h2
      subst h2
      have hv' : (veq x x && veqL r' xs) = true := hv
      rw [Bool.and_eq_true] at hv'
      obtain ⟨hlen, hzip⟩ := glbArr_veq_left xs ys r' hg hv'.2
      refine ⟨by simp; omega, ?_⟩
      intro p hp
      rw [List.zip_cons_cons] at hp
      rcases List.mem_cons.mp hp with rfl | hp2
      · exact ⟨.lt, hm, by simp⟩
      · exact hzip p hp2
    · rcases hg : glbArr xs ys with _ | r' <;> rw [hg] at h
      · exact Option.noConfusion h
      injection h with h2
      subst h2
      have hv' : (veq x x && veqL r' xs) = true := hv
      rw [Bool.and_eq_true] at hv'
      obtain ⟨hlen, hzip⟩ := glbArr_veq_left xs ys r' hg hv'.2
      refine ⟨by simp; omega, ?_⟩
      intro p hp
      rw [List.zip_cons_cons] at hp
      rcases List.mem_cons.mp hp with rfl | hp2
      · exact ⟨.eq, hm, by simp⟩
      · exact hzip p hp2
    · rcases hg : glbArr xs ys with _ | r' <;> rw [hg] at h
      · exact Option.noConfusion h
      injection h with h2
      subst h2
      have hv' : (veq y x && veqL r' xs) = true := hv
      rw [Bool.and_eq_true] at hv'
      have heq := mcmp_of_veq y x hv'.1
      have hsw := mcmp_swap y x
      rw [heq, hm] at hsw
      simp [Ordering.swap] at hsw

/-- If the array meet is `PartialEq`-equal to the second input, the
second array is no longer than the first and every common pair of the
swapped arrays compares at most `Equal`. -/
theorem glbArr_veq_right : ∀ xs ys r : List Value, glbArr xs ys = some r →
    veqL r ys = true → ys.length ≤ xs.length ∧
      ∀ p ∈ List.zip ys xs, ∃ o, meaningfulCmp p.1 p.2 = some o ∧ o ≠ Ordering.gt
  | [], ys, r => by
    intro h hv
    simp only [glbArr] at h
    injection h with h2
    subst h2
    cases ys with
    | nil => exact ⟨by simp, fun p hp => by simp at hp⟩
    | cons y t => exact absurd hv (by simp [veqL])
  | x :: xs, [], r => by
    intro h hv
    exact ⟨by simp, fun p hp => by simp at hp⟩
  | x :: xs, y :: ys, r => by
    intro h hv
    simp only [glbArr] at h
    rcases hm : meaningfulCmp x y with _ | oc <;> rw [hm] at h
    · exact Option.noConfusion h
    rcases oc with _ | _ | _
    · rcases hg : glbArr xs ys with _ | r' <;> rw [hg] at h
      · exact Option.noConfusion h
      injection h with h2
      subst h2
      have hv' : (veq x y && veqL r' ys) = true := hv
      rw [Bool.and_eq_true] at hv'
      have heq := mcmp_of_veq x y hv'.1
      rw [hm] at heq
      simp at heq
    · rcases hg : glbArr xs ys with _ | r' <;> rw [hg] at h
      · exact Option.noConfusion h
      injection h with h2
      subst h2
      have hv' : (veq x y && veqL r' ys) = true := hv
      rw [Bool.and_eq_true] at hv'
      obtain ⟨hlen, hzip⟩ := glbArr_veq_right xs ys r' hg hv'.2
      refine ⟨by simp; omega, ?_⟩
      intro p hp
      rw [List.zip_cons_cons] at hp
      rcases List.mem_cons.mp hp with rfl | hp2
      · refine ⟨.eq, ?_, by simp⟩
        rw [mcmp_swap x y, hm]
        rfl
      · exact hzip p hp2
    · rcases hg : glbArr xs ys with _ | r' <;> rw [hg] at h
      · exact Option.noConfusion h
      injection h with h2
      subst h2
      have hv' : (veq y y && veqL r' ys) = true := hv
      rw [Bool.and_eq_true] at hv'
      obtain ⟨hlen, hzip⟩ := glbArr_veq_right xs ys r' hg hv'.2
      refine ⟨by simp; omega, ?_⟩
      intro p hp
      rw [List.zip_cons_cons] at hp
      rcases List.mem_cons.mp hp with rfl | hp2
      · refine ⟨.lt, ?_, by simp⟩
        rw [mcmp_swap x y, hm]
        rfl
      · exact hzip p hp2

/-- If the array join is `PartialEq`-equal to the first input, the
second array is no longer than the first and every common pair of the
swapped arrays compares at most `Equal`. -/
theorem lubArr_veq_left : ∀ xs ys r : List Value, lubArr xs ys = some r →
    veqL r xs = true → ys.length ≤ xs.length ∧
      ∀ p ∈ List.zip ys xs, ∃ o, meaningfulCmp p.1 p.2 = some o ∧ o ≠ Ordering.gt
  | [], ys, r => by
    intro h hv
    simp only [lubArr] at h
    injection h with h2
    subst h2
    cases ys with
    | nil => exact ⟨by simp, fun p hp => by simp at hp⟩
    | cons y t => exact absurd hv (by simp [veqL])
  | x :: xs, [], r => by
    intro h hv
    exact ⟨by simp, fun p hp => by simp at hp⟩
  | x :: xs, y :: ys, r => by
    intro h hv
    simp only [lubArr] at h
    rcases hm : meaningfulCmp x y with _ | oc <;> rw [hm] at h
    · exact Option.noConfusion h
    rcases oc with _ | _ | _
    · rcases hg : lubArr xs ys with _ | r' <;> rw [hg] at h
      · exact Option.noConfusion h
      injection h with h2
      subst h2
      have hv' : (veq y x && veqL r' xs) = true := hv
      rw [Bool.and_eq_true] at hv'
      have heq := mcmp_of_veq y x hv'.1
      have hsw := mcmp_swap y x
      rw [heq, hm] at hsw
      simp [Ordering.swap] at hsw
    · rcases hg : lubArr xs ys with _ | r' <;> rw [hg] at h
      · exact Option.noConfusion h
      injection h with h2
      subst h2
      have hv' : (veq x x && veqL r' xs) = true := hv
      rw [Bool.and_eq_true] at hv'
      obtain ⟨hlen, hzip⟩ := lubArr_veq_left xs ys r' hg hv'.2
      refine ⟨by simp; omega, ?_⟩
      intro p hp
      rw [List.zip_cons_cons] at hp
      rcases List.mem_cons.mp hp with rfl | hp2
      · refine ⟨.eq, ?_, by simp⟩
        rw [mcmp_swap x y, hm]
        rfl
      · exact hzip p hp2
    · rcases hg : lubArr xs ys with _ | r' <;> rw [hg] at h
      · exact Option.noConfusion h
      injection h with h2
      subst h2
      have hv' : (veq x x && veqL r' xs) = true := hv
      rw [Bool.and_eq_true] at hv'
      obtain ⟨hlen, hzip⟩ := lubArr_veq_left xs ys r' hg hv'.2
      refine ⟨by simp; omega, ?_⟩
      intro p hp
      rw [List.zip_cons_cons] at hp
      rcases List.mem_cons.mp hp with rfl | hp2
      · refine ⟨.lt, ?_, by simp⟩
        rw [mcmp_swap x y, hm]
        rfl
      · exact hzip p hp2

/-- If the array join is `PartialEq`-equal to the second input, the
first array is no longer than the second and every common pair compares
at most `Equal`. -/
theorem lubArr_veq_right : ∀ xs ys r : List Value, lubArr xs ys = some r →
    veqL r ys = true → xs.length ≤ ys.length ∧
      ∀ p ∈ List.zip xs ys, ∃ o, meaningfulCmp p.1 p.2 = some o ∧ o ≠ Ordering.gt
  | [], ys, r => by
    intro h hv
    refine ⟨by simp, ?_⟩
    intro p hp
    simp at hp
  | x :: xs, [], r => by
    intro h hv
    simp only [lubArr] at h
    injection h with h2
    subst h2
    exact absurd hv (by simp [veqL])
  | x :: xs, y :: ys, r => by
    intro h hv
    simp only [lubArr] at h
    rcases hm : meaningfulCmp x y with _ | oc <;> rw [hm] at h
    · exact Option.noConfusion h
    rcases oc with _ | _ | _
    · rcases hg : lubArr xs ys with _ | r' <;> rw [hg] at h
      · exact Option.noConfusion h
      injection h with h2
      subst h2
      have hv' : (veq y y && veqL r' ys) = true := hv
      rw [Bool.and_eq_true] at hv'
      obtain ⟨hlen, hzip⟩ := lubArr_veq_right xs ys r' hg hv'.2
      refine ⟨by simp; omega, ?_⟩
      intro p hp
      rw [List.zip_cons_cons] at hp
      rcases List.mem_cons.mp hp with rfl | hp2
      · exact ⟨.lt, hm, by simp⟩
      · exact hzip p hp2
    · rcases hg : lubArr xs ys with _ | r' <;> rw [hg] at h
      · exact Option.noConfusion h
      injection h with h2
      subst h2
      have hv' : (veq x y && veqL r' ys) = true := hv
      rw [Bool.and_eq_true] at hv'
      obtain ⟨hlen, hzip⟩ := lubArr_veq_right xs ys r' hg hv'.2
      refine ⟨by simp; omega, ?_⟩
      intro p hp
      rw [List.zip_cons_cons] at hp
      rcases List.mem_cons.mp hp with rfl | hp2
      · exact ⟨.eq, hm, by simp⟩
      · exact hzip p hp2
    · rcases hg : lubArr xs ys with _ | r' <;> rw [hg] at h
      · exact Option.noConfusion h
      injection h with h2
      subst h2
      have hv' : (veq x y && veqL r' ys) = true := hv
      rw [Bool.and_eq_true] at hv'
      have heq := mcmp_of_veq x y hv'.1
      rw [hm] at heq
      simp at heq

/-- `BTreeMap::get` depends on the query key only through
`Equal`-comparison. -/
theorem lookup_congr {q q' : Value} (h : cmpV q q' = .eq) :
    ∀ r : List (Value × Value), lookupM r q = lookupM r q'
  | [] => rfl
  | (k', v') :: t => by
    simp only [lookupM]
    rw [cmp_congr_right h k', lookup_congr h t]

/-- In a sorted entry list, every entry is found under its own key. -/
theorem lookup_self {m : List (Value × Value)} (hs : sortedE m = true)
    {k v : Value} (hm : (k, v) ∈ m) : lookupM m k = some v :=
  lookup_sorted_of_mem m hs k v k hm (cmp_refl k)

/-- Looking up through `PartialEq`-equal maps gives `PartialEq`-equal
results. -/
theorem lookup_veqE : ∀ a b : List (Value × Value), veqE a b = true →
    ∀ k v', lookupM b k = some v' → ∃ v, lookupM a k = some v ∧ veq v v' = true
  | [], [], _ => by
    intro k v' h
    simp [lookupM] at h
  | [], _ :: _, h => nomatch h
  | _ :: _, [], h => nomatch h
  | (ka, va) :: ta, (kb, vb) :: tb, h => by
    have h' : (veq ka kb && veq va vb && veqE ta tb) = true := h
    simp only [Bool.and_eq_true] at h'
    obtain ⟨⟨hk, hv⟩, ht⟩ := h'
    intro k v' hl
    simp only [lookupM] at hl ⊢
    have hck : cmpV ka k = cmpV kb k := cmp_congr_left (veq_cmp_eq _ _ hk) k
    by_cases hc : cmpV kb k = .eq
    · rw [if_pos hc] at hl
      injection hl with hl2
      subst hl2
      rw [if_pos (by rw [hck]; exact hc)]
      exact ⟨va, rfl, hv⟩
    · rw [if_neg hc] at hl
      rw [if_neg (by rw [hck]; exact hc)]
      exact lookup_veqE ta tb ht k v' hl

/-- `BTreeMap::insert` makes the inserted value visible under every key
comparing `Equal` to the inserted one. -/
theorem lookup_insertE_eq : ∀ (r : List (Value × Value)) (k v q : Value),
    cmpV k q = .eq → lookupM (insertE r k v) q = some v
  | [], k, v, q => by
    intro h
    simp only [insertE, lookupM]
    rw [if_pos h]
  | (k', v') :: t, k, v, q => by
    intro h
    simp only [insertE]
    rcases hc : cmpV k k' with _ | _ | _
    · simp only [lookupM]
      rw [if_pos h]
    · have h2 : cmpV k' q = .eq := by
        rw [cmp_congr_left (cmp_eq_comm hc) q]
        exact h
      simp only [lookupM]
      rw [if_pos h2]
    · have h2 : cmpV k' q = .lt := by
        rw [cmp_congr_right (cmp_eq_comm h) k']
        exact cmp_gt_iff_lt.mp hc
      simp only [lookupM]
      rw [if_neg (by rw [h2]; simp)]
      exact lookup_insertE_eq t k v q h

/-- `BTreeMap::insert` leaves lookups under other keys unchanged. -/
theorem lookup_insertE_ne : ∀ (r : List (Value × Value)) (k v q : Value),
    cmpV k q ≠ .eq → lookupM (insertE r k v) q = lookupM r q
  | [], k, v, q => by
    intro h
    simp only [insertE, lookupM]
    rw [if_neg h]
  | (k', v') :: t, k, v, q => by
    intro h
    simp only [insertE]
    rcases hc : cmpV k k' with _ | _ | _
    · simp only [lookupM]
      rw [if_neg h]
    · have h2 : cmpV k' q ≠ .eq := by
        rw [cmp_congr_left (cmp_eq_comm hc) q]
        exact h
      simp only [lookupM]
      rw [if_neg h2, if_neg h2]
    · simp only [lookupM]
      by_cases hh : cmpV k' q = .eq
      · rw [if_pos hh, if_pos hh]
      · rw [if_neg hh, if_neg hh]
        exact lookup_insertE_ne t k v q h

/-- Inverting a lookup in a map after `BTreeMap::insert`. -/
theorem lookup_insertE_inv (r : List (Value × Value)) (k v q j : Value)
    (h : lookupM (insertE r k v) q = some j) :
    (cmpV k q = .eq ∧ j = v) ∨ (cmpV k q ≠ .eq ∧ lookupM r q = some j) := by
  by_cases hc : cmpV k q = .eq
  · left
    refine ⟨hc, ?_⟩
    rw [lookup_insertE_eq r k v q hc] at h
    exact (Option.some_inj.mp h).symm
  · right
    refine ⟨hc, ?_⟩
    rw [lookup_insertE_ne r k v q hc] at h
    exact h

/-- Keys after `BTreeMap::insert` come from the map or the insertion. -/
theorem insertE_keys : ∀ (r : List (Value × Value)) (k v : Value), ∀ p ∈ insertE r k v,
    p.1 = k ∨ ∃ q ∈ r, p.1 = q.1
  | [], k, v => by
    intro p hp
    simp only [insertE] at hp
    rw [List.mem_singleton] at hp
    subst hp
    exact Or.inl rfl
  | (k', v') :: t, k, v => by
    intro p hp
    simp only [insertE] at hp
    rcases hc : cmpV k k' with _ | _ | _ <;> rw [hc] at hp
    · rcases List.mem_cons.mp hp with rfl | hp2
      · exact Or.inl rfl
      · exact Or.inr ⟨p, hp2, rfl⟩
    · rcases List.mem_cons.mp hp with rfl | hp2
      · exact Or.inr ⟨(k', v'), List.mem_cons_self _ _, rfl⟩
      · exact Or.inr ⟨p, List.mem_cons_of_mem _ hp2, rfl⟩
    · rcases List.mem_cons.mp hp with rfl | hp2
      · exact Or.inr ⟨(k', v'), List.mem_cons_self _ _, rfl⟩
      · rcases insertE_keys t k v p hp2 with h1 | ⟨q, hq, h2⟩
        · exact Or.inl h1
        · exact Or.inr ⟨q, List.mem_cons_of_mem _ hq, h2⟩

/-- Prepending a key below every key of a sorted list keeps it sorted. -/
theorem sortedE_cons : ∀ (k1 v1 : Value) (l : List (Value × Value)),
    sortedE l = true → (∀ p ∈ l, cmpV k1 p.1 = .lt) →
    sortedE ((k1, v1) :: l) = true
  | k1, v1, [] => by
    intro _ _
    rfl
  | k1, v1, (k2, v2) :: t => by
    intro hs hlt
    show (cmpV k1 k2 == Ordering.lt && sortedE ((k2, v2) :: t)) = true
    rw [hlt (k2, v2) (List.mem_cons_self _ _), hs]
    rfl

/-- `BTreeMap::insert` preserves sortedness. -/
theorem insertE_sorted : ∀ (r : List (Value × Value)) (k v : Value),
    sortedE r = true → sortedE (insertE r k v) = true
  | [], k, v => by
    intro _
    rfl
  | (k', v') :: t, k, v => by
    intro hs
    simp only [insertE]
    rcases hc : cmpV k k' with _ | _ | _
    · refine sortedE_cons k v ((k', v') :: t) hs ?_
      intro p hp
      rcases List.mem_cons.mp hp with rfl | hp2
      · exact hc
      · exact (cmp_trans k k' p.1).1 hc (sorted_head_lt k' v' t hs p hp2)
    · refine sortedE_cons k' v t (sortedE_tail hs) ?_
      exact sorted_head_lt k' v' t hs
    · refine sortedE_cons k' v' (insertE t k v) (insertE_sorted t k v (sortedE_tail hs)) ?_
      intro p hp
      rcases insertE_keys t k v p hp with h1 | ⟨q, hq, h2⟩
      · rw [h1]
        exact cmp_gt_iff_lt.mp hc
      · rw [h2]
        exact sorted_head_lt k' v' t hs q hq

/-- For sorted maps with `meaningful_partial_cmp` at most `Equal`,
every key of the first map is found in the second with a value
comparing at most `Equal`. -/
theorem mapChar : ∀ n : Nat, ∀ m1 m2 : List (Value × Value), ∀ st o : Ordering,
    m1.length + m2.length ≤ n → sortedE m1 = true → sortedE m2 = true →
    st ≠ .gt → o ≠ .gt → mCmpMap m1 m2 st = some o →
    ∀ k v1, (k, v1) ∈ m1 → ∃ v2, lookupM m2 k = some v2 ∧
      ∃ oc, meaningfulCmp v1 v2 = some oc ∧ oc ≠ .gt := by
  intro n
  induction n with
  | zero =>
    intro m1 m2 st o hlen _ _ _ _ _ k v1 hkmem
    cases m1 with
    | nil => nomatch hkmem
    | cons e r => simp at hlen
  | succ n ih =>
    intro m1 m2 st o hlen hs1 hs2 hst ho h k v1 hkmem
    match m1, m2 with
    | [], _ => nomatch hkmem
    | (k1, w1) :: r1, [] =>
      rcases st with _ | _ | _
      · simp [mCmpMap] at h
      · simp only [mCmpMap] at h
        exact absurd (Option.some_inj.mp h).symm ho
      · exact absurd rfl hst
    | (k1, w1) :: r1, (k2, w2) :: r2 =>
      have hlen1 : r1.length + ((k2, w2) :: r2).length ≤ n := by
        simp at hlen ⊢; omega
      have hlen2 : r1.length + r2.length ≤ n := by
        simp at hlen ⊢; omega
      have hlen3 : ((k1, w1) :: r1).length + r2.length ≤ n := by
        simp at hlen ⊢; omega
      rcases st with _ | _ | _
      · -- state lt
        simp only [mCmpMap] at h
        rcases hkk : cmpV k1 k2 with _ | _ | _ <;> rw [hkk] at h
        · exact Option.noConfusion h
        · -- matching keys
          rcases hv : meaningfulCmp w1 w2 with _ | ov <;> rw [hv] at h
          · exact Option.noConfusion h
          · rcases ov with _ | _ | _
            · -- value lt, recurse on (r1, r2, lt)
              rcases List.mem_cons.mp hkmem with heq | hmem
              · have hk12 : k = k1 := congrArg Prod.fst heq
                have hw12 : v1 = w1 := congrArg Prod.snd heq
                have hck : cmpV k2 k = .eq := by
                  rw [cmp_swap k k2, hk12, hkk]
                  rfl
                refine ⟨w2, ?_, .lt, by rw [hw12]; exact hv, by simp⟩
                simp only [lookupM]
                rw [if_pos hck]
              · obtain ⟨v2, hl, hoc⟩ :=
                  ih r1 r2 .lt o hlen2 (sortedE_tail hs1) (sortedE_tail hs2)
                    (by simp) ho h k v1 hmem
                refine ⟨v2, ?_, hoc⟩
                have hlt1 : cmpV k1 k = .lt :=
                  sorted_head_lt k1 w1 r1 hs1 (k, v1) hmem
                have hne : cmpV k2 k ≠ .eq := by
                  have : cmpV k2 k = .lt := by
                    rw [cmp_congr_left (cmp_eq_comm hkk) k]
                    exact hlt1
                  rw [this]
                  simp
                simp only [lookupM]
                rw [if_neg hne]
                exact hl
            · -- value eq, recurse on (r1, r2, lt)
              rcases List.mem_cons.mp hkmem with heq | hmem
              · have hk12 : k = k1 := congrArg Prod.fst heq
                have hw12 : v1 = w1 := congrArg Prod.snd heq
                have hck : cmpV k2 k = .eq := by
                  rw [cmp_swap k k2, hk12, hkk]
                  rfl
                refine ⟨w2, ?_, .eq, by rw [hw12]; exact hv, by simp⟩
                simp only [lookupM]
                rw [if_pos hck]
              · obtain ⟨v2, hl, hoc⟩ :=
                  ih r1 r2 .lt o hlen2 (sortedE_tail hs1) (sortedE_tail hs2)
                    (by simp) ho h k v1 hmem
                refine ⟨v2, ?_, hoc⟩
                have hlt1 : cmpV k1 k = .lt :=
                  sorted_head_lt k1 w1 r1 hs1 (k, v1) hmem
                have hne : cmpV k2 k ≠ .eq := by
                  have : cmpV k2 k = .lt := by
                    rw [cmp_congr_left (cmp_eq_comm hkk) k]
                    exact hlt1
                  rw [this]
                  simp
                simp only [lookupM]
                rw [if_neg hne]
                exact hl
            · exact Option.noConfusion h
        · -- k1 greater: skip m2 head, state lt
          obtain ⟨v2, hl, hoc⟩ :=
            ih ((k1, w1) :: r1) r2 .lt o hlen3 hs1 (sortedE_tail hs2)
              (by simp) ho h k v1 hkmem
          refine ⟨v2, ?_, hoc⟩
          have hk21 : cmpV k2 k1 = .lt := by
            rw [cmp_swap k1 k2, hkk]
            rfl
          have hk1k : cmpV k1 k = .eq ∨ cmpV k1 k = .lt := by
            rcases List.mem_cons.mp hkmem with heq | hmem
            · have hk12 : k = k1 := congrArg Prod.fst heq
              left
              rw [hk12]
              exact cmp_refl k1
            · right
              exact sorted_head_lt k1 w1 r1 hs1 (k, v1) hmem
          have hne : cmpV k2 k ≠ .eq := by
            have : cmpV k2 k = .lt := by
              rcases hk1k with he | hl2
              · rw [cmp_congr_right (cmp_eq_comm he) k2]
                exact hk21
              · exact (cmp_trans k2 k1 k).1 hk21 hl2
            rw [this]
            simp
          simp only [lookupM]
          rw [if_neg hne]
          exact hl
      · -- state eq
        simp only [mCmpMap] at h
        rcases hkk : cmpV k1 k2 with _ | _ | _ <;> rw [hkk] at h
        · exact absurd (mCmpMap_gt _ _ _ h) ho
        · rcases hv : meaningfulCmp w1 w2 with _ | ov <;> rw [hv] at h
          · exact Option.noConfusion h
          · have hov : ov ≠ .gt := by
              intro hgt
              rw [hgt] at h
              exact ho (mCmpMap_gt _ _ _ h)
            rcases List.mem_cons.mp hkmem with heq | hmem
            · have hk12 : k = k1 := congrArg Prod.fst heq
              have hw12 : v1 = w1 := congrArg Prod.snd heq
              have hck : cmpV k2 k = .eq := by
                rw [cmp_swap k k2, hk12, hkk]
                rfl
              refine ⟨w2, ?_, ov, by rw [hw12]; exact hv, hov⟩
              simp only [lookupM]
              rw [if_pos hck]
            · obtain ⟨v2, hl, hoc⟩ :=
                ih r1 r2 ov o hlen2 (sortedE_tail hs1) (sortedE_tail hs2)
                  hov ho h k v1 hmem
              refine ⟨v2, ?_, hoc⟩
              have hlt1 : cmpV k1 k = .lt :=
                sorted_head_lt k1 w1 r1 hs1 (k, v1) hmem
              have hne : cmpV k2 k ≠ .eq := by
                have : cmpV k2 k = .lt := by
                  rw [cmp_congr_left (cmp_eq_comm hkk) k]
                  exact hlt1
                rw [this]
                simp
              simp only [lookupM]
              rw [if_neg hne]
              exact hl
        · -- k1 greater: skip m2 head, state lt
          obtain ⟨v2, hl, hoc⟩ :=
            ih ((k1, w1) :: r1) r2 .lt o hlen3 hs1 (sortedE_tail hs2)
              (by simp) ho h k v1 hkmem
          refine ⟨v2, ?_, hoc⟩
          have hk21 : cmpV k2 k1 = .lt := by
            rw [cmp_swap k1 k2, hkk]
            rfl
          have hk1k : cmpV k1 k = .eq ∨ cmpV k1 k = .lt := by
            rcases List.mem_cons.mp hkmem with heq | hmem
            · have hk12 : k = k1 := congrArg Prod.fst heq
              left
              rw [hk12]
              exact cmp_refl k1
            · right
              exact sorted_head_lt k1 w1 r1 hs1 (k, v1) hmem
          have hne : cmpV k2 k ≠ .eq := by
            have : cmpV k2 k = .lt := by
              rcases hk1k with he | hl2
              · rw [cmp_congr_right (cmp_eq_comm he) k2]
                exact hk21
              · exact (cmp_trans k2 k1 k).1 hk21 hl2
            rw [this]
            simp
          simp only [lookupM]
          rw [if_neg hne]
          exact hl
      · exact absurd rfl hst

/-- The glb map loop, when every key is found in the second map with
the meet equal to the first value, reproduces the first map after the
accumulator. -/
theorem glbMap_acc : ∀ (m1 : List (Value × Value)) (m2 acc : List (Value × Value)),
    sortedE m1 = true →
    (∀ p ∈ acc, ∀ q ∈ m1, cmpV p.1 q.1 = .lt) →
    (∀ k v1, (k, v1) ∈ m1 → ∃ v2, lookupM m2 k = some v2 ∧ glbV v1 v2 = some v1) →
    glbMap m1 m2 acc = some (acc ++ m1) := by
  intro m1
  induction m1 with
  | nil => intro m2 acc _ _ _; simp [glbMap]
  | cons e r ih =>
    obtain ⟨k, v1⟩ := e
    intro m2 acc hs hacc hspec
    obtain ⟨v2, hl, hg⟩ := hspec k v1 (List.mem_cons_self _ _)
    simp only [glbMap]
    split
    · rename_i heq
      rw [hl] at heq
      exact Option.noConfusion heq
    · rename_i v2' heq
      rw [hl] at heq
      injection heq with heq2
      subst heq2
      rw [hg]
      show glbMap r m2 (insertE acc k v1) = _
      rw [insertE_append acc k v1
        (fun p hp => hacc p hp (k, v1) (List.mem_cons_self _ _))]
      rw [ih m2 (acc ++ [(k, v1)]) (sortedE_tail hs) ?hacc2 ?hspec2]
      · simp
      case hacc2 =>
        intro p hp q hq
        rcases List.mem_append.mp hp with hp1 | hp2
        · exact hacc p hp1 q (List.mem_cons_of_mem _ hq)
        · have : p = (k, v1) := List.mem_singleton.mp hp2
          rw [this]
          exact sorted_head_lt k v1 r hs q hq
      case hspec2 =>
        intro k2 w2 hm
        exact hspec k2 w2 (List.mem_cons_of_mem _ hm)

/-- The first lub map loop is defined when every joined pair is. -/
theorem lubMap1_some : ∀ (m1 : List (Value × Value)) (m2 acc : List (Value × Value)),
    (∀ k v1, (k, v1) ∈ m1 → ∀ v2, lookupM m2 k = some v2 → ∃ j, lubV v1 v2 = some j) →
    ∃ r, lubMap1 m1 m2 acc = some r := by
  intro m1
  induction m1 with
  | nil => intro m2 acc _; exact ⟨acc, by simp [lubMap1]⟩
  | cons e r ih =>
    obtain ⟨k, v1⟩ := e
    intro m2 acc hspec
    simp only [lubMap1]
    split
    · exact ih m2 _ (fun k2 w2 hm => hspec k2 w2 (List.mem_cons_of_mem _ hm))
    · rename_i v2 heq
      obtain ⟨j, hj⟩ := hspec k v1 (List.mem_cons_self _ _) v2 heq
      rw [hj]
      exact ih m2 _ (fun k2 w2 hm => hspec k2 w2 (List.mem_cons_of_mem _ hm))

/-- The second lub map loop is defined when every joined pair is. -/
theorem lubMap2_some : ∀ (m2 : List (Value × Value)) (m1 acc : List (Value × Value)),
    (∀ k v2, (k, v2) ∈ m2 → ∀ v1, lookupM m1 k = some v1 → ∃ j, lubV v2 v1 = some j) →
    ∃ r, lubMap2 m2 m1 acc = some r := by
  intro m2
  induction m2 with
  | nil => intro m1 acc _; exact ⟨acc, by simp [lubMap2]⟩
  | cons e r ih =>
    obtain ⟨k, v2⟩ := e
    intro m1 acc hspec
    simp only [lubMap2]
    split
    · exact ih m1 _ (fun k2 w2 hm => hspec k2 w2 (List.mem_cons_of_mem _ hm))
    · rename_i v1 heq
      obtain ⟨j, hj⟩ := hspec k v2 (List.mem_cons_self _ _) v1 heq
      rw [hj]
      exact ih m1 _ (fun k2 w2 hm => hspec k2 w2 (List.mem_cons_of_mem _ hm))

/-- If every key of the first (sorted) map is found in the second with
a value comparing at most `Equal`, the map state machine stays at most
`Equal`. -/
theorem mapLe : ∀ n : Nat, ∀ m1 m2 : List (Value × Value), ∀ st : Ordering,
    m1.length + m2.length ≤ n → sortedE m1 = true → sortedE m2 = true →
    st ≠ .gt →
    (∀ k v1, (k, v1) ∈ m1 → ∃ v2, lookupM m2 k = some v2 ∧
      ∃ o, meaningfulCmp v1 v2 = some o ∧ o ≠ Ordering.gt) →
    ∃ o, mCmpMap m1 m2 st = some o ∧ o ≠ Ordering.gt := by
  intro n
  induction n with
  | zero =>
    intro m1 m2 st hlen hs1 hs2 hst hspec
    match m1, m2 with
    | [], [] => exact ⟨st, by simp [mCmpMap], hst⟩
    | [], e :: r => simp at hlen
    | e :: r, m2 => simp at hlen
  | succ n ih =>
    intro m1 m2 st hlen hs1 hs2 hst hspec
    match m1, m2 with
    | [], [] => exact ⟨st, by simp [mCmpMap], hst⟩
    | [], (k2, v2) :: r2 =>
      rcases st with _ | _ | _
      · exact ⟨.lt, by simp [mCmpMap], by simp⟩
      · exact ⟨.lt, by simp [mCmpMap], by simp⟩
      · exact absurd rfl hst
    | (k1, v1) :: r1, [] =>
      obtain ⟨v2, hv2, _⟩ := hspec k1 v1 (List.mem_cons_self _ _)
      simp [lookupM] at hv2
    | (k1, v1) :: r1, (k2, v2) :: r2 =>
      have hlen2 : r1.length + r2.length ≤ n := by
        simp at hlen
        omega
      have hlen3 : ((k1, v1) :: r1).length + r2.length ≤ n := by
        simp at hlen ⊢
        omega
      rcases hkk : cmpV k1 k2 with _ | _ | _
      · -- k1 below every key of m2: its lookup cannot succeed
        exfalso
        obtain ⟨w, hw, _⟩ := hspec k1 v1 (List.mem_cons_self _ _)
        obtain ⟨k', hm', he'⟩ := lookupM_mem _ k1 w hw
        rcases List.mem_cons.mp hm' with heq | hm2
        · have hx : k' = k2 := congrArg Prod.fst heq
          rw [hx] at he'
          have h3 := cmp_eq_comm he'
          rw [hkk] at h3
          exact Ordering.noConfusion h3
        · have hlt : cmpV k2 k' = .lt := sorted_head_lt k2 v2 r2 hs2 (k', w) hm2
          have h4 : cmpV k2 k1 = .lt := (cmp_trans k2 k' k1).2.1 hlt he'
          have h5 : cmpV k2 k1 = .gt := cmp_gt_iff_lt.mpr hkk
          rw [h4] at h5
          exact Ordering.noConfusion h5
      · -- matching keys
        obtain ⟨w, hw, o0, ho0, ho0g⟩ := hspec k1 v1 (List.mem_cons_self _ _)
        have hw2 : w = v2 := by
          have hx : lookupM ((k2, v2) :: r2) k1 = some v2 := by
            simp only [lookupM]
            rw [if_pos (cmp_eq_comm hkk)]
          rw [hx] at hw
          exact (Option.some_inj.mp hw).symm
        subst hw2
        have hspec' : ∀ k v, (k, v) ∈ r1 → ∃ u, lookupM r2 k = some u ∧
            ∃ o, meaningfulCmp v u = some o ∧ o ≠ Ordering.gt := by
          intro k v hm
          obtain ⟨u, hu, ho⟩ := hspec k v (List.mem_cons_of_mem _ hm)
          refine ⟨u, ?_, ho⟩
          have hne : cmpV k2 k ≠ .eq := by
            have hlt1 : cmpV k1 k = .lt := sorted_head_lt k1 v1 r1 hs1 (k, v) hm
            have hx : cmpV k2 k = .lt := by
              rw [cmp_congr_left (cmp_eq_comm hkk) k]
              exact hlt1
            rw [hx]
            simp
          simp only [lookupM] at hu
          rw [if_neg hne] at hu
          exact hu
        rcases st with _ | _ | _
        · rcases o0 with _ | _ | _
          · obtain ⟨o, ho, hog⟩ := ih r1 r2 .lt hlen2 (sortedE_tail hs1)
              (sortedE_tail hs2) (by simp) hspec'
            refine ⟨o, ?_, hog⟩
            simp only [mCmpMap]
            rw [hkk, ho0]
            exact ho
          · obtain ⟨o, ho, hog⟩ := ih r1 r2 .lt hlen2 (sortedE_tail hs1)
              (sortedE_tail hs2) (by simp) hspec'
            refine ⟨o, ?_, hog⟩
            simp only [mCmpMap]
            rw [hkk, ho0]
            exact ho
          · exact absurd rfl ho0g
        · obtain ⟨o, ho, hog⟩ := ih r1 r2 o0 hlen2 (sortedE_tail hs1)
            (sortedE_tail hs2) ho0g hspec'
          refine ⟨o, ?_, hog⟩
          simp only [mCmpMap]
          rw [hkk, ho0]
          rcases o0 with _ | _ | _
          · exact ho
          · exact ho
          · exact absurd rfl ho0g
        · exact absurd rfl hst
      · -- extra key of m2: consume it, move to state Less
        have hspec'' : ∀ k v, (k, v) ∈ (k1, v1) :: r1 → ∃ u, lookupM r2 k = some u ∧
            ∃ o, meaningfulCmp v u = some o ∧ o ≠ Ordering.gt := by
          intro k v hm
          obtain ⟨u, hu, ho⟩ := hspec k v hm
          refine ⟨u, ?_, ho⟩
          have hne : cmpV k2 k ≠ .eq := by
            have hgt : cmpV k2 k1 = .lt := cmp_gt_iff_lt.mp hkk
            have hk1k : cmpV k1 k = .eq ∨ cmpV k1 k = .lt := by
              rcases List.mem_cons.mp hm with heq | hm2
              · refine Or.inl ?_
                have hx : k = k1 := congrArg Prod.fst heq
                rw [hx]
                exact cmp_refl k1
              · exact Or.inr (sorted_head_lt k1 v1 r1 hs1 (k, v) hm2)
            have hx : cmpV k2 k = .lt := by
              rcases hk1k with he | hl
              · rw [cmp_congr_right (cmp_eq_comm he) k2]
                exact hgt
              · exact (cmp_trans k2 k1 k).1 hgt hl
            rw [hx]
            simp
          simp only [lookupM] at hu
          rw [if_neg hne] at hu
          exact hu
        rcases st with _ | _ | _
        · obtain ⟨o, ho, hog⟩ := ih ((k1, v1) :: r1) r2 .lt hlen3 hs1
            (sortedE_tail hs2) (by simp) hspec''
          refine ⟨o, ?_, hog⟩
          simp only [mCmpMap]
          rw [hkk]
          exact ho
        · obtain ⟨o, ho, hog⟩ := ih ((k1, v1) :: r1) r2 .lt hlen3 hs1
            (sortedE_tail hs2) (by simp) hspec''
          refine ⟨o, ?_, hog⟩
          simp only [mCmpMap]
          rw [hkk]
          exact ho
        · exact absurd rfl hst

/-- Inverting a lookup in the result of the glb map loop. -/
theorem glbMap_lookup_inv : ∀ (A B acc out : List (Value × Value)),
    glbMap A B acc = some out → ∀ q j, lookupM out q = some j →
    lookupM acc q = some j ∨
      ∃ k v1 v2, (k, v1) ∈ A ∧ cmpV k q = .eq ∧ lookupM B k = some v2 ∧
        glbV v1 v2 = some j
  | [], B, acc, out => by
    intro h q j hl
    simp only [glbMap] at h
    injection h with h2
    subst h2
    exact Or.inl hl
  | (k, v) :: t, B, acc, out => by
    intro h q j hl
    simp only [glbMap] at h
    split at h
    · rcases glbMap_lookup_inv t B acc out h q j hl with hacc | ⟨k', v', w', hm, hck, hlk, hg⟩
      · exact Or.inl hacc
      · exact Or.inr ⟨k', v', w', List.mem_cons_of_mem _ hm, hck, hlk, hg⟩
    · rename_i v2 hB
      split at h
      · exact Option.noConfusion h
      · rename_i g hg0
        rcases glbMap_lookup_inv t B _ out h q j hl with hacc | ⟨k', v', w', hm, hck, hlk, hg⟩
        · rcases lookup_insertE_inv acc k g q j hacc with ⟨hck, hjv⟩ | ⟨_, hold⟩
          · subst hjv
            exact Or.inr ⟨k, v, v2, List.mem_cons_self _ _, hck, hB, hg0⟩
          · exact Or.inl hold
        · exact Or.inr ⟨k', v', w', List.mem_cons_of_mem _ hm, hck, hlk, hg⟩

/-- Sortedness of the accumulator is preserved by the first lub map
loop. -/
theorem lubMap1_sorted : ∀ (A B acc out : List (Value × Value)), sortedE acc = true →
    lubMap1 A B acc = some out → sortedE out = true
  | [], B, acc, out => by
    intro hs h
    simp only [lubMap1] at h
    injection h with h2
    subst h2
    exact hs
  | (k, v) :: t, B, acc, out => by
    intro hs h
    simp only [lubMap1] at h
    split at h
    · exact lubMap1_sorted t B _ out (insertE_sorted acc k v hs) h
    · split at h
      · exact Option.noConfusion h
      · rename_i j0 hj0
        exact lubMap1_sorted t B _ out (insertE_sorted acc k j0 hs) h

/-- Keys in the result of the first lub map loop come from the
accumulator or the iterated map. -/
theorem lubMap1_keys : ∀ (A B acc out : List (Value × Value)),
    lubMap1 A B acc = some out → ∀ p ∈ out,
    (∃ q ∈ acc, p.1 = q.1) ∨ ∃ q ∈ A, p.1 = q.1
  | [], B, acc, out => by
    intro h p hp
    simp only [lubMap1] at h
    injection h with h2
    subst h2
    exact Or.inl ⟨p, hp, rfl⟩
  | (k, v) :: t, B, acc, out => by
    intro h p hp
    simp only [lubMap1] at h
    have step : ∀ X : Value,
        ((∃ q ∈ insertE acc k X, p.1 = q.1) ∨ ∃ q ∈ t, p.1 = q.1) →
        (∃ q ∈ acc, p.1 = q.1) ∨ ∃ q ∈ (k, v) :: t, p.1 = q.1 := by
      intro X hx
      rcases hx with ⟨q, hq, hpq⟩ | ⟨q, hq, hpq⟩
      · rcases insertE_keys acc k X q hq with h1 | ⟨q', hq', h2⟩
        · exact Or.inr ⟨(k, v), List.mem_cons_self _ _, by rw [hpq, h1]⟩
        · exact Or.inl ⟨q', hq', by rw [hpq, h2]⟩
      · exact Or.inr ⟨q, List.mem_cons_of_mem _ hq, hpq⟩
    split at h
    · exact step v (lubMap1_keys t B _ out h p hp)
    · split at h
      · exact Option.noConfusion h
      · rename_i j0 hj0
        exact step j0 (lubMap1_keys t B _ out h p hp)

/-- Inverting a lookup in the result of the first lub map loop. -/
theorem lubMap1_lookup_inv : ∀ (A B acc out : List (Value × Value)),
    lubMap1 A B acc = some out → ∀ q j, lookupM out q = some j →
    lookupM acc q = some j ∨
      ∃ k v, (k, v) ∈ A ∧ cmpV k q = .eq ∧
        ((lookupM B k = none ∧ j = v) ∨
         ∃ w, lookupM B k = some w ∧ lubV v w = some j)
  | [], B, acc, out => by
    intro h q j hl
    simp only [lubMap1] at h
    injection h with h2
    subst h2
    exact Or.inl hl
  | (k, v) :: t, B, acc, out => by
    intro h q j hl
    simp only [lubMap1] at h
    split at h
    · rename_i hB
      rcases lubMap1_lookup_inv t B _ out h q j hl with hacc | ⟨k', v', hm, hck, hrest⟩
      · rcases lookup_insertE_inv acc k v q j hacc with ⟨hck, hjv⟩ | ⟨_, hold⟩
        · subst hjv
          exact Or.inr ⟨k, j, List.mem_cons_self _ _, hck, Or.inl ⟨hB, rfl⟩⟩
        · exact Or.inl hold
      · exact Or.inr ⟨k', v', List.mem_cons_of_mem _ hm, hck, hrest⟩
    · rename_i w hB
      split at h
      · exact Option.noConfusion h
      · rename_i j0 hj0
        rcases lubMap1_lookup_inv t B _ out h q j hl with hacc | ⟨k', v', hm, hck, hrest⟩
        · rcases lookup_insertE_inv acc k j0 q j hacc with ⟨hck, hjv⟩ | ⟨_, hold⟩
          · subst hjv
            exact Or.inr ⟨k, v, List.mem_cons_self _ _, hck, Or.inr ⟨w, hB, hj0⟩⟩
          · exact Or.inl hold
        · exact Or.inr ⟨k', v', List.mem_cons_of_mem _ hm, hck, hrest⟩

/-- A key present in the accumulator or among the iterated keys is
present in the result of the first lub map loop. -/
theorem lubMap1_lookup_some : ∀ (A B acc out : List (Value × Value)),
    lubMap1 A B acc = some out → ∀ q,
    ((∃ j, lookupM acc q = some j) ∨ ∃ k v, (k, v) ∈ A ∧ cmpV k q = .eq) →
    ∃ j, lookupM out q = some j
  | [], B, acc, out => by
    intro h q hq
    simp only [lubMap1] at h
    injection h with h2
    subst h2
    rcases hq with ⟨j, hj⟩ | ⟨k, v, hm, _⟩
    · exact ⟨j, hj⟩
    · exact absurd hm (List.not_mem_nil _)
  | (k, v) :: t, B, acc, out => by
    intro h q hq
    simp only [lubMap1] at h
    have step : ∀ X : Value, ((∃ j, lookupM acc q = some j) ∨ cmpV k q = .eq) →
        ∃ j, lookupM (insertE acc k X) q = some j := by
      intro X hx
      by_cases hc : cmpV k q = .eq
      · exact ⟨X, lookup_insertE_eq acc k X q hc⟩
      · rcases hx with ⟨j, hj⟩ | hc2
        · refine ⟨j, ?_⟩
          rw [lookup_insertE_ne acc k X q hc]
          exact hj
        · exact absurd hc2 hc
    have hq' : ∀ X : Value, (∃ j, lookupM (insertE acc k X) q = some j) ∨
        ∃ k' v', (k', v') ∈ t ∧ cmpV k' q = .eq := by
      intro X
      rcases hq with hj | ⟨k', v', hm, hck⟩
      · exact Or.inl (step X (Or.inl hj))
      · rcases List.mem_cons.mp hm with heq | hm2
        · have hx : k' = k := congrArg Prod.fst heq
          exact Or.inl (step X (Or.inr (hx ▸ hck)))
        · exact Or.inr ⟨k', v', hm2, hck⟩
    split at h
    · exact lubMap1_lookup_some t B _ out h q (hq' v)
    · split at h
      · exact Option.noConfusion h
      · rename_i j0 hj0
        exact lubMap1_lookup_some t B _ out h q (hq' j0)

/-- Sortedness of the accumulator is preserved by the second lub map
loop. -/
theorem lubMap2_sorted : ∀ (A B acc out : List (Value × Value)), sortedE acc = true →
    lubMap2 A B acc = some out → sortedE out = true
  | [], B, acc, out => by
    intro hs h
    simp only [lubMap2] at h
    injection h with h2
    subst h2
    exact hs
  | (k, v) :: t, B, acc, out => by
    intro hs h
    simp only [lubMap2] at h
    split at h
    · exact lubMap2_sorted t B _ out (insertE_sorted acc k v hs) h
    · split at h
      · exact Option.noConfusion h
      · rename_i j0 hj0
        exact lubMap2_sorted t B _ out (insertE_sorted acc k j0 hs) h

/-- Keys in the result of the second lub map loop come from the
accumulator or the iterated map. -/
theorem lubMap2_keys : ∀ (A B acc out : List (Value × Value)),
    lubMap2 A B acc = some out → ∀ p ∈ out,
    (∃ q ∈ acc, p.1 = q.1) ∨ ∃ q ∈ A, p.1 = q.1
  | [], B, acc, out => by
    intro h p hp
    simp only [lubMap2] at h
    injection h with h2
    subst h2
    exact Or.inl ⟨p, hp, rfl⟩
  | (k, v) :: t, B, acc, out => by
    intro h p hp
    simp only [lubMap2] at h
    have step : ∀ X : Value,
        ((∃ q ∈ insertE acc k X, p.1 = q.1) ∨ ∃ q ∈ t, p.1 = q.1) →
        (∃ q ∈ acc, p.1 = q.1) ∨ ∃ q ∈ (k, v) :: t, p.1 = q.1 := by
      intro X hx
      rcases hx with ⟨q, hq, hpq⟩ | ⟨q, hq, hpq⟩
      · rcases insertE_keys acc k X q hq with h1 | ⟨q', hq', h2⟩
        · exact Or.inr ⟨(k, v), List.mem_cons_self _ _, by rw [hpq, h1]⟩
        · exact Or.inl ⟨q', hq', by rw [hpq, h2]⟩
      · exact Or.inr ⟨q, List.mem_cons_of_mem _ hq, hpq⟩
    split at h
    · exact step v (lubMap2_keys t B _ out h p hp)
    · split at h
      · exact Option.noConfusion h
      · rename_i j0 hj0
        exact step j0 (lubMap2_keys t B _ out h p hp)

/-- Inverting a lookup in the result of the second lub map loop. -/
theorem lubMap2_lookup_inv : ∀ (A B acc out : List (Value × Value)),
    lubMap2 A B acc = some out → ∀ q j, lookupM out q = some j →
    lookupM acc q = some j ∨
      ∃ k v, (k, v) ∈ A ∧ cmpV k q = .eq ∧
        ((lookupM B k = none ∧ j = v) ∨
         ∃ w, lookupM B k = some w ∧ lubV v w = some j)
  | [], B, acc, out => by
    intro h q j hl
    simp only [lubMap2] at h
    injection h with h2
    subst h2
    exact Or.inl hl
  | (k, v) :: t, B, acc, out => by
    intro h q j hl
    simp only [lubMap2] at h
    split at h
    · rename_i hB
      rcases lubMap2_lookup_inv t B _ out h q j hl with hacc | ⟨k', v', hm, hck, hrest⟩
      · rcases lookup_insertE_inv acc k v q j hacc with ⟨hck, hjv⟩ | ⟨_, hold⟩
        · subst hjv
          exact Or.inr ⟨k, j, List.mem_cons_self _ _, hck, Or.inl ⟨hB, rfl⟩⟩
        · exact Or.inl hold
      · exact Or.inr ⟨k', v', List.mem_cons_of_mem _ hm, hck, hrest⟩
    · rename_i w hB
      split at h
      · exact Option.noConfusion h
      · rename_i j0 hj0
        rcases lubMap2_lookup_inv t B _ out h q j hl with hacc | ⟨k', v', hm, hck, hrest⟩
        · rcases lookup_insertE_inv acc k j0 q j hacc with ⟨hck, hjv⟩ | ⟨_, hold⟩
          · subst hjv
            exact Or.inr ⟨k, v, List.mem_cons_self _ _, hck, Or.inr ⟨w, hB, hj0⟩⟩
          · exact Or.inl hold
        · exact Or.inr ⟨k', v', List.mem_cons_of_mem _ hm, hck, hrest⟩

/-- A key present in the accumulator or among the iterated keys is
present in the result of the second lub map loop. -/
theorem lubMap2_lookup_some : ∀ (A B acc out : List (Value × Value)),
    lubMap2 A B acc = some out → ∀ q,
    ((∃ j, lookupM acc q = some j) ∨ ∃ k v, (k, v) ∈ A ∧ cmpV k q = .eq) →
    ∃ j, lookupM out q = some j
  | [], B, acc, out => by
    intro h q hq
    simp only [lubMap2] at h
    injection h with h2
    subst h2
    rcases hq with ⟨j, hj⟩ | ⟨k, v, hm, _⟩
    · exact ⟨j, hj⟩
    · exact absurd hm (List.not_mem_nil _)
  | (k, v) :: t, B, acc, out => by
    intro h q hq
    simp only [lubMap2] at h
    have step : ∀ X : Value, ((∃ j, lookupM acc q = some j) ∨ cmpV k q = .eq) →
        ∃ j, lookupM (insertE acc k X) q = some j := by
      intro X hx
      by_cases hc : cmpV k q = .eq
      · exact ⟨X, lookup_insertE_eq acc k X q hc⟩
      · rcases hx with ⟨j, hj⟩ | hc2
        · refine ⟨j, ?_⟩
          rw [lookup_insertE_ne acc k X q hc]
          exact hj
        · exact absurd hc2 hc
    have hq' : ∀ X : Value, (∃ j, lookupM (insertE acc k X) q = some j) ∨
        ∃ k' v', (k', v') ∈ t ∧ cmpV k' q = .eq := by
      intro X
      rcases hq with hj | ⟨k', v', hm, hck⟩
      · exact Or.inl (step X (Or.inl hj))
      · rcases List.mem_cons.mp hm with heq | hm2
        · have hx : k' = k := congrArg Prod.fst heq
          exact Or.inl (step X (Or.inr (hx ▸ hck)))
        · exact Or.inr ⟨k', v', hm2, hck⟩
    split at h
    · exact lubMap2_lookup_some t B _ out h q (hq' v)
    · split at h
      · exact Option.noConfusion h
      · rename_i j0 hj0
        exact lubMap2_lookup_some t B _ out h q (hq' j0)

/-- Two sorted entry lists whose lookups match pointwise (values
`PartialEq`-equal, both key sets covered) are `PartialEq`-equal. -/
theorem veqE_of_lookups : ∀ (a b : List (Value × Value)),
    sortedE a = true → sortedE b = true →
    (∀ p ∈ a, wf p.1 = true) → (∀ p ∈ b, wf p.1 = true) →
    (∀ k v, (k, v) ∈ a → ∃ v', lookupM b k = some v' ∧ veq v v' = true) →
    (∀ k v, (k, v) ∈ b → ∃ v', lookupM a k = some v') →
    veqE a b = true
  | [], [], _, _, _, _, _, _ => rfl
  | [], (kb, vb) :: tb, _, _, _, _, _, h2 => by
    obtain ⟨v', hv'⟩ := h2 kb vb (List.mem_cons_self _ _)
    simp [lookupM] at hv'
  | (ka, va) :: ta, [], _, _, _, _, h1, _ => by
    obtain ⟨v', hv', _⟩ := h1 ka va (List.mem_cons_self _ _)
    simp [lookupM] at hv'
  | (ka, va) :: ta, (kb, vb) :: tb, hsa, hsb, hwa, hwb, h1, h2 => by
    obtain ⟨v', hlv', hveq'⟩ := h1 ka va (List.mem_cons_self _ _)
    obtain ⟨u', hlu'⟩ := h2 kb vb (List.mem_cons_self _ _)
    obtain ⟨kb', hmb', hkb'⟩ := lookupM_mem _ ka v' hlv'
    obtain ⟨ka', hma', hka'⟩ := lookupM_mem _ kb u' hlu'
    have hknum : cmpV ka kb = .eq := by
      rcases List.mem_cons.mp hma' with heqa | hma2
      · have hx : ka' = ka := congrArg Prod.fst heqa
        rw [← hx]
        exact hka'
      · have hlt1 : cmpV ka ka' = .lt := sorted_head_lt ka va ta hsa (ka', u') hma2
        have hlt2 : cmpV ka kb = .lt := by
          rw [← cmp_congr_right hka' ka]
          exact hlt1
        rcases List.mem_cons.mp hmb' with heqb | hmb2
        · have hx : kb' = kb := congrArg Prod.fst heqb
          rw [hx] at hkb'
          have h3 : cmpV ka kb = .eq := cmp_eq_comm hkb'
          rw [h3] at hlt2
          exact Ordering.noConfusion hlt2
        · have hlt3 : cmpV kb kb' = .lt := sorted_head_lt kb vb tb hsb (kb', v') hmb2
          have hlt4 : cmpV kb ka = .lt := (cmp_trans kb kb' ka).2.1 hlt3 hkb'
          have h3 : cmpV ka kb = .gt := cmp_gt_iff_lt.mpr hlt4
          rw [h3] at hlt2
          exact Ordering.noConfusion hlt2
    have hv'vb : v' = vb := by
      have hx : lookupM ((kb, vb) :: tb) ka = some vb := by
        simp only [lookupM]
        rw [if_pos (cmp_eq_comm hknum)]
      rw [hx] at hlv'
      exact (Option.some_inj.mp hlv').symm
    have hka_kb : veq ka kb = true :=
      cmp_eq_veq ka kb (hwa _ (List.mem_cons_self _ _)) (hwb _ (List.mem_cons_self _ _))
        hknum
    have hvv : veq va vb = true := by
      rw [← hv'vb]
      exact hveq'
    have hrec : veqE ta tb = true := by
      refine veqE_of_lookups ta tb (sortedE_tail hsa) (sortedE_tail hsb)
        (fun p hp => hwa p (List.mem_cons_of_mem _ hp))
        (fun p hp => hwb p (List.mem_cons_of_mem _ hp)) ?_ ?_
      · intro k v hm
        obtain ⟨w, hw, hveq⟩ := h1 k v (List.mem_cons_of_mem _ hm)
        refine ⟨w, ?_, hveq⟩
        have hne : cmpV kb k ≠ .eq := by
          have hlt : cmpV ka k = .lt := sorted_head_lt ka va ta hsa (k, v) hm
          have hx : cmpV kb k = .lt := by
            rw [cmp_congr_left (cmp_eq_comm hknum) k]
            exact hlt
          rw [hx]
          simp
        simp only [lookupM] at hw
        rw [if_neg hne] at hw
        exact hw
      · intro k v hm
        obtain ⟨w, hw⟩ := h2 k v (List.mem_cons_of_mem _ hm)
        refine ⟨w, ?_⟩
        have hne : cmpV ka k ≠ .eq := by
          have hlt : cmpV kb k = .lt := sorted_head_lt kb vb tb hsb (k, v) hm
          have hx : cmpV ka k = .lt := by
            rw [cmp_congr_left hknum k]
            exact hlt
          rw [hx]
          simp
        simp only [lookupM] at hw
        rw [if_neg hne] at hw
        exact hw
    show (veq ka kb && veq va vb && veqE ta tb) = true
    rw [hka_kb, hvv, hrec]
    rfl

/-- `meaningful_le` holds as soon as `meaningful_partial_cmp` returns a
non-`Greater` outcome. -/
theorem mle_of_mcmp (a b : Value) (o : Ordering) (hm : meaningfulCmp a b = some o)
    (ho : o ≠ .gt) : meaningful_le a b = true := by
  refine (mle_iff_mcmp a b).mpr ?_
  rcases o with _ | _ | _
  · exact Or.inl hm
  · exact Or.inr hm
  · exact absurd rfl ho

theorem totalCmpBits_refl (n : Nat) : totalCmpBits n n = .eq := by
  unfold totalCmpBits
  simp

theorem totalCmpBits_lt_iff {a b : Nat} : totalCmpBits a b = .lt ↔ totalKey a < totalKey b := by
  unfold totalCmpBits
  split_ifs with h1 h2
  · simp [h1]
  · simp
    omega
  · simp
    omega

theorem totalCmpBits_gt_iff {a b : Nat} : totalCmpBits a b = .gt ↔ totalKey b < totalKey a := by
  unfold totalCmpBits
  split_ifs with h1 h2
  · simp
    omega
  · simp [h2]
  · simp
    omega

/-- The float meet under a non-`Greater` comparison is the first input
literally. -/
theorem glbFloat_smaller {n1 n2 : Nat} (h : cmpFloatBits n1 n2 ≠ .gt) :
    glbFloat n1 n2 = .float n1 := by
  unfold glbFloat
  cases hn1 : isNanBits n1 <;> cases hn2 : isNanBits n2 <;> simp [hn1, hn2]
  · intro hgt
    refine absurd hgt ?_
    rw [← cmpFloat_nonNan n1 n2 hn1 hn2]
    exact h
  · exact absurd (by simp [cmpFloatBits, hn1, hn2]) h

/-- The float join under a non-`Greater` comparison is `PartialEq`-equal
to the second input, in both argument orders. -/
theorem lubFloat_larger {n1 n2 : Nat} (w1 : n1 < 2 ^ 64) (w2 : n2 < 2 ^ 64)
    (h : cmpFloatBits n1 n2 ≠ .gt) :
    veq (lubFloat n1 n2) (.float n2) = true ∧ veq (lubFloat n2 n1) (.float n2) = true := by
  by_cases hn1 : isNanBits n1 = true <;> by_cases hn2 : isNanBits n2 = true
  · constructor
    · unfold lubFloat
      rw [if_pos (by rw [hn1, hn2]; rfl)]
      show (isNanBits n1 && isNanBits n2 || n1 == n2) = true
      rw [hn1, hn2]
      rfl
    · unfold lubFloat
      rw [if_pos (by rw [hn1, hn2]; rfl)]
      exact veq_refl (.float n2)
  · have hn2f : isNanBits n2 = false := by
      revert hn2
      cases isNanBits n2 <;> simp
    constructor
    · unfold lubFloat
      rw [if_neg (by rw [hn1, hn2f]; simp), if_pos hn1]
      exact veq_refl (.float n2)
    · unfold lubFloat
      rw [if_neg (by rw [hn1, hn2f]; simp), if_neg (by rw [hn2f]; simp), if_pos hn1]
      exact veq_refl (.float n2)
  · exfalso
    have hn1f : isNanBits n1 = false := by
      revert hn1
      cases isNanBits n1 <;> simp
    refine h ?_
    unfold cmpFloatBits
    rw [if_neg (by rw [hn1f]; simp), if_neg (by rw [hn1f]; simp), if_pos hn2]
  · have hn1f : isNanBits n1 = false := by
      revert hn1
      cases isNanBits n1 <;> simp
    have hn2f : isNanBits n2 = false := by
      revert hn2
      cases isNanBits n2 <;> simp
    have ht : ¬ totalKey n2 < totalKey n1 := by
      intro hx
      refine h ?_
      unfold cmpFloatBits
      rw [if_neg (by rw [hn1f, hn2f]; simp), if_neg (by rw [hn1f]; simp),
        if_neg (by rw [hn2f]; simp)]
      exact totalCmpBits_gt_iff.mpr hx
    constructor
    · unfold lubFloat
      rw [if_neg (by rw [hn1f, hn2f]; simp), if_neg (by rw [hn1f]; simp),
        if_neg (by rw [hn2f]; simp)]
      by_cases hlt : totalCmpBits n1 n2 = .lt
      · rw [if_pos hlt]
        exact veq_refl (.float n2)
      · rw [if_neg hlt]
        have hk : totalKey n1 = totalKey n2 := by
          rw [totalCmpBits_lt_iff] at hlt
          omega
        have hn : n1 = n2 := totalKey_inj w1 w2 hk
        rw [hn]
        exact veq_refl (.float n2)
    · unfold lubFloat
      rw [if_neg (by rw [hn1f, hn2f]; simp), if_neg (by rw [hn2f]; simp),
        if_neg (by rw [hn1f]; simp)]
      have hlt21 : totalCmpBits n2 n1 ≠ .lt := by
        intro hx
        rw [totalCmpBits_lt_iff] at hx
        omega
      rw [if_neg hlt21]
      exact veq_refl (.float n2)

/-- A float meet `PartialEq`-equal to the first input forces the first
input to compare at most `Equal`. -/
theorem glbFloat_left {n1 n2 : Nat} (hv : veq (glbFloat n1 n2) (.float n1) = true) :
    cmpFloatBits n1 n2 ≠ .gt := by
  unfold glbFloat at hv
  unfold cmpFloatBits
  split_ifs at hv with h1 h2 h3 h4
  · rw [if_pos h1]
    simp
  · rw [if_neg h1, if_pos h2]
    simp
  · exfalso
    have hx : (isNanBits n2 && isNanBits n1 || n2 == n1) = true := hv
    rcases Bool.or_eq_true_iff.mp hx with hy | hy
    · rw [Bool.and_eq_true] at hy
      exact h2 hy.2
    · have hz : n2 = n1 := eq_of_beq hy
      subst hz
      exact h2 h3
  · exfalso
    have hx : (isNanBits n2 && isNanBits n1 || n2 == n1) = true := hv
    rcases Bool.or_eq_true_iff.mp hx with hy | hy
    · rw [Bool.and_eq_true] at hy
      exact h3 hy.1
    · have hz : n2 = n1 := eq_of_beq hy
      subst hz
      rw [totalCmpBits_refl] at h4
      exact Ordering.noConfusion h4
  · rw [if_neg h1, if_neg h2, if_neg h3]
    exact h4

/-- A float meet `PartialEq`-equal to the second input forces the second
input to compare at most `Equal`. -/
theorem glbFloat_right {n1 n2 : Nat} (hv : veq (glbFloat n1 n2) (.float n2) = true) :
    cmpFloatBits n2 n1 ≠ .gt := by
  unfold glbFloat at hv
  unfold cmpFloatBits
  split_ifs at hv with h1 h2 h3 h4
  · rw [Bool.and_comm] at h1
    rw [if_pos h1]
    simp
  · exfalso
    have hx : (isNanBits n1 && isNanBits n2 || n1 == n2) = true := hv
    rcases Bool.or_eq_true_iff.mp hx with hy | hy
    · exact h1 hy
    · have hz : n1 = n2 := eq_of_beq hy
      subst hz
      exact h1 (by rw [h2, Bool.and_self])
  · rw [if_neg (by rw [Bool.and_comm]; exact h1), if_pos h3]
    simp
  · have hn1f : isNanBits n1 = false := by
      revert h2
      cases isNanBits n1 <;> simp
    have hn2f : isNanBits n2 = false := by
      revert h3
      cases isNanBits n2 <;> simp
    rw [if_neg (by rw [Bool.and_comm]; exact h1), if_neg (by rw [hn2f]; simp),
      if_neg (by rw [hn1f]; simp)]
    rw [totalCmpBits_gt_iff] at h4
    intro hx
    rw [totalCmpBits_gt_iff] at hx
    omega
  · have hx : (isNanBits n1 && isNanBits n2 || n1 == n2) = true := hv
    rcases Bool.or_eq_true_iff.mp hx with hy | hy
    · exact absurd hy h1
    · have hz : n1 = n2 := eq_of_beq hy
      subst hz
      rw [if_neg h1, if_neg h2, if_neg h2, totalCmpBits_refl]
      simp

/-- A float join `PartialEq`-equal to the first input forces the second
input to compare at most `Equal`. -/
theorem lubFloat_left {n1 n2 : Nat} (hv : veq (lubFloat n1 n2) (.float n1) = true) :
    cmpFloatBits n2 n1 ≠ .gt := by
  unfold lubFloat at hv
  unfold cmpFloatBits
  split_ifs at hv with h1 h2 h3 h4
  · rw [Bool.and_comm] at h1
    rw [if_pos h1]
    simp
  · exfalso
    have hx : (isNanBits n2 && isNanBits n1 || n2 == n1) = true := hv
    rcases Bool.or_eq_true_iff.mp hx with hy | hy
    · rw [Bool.and_eq_true] at hy
      exact h1 (by rw [h2, hy.1]; rfl)
    · have hz : n2 = n1 := eq_of_beq hy
      subst hz
      exact h1 (by rw [h2, Bool.and_self])
  · rw [if_neg (by rw [Bool.and_comm]; exact h1), if_pos h3]
    simp
  · exfalso
    have hx : (isNanBits n2 && isNanBits n1 || n2 == n1) = true := hv
    rcases Bool.or_eq_true_iff.mp hx with hy | hy
    · rw [Bool.and_eq_true] at hy
      exact h3 hy.1
    · have hz : n2 = n1 := eq_of_beq hy
      subst hz
      rw [totalCmpBits_refl] at h4
      exact Ordering.noConfusion h4
  · have hn1f : isNanBits n1 = false := by
      revert h2
      cases isNanBits n1 <;> simp
    have hn2f : isNanBits n2 = false := by
      revert h3
      cases isNanBits n2 <;> simp
    rw [if_neg (by rw [Bool.and_comm]; exact h1), if_neg (by rw [hn2f]; simp),
      if_neg (by rw [hn1f]; simp)]
    rw [totalCmpBits_lt_iff] at h4
    intro hx
    rw [totalCmpBits_gt_iff] at hx
    omega

/-- A float join `PartialEq`-equal to the second input forces the first
input to compare at most `Equal`. -/
theorem lubFloat_right {n1 n2 : Nat} (hv : veq (lubFloat n1 n2) (.float n2) = true) :
    cmpFloatBits n1 n2 ≠ .gt := by
  unfold lubFloat at hv
  unfold cmpFloatBits
  split_ifs at hv with h1 h2 h3 h4
  · rw [if_pos h1]
    simp
  · rw [if_neg h1, if_pos h2]
    simp
  · exfalso
    have hx : (isNanBits n1 && isNanBits n2 || n1 == n2) = true := hv
    have hn1f : isNanBits n1 = false := by
      revert h2
      cases isNanBits n1 <;> simp
    rcases Bool.or_eq_true_iff.mp hx with hy | hy
    · rw [Bool.and_eq_true] at hy
      rw [hy.1] at hn1f
      exact Bool.noConfusion hn1f
    · have hz : n1 = n2 := eq_of_beq hy
      subst hz
      rw [hn1f] at h3
      exact Bool.noConfusion h3
  · rw [if_neg h1, if_neg h2, if_neg h3]
    rw [totalCmpBits_lt_iff] at h4
    intro hx
    rw [totalCmpBits_gt_iff] at hx
    omega
  · have hx : (isNanBits n1 && isNanBits n2 || n1 == n2) = true := hv
    rcases Bool.or_eq_true_iff.mp hx with hy | hy
    · rw [Bool.and_eq_true] at hy
      exact absurd hy.1 h2
    · have hz : n1 = n2 := eq_of_beq hy
      subst hz
      rw [if_neg h1, if_neg h2, if_neg h2, totalCmpBits_refl]
      simp

/-- The lattice law of `greatest_lower_bound`/`least_upper_bound` on
well-formed values, by strong induction on size: under `meaningful_le a b`
the meet is `Some(a)` and both join orders are `Some` of a value
`PartialEq`-equal to `b`; conversely a defined meet or join that is
`PartialEq`-equal to an input forces the corresponding comparability. -/
theorem lattice_main : ∀ n : Nat, ∀ a b : Value, sizeOf a + sizeOf b ≤ n →
    wf a = true → wf b = true →
    ((meaningful_le a b = true →
        glbV a b = some a ∧
        (∃ j, lubV a b = some j ∧ veq j b = true) ∧
        (∃ j, lubV b a = some j ∧ veq j b = true)) ∧
     (∀ g, glbV a b = some g → veq g a = true → meaningful_le a b = true) ∧
     (∀ g, glbV a b = some g → veq g b = true → meaningful_le b a = true) ∧
     (∀ j, lubV a b = some j → veq j a = true → meaningful_le b a = true) ∧
     (∀ j, lubV a b = some j → veq j b = true → meaningful_le a b = true)) := by
  intro n
  induction n using Nat.strong_induction_on with
  | _ n ihn =>
  intro a b hsz hwa hwb
  match a, b with
  | .nil, .nil =>
    refine ⟨fun _ => ⟨by simp [glbV], ⟨.nil, by simp [lubV], rfl⟩, ⟨.nil, by simp [lubV], rfl⟩⟩,
      fun g _ _ => rfl, fun g _ _ => rfl, fun j _ _ => rfl, fun j _ _ => rfl⟩
  | .bool b1, .bool b2 =>
    have hmcb : meaningfulCmp (.bool b1) (.bool b2) = some (cmpBool b1 b2) := by
      simp only [meaningfulCmp]
      rfl
    have hmcb2 : meaningfulCmp (.bool b2) (.bool b1) = some (cmpBool b2 b1) := by
      simp only [meaningfulCmp]
      rfl
    refine ⟨?_, ?_, ?_, ?_, ?_⟩
    · intro hle
      have hne : cmpBool b1 b2 ≠ .gt := by
        intro hx
        rcases (mle_iff_mcmp _ _).mp hle with hy | hy <;> rw [hmcb, hx] at hy <;> simp at hy
      have hand : (b1 && b2) = b1 := by
        cases b1 <;> cases b2 <;> simp_all [cmpBool]
      have hor : (b1 || b2) = b2 := by
        cases b1 <;> cases b2 <;> simp_all [cmpBool]
      have hor2 : (b2 || b1) = b2 := by
        cases b1 <;> cases b2 <;> simp_all [cmpBool]
      refine ⟨by simp [glbV, hand], ⟨.bool (b1 || b2), by simp [lubV], ?_⟩,
        ⟨.bool (b2 || b1), by simp [lubV], ?_⟩⟩
      · show ((b1 || b2) == b2) = true
        rw [hor]
        simp
      · show ((b2 || b1) == b2) = true
        rw [hor2]
        simp
    · intro g hg hv
      simp only [glbV] at hg
      injection hg with hg2
      subst hg2
      have hx : ((b1 && b2) == b1) = true := hv
      refine mle_of_mcmp _ _ (cmpBool b1 b2) hmcb ?_
      revert hx
      cases b1 <;> cases b2 <;> decide
    · intro g hg hv
      simp only [glbV] at hg
      injection hg with hg2
      subst hg2
      have hx : ((b1 && b2) == b2) = true := hv
      refine mle_of_mcmp _ _ (cmpBool b2 b1) hmcb2 ?_
      revert hx
      cases b1 <;> cases b2 <;> decide
    · intro j hj hv
      simp only [lubV] at hj
      injection hj with hj2
      subst hj2
      have hx : ((b1 || b2) == b1) = true := hv
      refine mle_of_mcmp _ _ (cmpBool b2 b1) hmcb2 ?_
      revert hx
      cases b1 <;> cases b2 <;> decide
    · intro j hj hv
      simp only [lubV] at hj
      injection hj with hj2
      subst hj2
      have hx : ((b1 || b2) == b2) = true := hv
      refine mle_of_mcmp _ _ (cmpBool b1 b2) hmcb ?_
      revert hx
      cases b1 <;> cases b2 <;> decide
  | .int n1, .int n2 =>
    have hmci : meaningfulCmp (.int n1) (.int n2) = some (cmpInt n1 n2) := by
      simp only [meaningfulCmp, cmpV_int]
    have hmci2 : meaningfulCmp (.int n2) (.int n1) = some (cmpInt n2 n1) := by
      simp only [meaningfulCmp, cmpV_int]
    refine ⟨?_, ?_, ?_, ?_, ?_⟩
    · intro hle
      have hn : n1 ≤ n2 := by
        rcases hcv : cmpInt n1 n2 with _ | _ | _
        · exact le_of_lt (cmpInt_lt_iff.mp hcv)
        · exact le_of_eq (cmpInt_eq_iff.mp hcv)
        · simp only [meaningful_le, cmpV_int, hcv] at hle
          exact Bool.noConfusion hle
      refine ⟨?_, ⟨.int (max n1 n2), by simp [lubV], ?_⟩,
        ⟨.int (max n2 n1), by simp [lubV], ?_⟩⟩
      · simp [glbV, min_eq_left hn]
      · show ((max n1 n2 : Int) == n2) = true
        rw [max_eq_right hn]
        simp
      · show ((max n2 n1 : Int) == n2) = true
        rw [max_eq_left hn]
        simp
    · intro g hg hv
      simp only [glbV] at hg
      injection hg with hg2
      subst hg2
      have hx : ((min n1 n2 : Int) == n1) = true := hv
      have hmin : (min n1 n2 : Int) = n1 := eq_of_beq hx
      refine mle_of_mcmp _ _ (cmpInt n1 n2) hmci ?_
      intro hgt
      rw [cmpInt_gt_iff] at hgt
      omega
    · intro g hg hv
      simp only [glbV] at hg
      injection hg with hg2
      subst hg2
      have hx : ((min n1 n2 : Int) == n2) = true := hv
      have hmin : (min n1 n2 : Int) = n2 := eq_of_beq hx
      refine mle_of_mcmp _ _ (cmpInt n2 n1) hmci2 ?_
      intro hgt
      rw [cmpInt_gt_iff] at hgt
      omega
    · intro j hj hv
      simp only [lubV] at hj
      injection hj with hj2
      subst hj2
      have hx : ((max n1 n2 : Int) == n1) = true := hv
      have hmax : (max n1 n2 : Int) = n1 := eq_of_beq hx
      refine mle_of_mcmp _ _ (cmpInt n2 n1) hmci2 ?_
      intro hgt
      rw [cmpInt_gt_iff] at hgt
      omega
    · intro j hj hv
      simp only [lubV] at hj
      injection hj with hj2
      subst hj2
      have hx : ((max n1 n2 : Int) == n2) = true := hv
      have hmax : (max n1 n2 : Int) = n2 := eq_of_beq hx
      refine mle_of_mcmp _ _ (cmpInt n1 n2) hmci ?_
      intro hgt
      rw [cmpInt_gt_iff] at hgt
      omega
  | .float f1, .float f2 =>
    have hwf1 : f1 < 2 ^ 64 := wf_float hwa
    have hwf2 : f2 < 2 ^ 64 := wf_float hwb
    have hmcf : meaningfulCmp (.float f1) (.float f2) = some (cmpFloatBits f1 f2) := by
      simp only [meaningfulCmp]
      rfl
    have hmcf2 : meaningfulCmp (.float f2) (.float f1) = some (cmpFloatBits f2 f1) := by
      simp only [meaningfulCmp]
      rfl
    refine ⟨?_, ?_, ?_, ?_, ?_⟩
    · intro hle
      have hcf : cmpFloatBits f1 f2 ≠ .gt := by
        intro hx
        rcases (mle_iff_mcmp _ _).mp hle with hy | hy <;> rw [hmcf, hx] at hy <;> simp at hy
      obtain ⟨e1, e2⟩ := lubFloat_larger hwf1 hwf2 hcf
      refine ⟨?_, ⟨lubFloat f1 f2, by simp [lubV], e1⟩, ⟨lubFloat f2 f1, by simp [lubV], e2⟩⟩
      simp [glbV, glbFloat_smaller hcf]
    · intro g hg hv
      simp only [glbV] at hg
      injection hg with hg2
      subst hg2
      exact mle_of_mcmp _ _ (cmpFloatBits f1 f2) hmcf (glbFloat_left hv)
    · intro g hg hv
      simp only [glbV] at hg
      injection hg with hg2
      subst hg2
      exact mle_of_mcmp _ _ (cmpFloatBits f2 f1) hmcf2 (glbFloat_right hv)
    · intro j hj hv
      simp only [lubV] at hj
      injection hj with hj2
      subst hj2
      exact mle_of_mcmp _ _ (cmpFloatBits f2 f1) hmcf2 (lubFloat_left hv)
    · intro j hj hv
      simp only [lubV] at hj
      injection hj with hj2
      subst hj2
      exact mle_of_mcmp _ _ (cmpFloatBits f1 f2) hmcf (lubFloat_right hv)
  | .array v1, .array v2 =>
    have hwl1 := wf_array hwa
    have hwl2 := wf_array hwb
    refine ⟨?_, ?_, ?_, ?_, ?_⟩
    · intro hle
      have hc : ∃ o, o ≠ Ordering.gt ∧ mCmpArr v1 v2 .eq = some o := by
        rcases (mle_iff_mcmp _ _).mp hle with hc | hc <;> simp only [meaningfulCmp] at hc
        · exact ⟨.lt, by simp, hc⟩
        · exact ⟨.eq, by simp, hc⟩
      obtain ⟨o, ho, hc⟩ := hc
      obtain ⟨hg, ⟨r1, l1, e1⟩, ⟨r2, l2, e2⟩⟩ :=
        arrBounds v1 v2 .eq o (by simp) ho hwl1 hwl2 hc
      refine ⟨?_, ⟨.array r1, ?_, e1⟩, ⟨.array r2, ?_, e2⟩⟩
      · simp only [glbV]
        rw [hg]
      · simp only [lubV]
        rw [l1]
      · simp only [lubV]
        rw [l2]
    · intro g hg hv
      rcases hga : glbArr v1 v2 with _ | r
      · simp only [glbV, hga] at hg
        exact Option.noConfusion hg
      · simp only [glbV, hga] at hg
        injection hg with hg2
        subst hg2
        have hv' : veqL r v1 = true := hv
        obtain ⟨hlen, hzip⟩ := glbArr_veq_left v1 v2 r hga hv'
        obtain ⟨o, ho, hog⟩ := arrLe v1 v2 hzip hlen .eq (by simp)
        exact mle_of_mcmp _ _ o (by simp only [meaningfulCmp]; exact ho) hog
    · intro g hg hv
      rcases hga : glbArr v1 v2 with _ | r
      · simp only [glbV, hga] at hg
        exact Option.noConfusion hg
      · simp only [glbV, hga] at hg
        injection hg with hg2
        subst hg2
        have hv' : veqL r v2 = true := hv
        obtain ⟨hlen, hzip⟩ := glbArr_veq_right v1 v2 r hga hv'
        obtain ⟨o, ho, hog⟩ := arrLe v2 v1 hzip hlen .eq (by simp)
        exact mle_of_mcmp _ _ o (by simp only [meaningfulCmp]; exact ho) hog
    · intro j hj hv
      rcases hla : lubArr v1 v2 with _ | r
      · simp only [lubV, hla] at hj
        exact Option.noConfusion hj
      · simp only [lubV, hla] at hj
        injection hj with hj2
        subst hj2
        have hv' : veqL r v1 = true := hv
        obtain ⟨hlen, hzip⟩ := lubArr_veq_left v1 v2 r hla hv'
        obtain ⟨o, ho, hog⟩ := arrLe v2 v1 hzip hlen .eq (by simp)
        exact mle_of_mcmp _ _ o (by simp only [meaningfulCmp]; exact ho) hog
    · intro j hj hv
      rcases hla : lubArr v1 v2 with _ | r
      · simp only [lubV, hla] at hj
        exact Option.noConfusion hj
      · simp only [lubV, hla] at hj
        injection hj with hj2
        subst hj2
        have hv' : veqL r v2 = true := hv
        obtain ⟨hlen, hzip⟩ := lubArr_veq_right v1 v2 r hla hv'
        obtain ⟨o, ho, hog⟩ := arrLe v1 v2 hzip hlen .eq (by simp)
        exact mle_of_mcmp _ _ o (by simp only [meaningfulCmp]; exact ho) hog
  | .map m1, .map m2 =>
    have hs1 : sortedE m1 = true := wf_map_sorted hwa
    have hs2 : sortedE m2 = true := wf_map_sorted hwb
    have hwe1 : wfE m1 = true := wf_map_entries hwa
    have hwe2 : wfE m2 = true := wf_map_entries hwb
    have hw1mem : ∀ p ∈ m1, wf p.1 = true := fun p hp => (wfE_mem hwe1 hp).1
    have hw2mem : ∀ p ∈ m2, wf p.1 = true := fun p hp => (wfE_mem hwe2 hp).1
    have inner : ∀ k v1, (k, v1) ∈ m1 → ∀ v2, lookupM m2 k = some v2 →
        ((meaningful_le v1 v2 = true →
            glbV v1 v2 = some v1 ∧
            (∃ j, lubV v1 v2 = some j ∧ veq j v2 = true) ∧
            (∃ j, lubV v2 v1 = some j ∧ veq j v2 = true)) ∧
         (∀ g, glbV v1 v2 = some g → veq g v1 = true → meaningful_le v1 v2 = true) ∧
         (∀ g, glbV v1 v2 = some g → veq g v2 = true → meaningful_le v2 v1 = true) ∧
         (∀ j, lubV v1 v2 = some j → veq j v1 = true → meaningful_le v2 v1 = true) ∧
         (∀ j, lubV v1 v2 = some j → veq j v2 = true → meaningful_le v1 v2 = true)) := by
      intro k v1 hm v2 hlk
      have hwv1 : wf v1 = true := (wfE_mem hwe1 hm).2
      have hwv2 : wf v2 = true := by
        obtain ⟨k2x, hm2x, _⟩ := lookupM_mem m2 k v2 hlk
        exact (wfE_mem hwe2 hm2x).2
      have hsz1 : sizeOf v1 < sizeOf (Value.map m1) := by
        have h1 := List.sizeOf_lt_of_mem hm
        simp only [Prod.mk.sizeOf_spec] at h1
        have h3 : sizeOf (Value.map m1) = 1 + sizeOf m1 := by simp
        omega
      have hsz2 : sizeOf v2 < sizeOf (Value.map m2) := by
        have h1 := lookupM_sizeOf hlk
        have h3 : sizeOf (Value.map m2) = 1 + sizeOf m2 := by simp
        omega
      exact ihn (sizeOf v1 + sizeOf v2) (by omega) v1 v2 le_rfl hwv1 hwv2
    have inner2 : ∀ k v2, (k, v2) ∈ m2 → ∀ v1, lookupM m1 k = some v1 →
        ((meaningful_le v2 v1 = true →
            glbV v2 v1 = some v2 ∧
            (∃ j, lubV v2 v1 = some j ∧ veq j v1 = true) ∧
            (∃ j, lubV v1 v2 = some j ∧ veq j v1 = true)) ∧
         (∀ g, glbV v2 v1 = some g → veq g v2 = true → meaningful_le v2 v1 = true) ∧
         (∀ g, glbV v2 v1 = some g → veq g v1 = true → meaningful_le v1 v2 = true) ∧
         (∀ j, lubV v2 v1 = some j → veq j v2 = true → meaningful_le v1 v2 = true) ∧
         (∀ j, lubV v2 v1 = some j → veq j v1 = true → meaningful_le v2 v1 = true)) := by
      intro k v2 hm v1 hlk
      have hwv2 : wf v2 = true := (wfE_mem hwe2 hm).2
      have hwv1 : wf v1 = true := by
        obtain ⟨k1x, hm1x, _⟩ := lookupM_mem m1 k v1 hlk
        exact (wfE_mem hwe1 hm1x).2
      have hsz2 : sizeOf v2 < sizeOf (Value.map m2) := by
        have h1 := List.sizeOf_lt_of_mem hm
        simp only [Prod.mk.sizeOf_spec] at h1
        have h3 : sizeOf (Value.map m2) = 1 + sizeOf m2 := by simp
        omega
      have hsz1 : sizeOf v1 < sizeOf (Value.map m1) := by
        have h1 := lookupM_sizeOf hlk
        have h3 : sizeOf (Value.map m1) = 1 + sizeOf m1 := by simp
        omega
      exact ihn (sizeOf v2 + sizeOf v1) (by omega) v2 v1 le_rfl hwv2 hwv1
    refine ⟨?_, ?_, ?_, ?_, ?_⟩
    · -- forward direction
      intro hle
      have hc : ∃ o, (o = Ordering.lt ∨ o = Ordering.eq) ∧ mCmpMap m1 m2 .eq = some o := by
        rcases (mle_iff_mcmp _ _).mp hle with hc | hc <;>
          simp only [meaningfulCmp] at hc
        · exact ⟨.lt, Or.inl rfl, hc⟩
        · exact ⟨.eq, Or.inr rfl, hc⟩
      obtain ⟨o, hoe, hc⟩ := hc
      have ho : o ≠ .gt := by rcases hoe with rfl | rfl <;> simp
      have spec0 := mapChar (m1.length + m2.length) m1 m2 .eq o le_rfl hs1 hs2
        (by simp) ho hc
      have hmle : ∀ k v1, (k, v1) ∈ m1 → ∃ v2, lookupM m2 k = some v2 ∧
          meaningful_le v1 v2 = true := by
        intro k v1 hm
        obtain ⟨v2, hlk, oc, hoc, hocg⟩ := spec0 k v1 hm
        exact ⟨v2, hlk, mle_of_mcmp v1 v2 oc hoc hocg⟩
      have hlub12 : ∀ k v1, (k, v1) ∈ m1 → ∀ v2, lookupM m2 k = some v2 →
          ∃ j, lubV v1 v2 = some j ∧ veq j v2 = true := by
        intro k v1 hm v2 hlk
        obtain ⟨v2x, hlkx, hml⟩ := hmle k v1 hm
        rw [hlk] at hlkx
        injection hlkx with hvx
        subst hvx
        exact ((inner k v1 hm v2 hlk).1 hml).2.1
      have hlub21 : ∀ k v1, (k, v1) ∈ m1 → ∀ v2, lookupM m2 k = some v2 →
          ∃ j, lubV v2 v1 = some j ∧ veq j v2 = true := by
        intro k v1 hm v2 hlk
        obtain ⟨v2x, hlkx, hml⟩ := hmle k v1 hm
        rw [hlk] at hlkx
        injection hlkx with hvx
        subst hvx
        exact ((inner k v1 hm v2 hlk).1 hml).2.2
      have hspecG : ∀ k v1, (k, v1) ∈ m1 → ∃ v2, lookupM m2 k = some v2 ∧
          glbV v1 v2 = some v1 := by
        intro k v1 hm
        obtain ⟨v2, hlk, hml⟩ := hmle k v1 hm
        exact ⟨v2, hlk, ((inner k v1 hm v2 hlk).1 hml).1⟩
      have hspecB : ∀ k v1, (k, v1) ∈ m1 → ∀ v2, lookupM m2 k = some v2 →
          ∃ j, lubV v1 v2 = some j := by
        intro k v1 hm v2 hlk
        obtain ⟨j, hj, _⟩ := hlub12 k v1 hm v2 hlk
        exact ⟨j, hj⟩
      have hspecC : ∀ k2 v2, (k2, v2) ∈ m2 → ∀ v1, lookupM m1 k2 = some v1 →
          ∃ j, lubV v2 v1 = some j := by
        intro k2 v2 hm2 v1 hlk1
        obtain ⟨k1x, hm1x, hke⟩ := lookupM_mem m1 k2 v1 hlk1
        have hlk2 : lookupM m2 k1x = some v2 := by
          rw [lookup_congr hke m2]
          exact lookup_self hs2 hm2
        obtain ⟨j, hj, _⟩ := hlub21 k1x v1 hm1x v2 hlk2
        exact ⟨j, hj⟩
      refine ⟨?_, ?_, ?_⟩
      · simp only [glbV, glbMap_acc m1 m2 [] hs1 (fun p hp => nomatch hp) hspecG,
          List.nil_append]
      · obtain ⟨r1, hr1⟩ := lubMap1_some m1 m2 [] hspecB
        obtain ⟨r2, hr2⟩ := lubMap2_some m2 m1 r1 hspecC
        refine ⟨.map r2, by simp only [lubV, hr1, hr2], ?_⟩
        show veqE r2 m2 = true
        have hsr1 : sortedE r1 = true := lubMap1_sorted m1 m2 [] r1 rfl hr1
        have hsr2 : sortedE r2 = true := lubMap2_sorted m2 m1 r1 r2 hsr1 hr2
        have hkw : ∀ p ∈ r2, wf p.1 = true := by
          intro p hp
          rcases lubMap2_keys m2 m1 r1 r2 hr2 p hp with ⟨q, hq, hpq⟩ | ⟨q, hq, hpq⟩
          · rcases lubMap1_keys m1 m2 [] r1 hr1 q hq with ⟨q', hq', _⟩ | ⟨q', hq', hqq⟩
            · exact absurd hq' (List.not_mem_nil _)
            · rw [hpq, hqq]
              exact hw1mem q' hq'
          · rw [hpq]
            exact hw2mem q hq
        refine veqE_of_lookups r2 m2 hsr2 hs2 hkw hw2mem ?_ ?_
        · intro q j hqm
          have hlq : lookupM r2 q = some j := lookup_self hsr2 hqm
          rcases lubMap2_lookup_inv m2 m1 r1 r2 hr2 q j hlq with hacc |
            ⟨k2x, v2x, hm2x, hck, hrest⟩
          · rcases lubMap1_lookup_inv m1 m2 [] r1 hr1 q j hacc with hnil |
              ⟨k1x, v1x, hm1x, hck, hrest⟩
            · simp [lookupM] at hnil
            · rcases hrest with ⟨hnone, hjv⟩ | ⟨w, hlw, hlub⟩
              · obtain ⟨v2z, hlkz, _⟩ := hmle k1x v1x hm1x
                rw [hnone] at hlkz
                exact Option.noConfusion hlkz
              · obtain ⟨j', hj', hveq'⟩ := hlub12 k1x v1x hm1x w hlw
                rw [hlub] at hj'
                injection hj' with hjj
                subst hjj
                refine ⟨w, ?_, hveq'⟩
                rw [lookup_congr (cmp_eq_comm hck) m2]
                exact hlw
          · rcases hrest with ⟨hnone, hjv⟩ | ⟨w, hlw, hlub⟩
            · subst hjv
              refine ⟨j, ?_, veq_refl j⟩
              rw [lookup_congr (cmp_eq_comm hck) m2]
              exact lookup_self hs2 hm2x
            · obtain ⟨k1y, hm1y, hke⟩ := lookupM_mem m1 k2x w hlw
              have hlk2y : lookupM m2 k1y = some v2x := by
                rw [lookup_congr hke m2]
                exact lookup_self hs2 hm2x
              obtain ⟨j', hj', hveq'⟩ := hlub21 k1y w hm1y v2x hlk2y
              rw [hlub] at hj'
              injection hj' with hjj
              subst hjj
              refine ⟨v2x, ?_, hveq'⟩
              rw [lookup_congr (cmp_eq_comm hck) m2]
              exact lookup_self hs2 hm2x
        · intro k v hkm
          exact lubMap2_lookup_some m2 m1 r1 r2 hr2 k (Or.inr ⟨k, v, hkm, cmp_refl k⟩)
      · obtain ⟨s1, hs1'⟩ := lubMap1_some m2 m1 [] hspecC
        obtain ⟨s2, hs2'⟩ := lubMap2_some m1 m2 s1 hspecB
        refine ⟨.map s2, by simp only [lubV, hs1', hs2'], ?_⟩
        show veqE s2 m2 = true
        have hss1 : sortedE s1 = true := lubMap1_sorted m2 m1 [] s1 rfl hs1'
        have hss2 : sortedE s2 = true := lubMap2_sorted m1 m2 s1 s2 hss1 hs2'
        have hkw : ∀ p ∈ s2, wf p.1 = true := by
          intro p hp
          rcases lubMap2_keys m1 m2 s1 s2 hs2' p hp with ⟨q, hq, hpq⟩ | ⟨q, hq, hpq⟩
          · rcases lubMap1_keys m2 m1 [] s1 hs1' q hq with ⟨q', hq', _⟩ | ⟨q', hq', hqq⟩
            · exact absurd hq' (List.not_mem_nil _)
            · rw [hpq, hqq]
              exact hw2mem q' hq'
          · rw [hpq]
            exact hw1mem q hq
        refine veqE_of_lookups s2 m2 hss2 hs2 hkw hw2mem ?_ ?_
        · intro q j hqm
          have hlq : lookupM s2 q = some j := lookup_self hss2 hqm
          rcases lubMap2_lookup_inv m1 m2 s1 s2 hs2' q j hlq with hacc |
            ⟨k1x, v1x, hm1x, hck, hrest⟩
          · rcases lubMap1_lookup_inv m2 m1 [] s1 hs1' q j hacc with hnil |
              ⟨k2x, v2x, hm2x, hck, hrest⟩
            · simp [lookupM] at hnil
            · rcases hrest with ⟨hnone, hjv⟩ | ⟨w, hlw, hlub⟩
              · subst hjv
                refine ⟨j, ?_, veq_refl j⟩
                rw [lookup_congr (cmp_eq_comm hck) m2]
                exact lookup_self hs2 hm2x
              · obtain ⟨k1y, hm1y, hke⟩ := lookupM_mem m1 k2x w hlw
                have hlk2y : lookupM m2 k1y = some v2x := by
                  rw [lookup_congr hke m2]
                  exact lookup_self hs2 hm2x
                obtain ⟨j', hj', hveq'⟩ := hlub21 k1y w hm1y v2x hlk2y
                rw [hlub] at hj'
                injection hj' with hjj
                subst hjj
                refine ⟨v2x, ?_, hveq'⟩
                rw [lookup_congr (cmp_eq_comm hck) m2]
                exact lookup_self hs2 hm2x
          · rcases hrest with ⟨hnone, hjv⟩ | ⟨w, hlw, hlub⟩
            · obtain ⟨v2z, hlkz, _⟩ := hmle k1x v1x hm1x
              rw [hnone] at hlkz
              exact Option.noConfusion hlkz
            · obtain ⟨j', hj', hveq'⟩ := hlub12 k1x v1x hm1x w hlw
              rw [hlub] at hj'
              injection hj' with hjj
              subst hjj
              refine ⟨w, ?_, hveq'⟩
              rw [lookup_congr (cmp_eq_comm hck) m2]
              exact hlw
        · intro k v hkm
          obtain ⟨j1, hj1⟩ := lubMap1_lookup_some m2 m1 [] s1 hs1' k
            (Or.inr ⟨k, v, hkm, cmp_refl k⟩)
          exact lubMap2_lookup_some m1 m2 s1 s2 hs2' k (Or.inl ⟨j1, hj1⟩)
    · -- glb equals (up to ==) the first input: forces m1 ≤ m2
      intro g hg hv
      rcases hgm : glbMap m1 m2 [] with _ | r
      · simp only [glbV, hgm] at hg
        exact Option.noConfusion hg
      · simp only [glbV, hgm] at hg
        injection hg with hg2
        subst hg2
        have hv' : veqE r m1 = true := hv
        have hspec : ∀ k v1, (k, v1) ∈ m1 → ∃ v2, lookupM m2 k = some v2 ∧
            ∃ o, meaningfulCmp v1 v2 = some o ∧ o ≠ Ordering.gt := by
          intro k v1 hm
          have hl1 : lookupM m1 k = some v1 := lookup_self hs1 hm
          obtain ⟨g', hlg', hveqg'⟩ := lookup_veqE r m1 hv' k v1 hl1
          rcases glbMap_lookup_inv m1 m2 [] r hgm k g' hlg' with hnil |
            ⟨k1, v1x, v2x, hm1x, hck, hlk2, hglb⟩
          · simp [lookupM] at hnil
          · have hx : lookupM m1 k = some v1x := by
              rw [lookup_congr (cmp_eq_comm hck) m1]
              exact lookup_self hs1 hm1x
            rw [hl1] at hx
            injection hx with hvv
            subst hvv
            have hlkq : lookupM m2 k = some v2x := by
              rw [lookup_congr (cmp_eq_comm hck) m2]
              exact hlk2
            have hml := ((inner k v1 hm v2x hlkq).2.1) g' hglb hveqg'
            refine ⟨v2x, hlkq, ?_⟩
            rcases (mle_iff_mcmp v1 v2x).mp hml with hy | hy
            · exact ⟨.lt, hy, by simp⟩
            · exact ⟨.eq, hy, by simp⟩
        obtain ⟨o, ho, hog⟩ := mapLe (m1.length + m2.length) m1 m2 .eq le_rfl hs1 hs2
          (by simp) hspec
        exact mle_of_mcmp _ _ o (by simp only [meaningfulCmp]; exact ho) hog
    · -- glb equals (up to ==) the second input: forces m2 ≤ m1
      intro g hg hv
      rcases hgm : glbMap m1 m2 [] with _ | r
      · simp only [glbV, hgm] at hg
        exact Option.noConfusion hg
      · simp only [glbV, hgm] at hg
        injection hg with hg2
        subst hg2
        have hv' : veqE r m2 = true := hv
        have hspec : ∀ k2 v2, (k2, v2) ∈ m2 → ∃ v1, lookupM m1 k2 = some v1 ∧
            ∃ o, meaningfulCmp v2 v1 = some o ∧ o ≠ Ordering.gt := by
          intro k2 v2 hm2
          have hl2 : lookupM m2 k2 = some v2 := lookup_self hs2 hm2
          obtain ⟨g', hlg', hveqg'⟩ := lookup_veqE r m2 hv' k2 v2 hl2
          rcases glbMap_lookup_inv m1 m2 [] r hgm k2 g' hlg' with hnil |
            ⟨k1, v1, v2x, hm1x, hck, hlk2, hglb⟩
          · simp [lookupM] at hnil
          · have hx : lookupM m2 k2 = some v2x := by
              rw [lookup_congr (cmp_eq_comm hck) m2]
              exact hlk2
            rw [hl2] at hx
            injection hx with hvv
            subst hvv
            have hl1 : lookupM m1 k2 = some v1 := by
              rw [lookup_congr (cmp_eq_comm hck) m1]
              exact lookup_self hs1 hm1x
            have hml := ((inner k1 v1 hm1x v2 hlk2).2.2.1) g' hglb hveqg'
            refine ⟨v1, hl1, ?_⟩
            rcases (mle_iff_mcmp v2 v1).mp hml with hy | hy
            · exact ⟨.lt, hy, by simp⟩
            · exact ⟨.eq, hy, by simp⟩
        obtain ⟨o, ho, hog⟩ := mapLe (m2.length + m1.length) m2 m1 .eq le_rfl hs2 hs1
          (by simp) hspec
        exact mle_of_mcmp _ _ o (by simp only [meaningfulCmp]; exact ho) hog
    · -- lub equals (up to ==) the first input: forces m2 ≤ m1
      intro j0 hj hv
      rcases hr1 : lubMap1 m1 m2 [] with _ | r1
      · simp only [lubV, hr1] at hj
        exact Option.noConfusion hj
      · rcases hr2 : lubMap2 m2 m1 r1 with _ | r2
        · simp only [lubV, hr1, hr2] at hj
          exact Option.noConfusion hj
        · simp only [lubV, hr1, hr2] at hj
          injection hj with hj2
          subst hj2
          have hv' : veqE r2 m1 = true := hv
          have hv2 : veqE m1 r2 = true := veqE_symm r2 m1 hv'
          have hspec : ∀ k2 v2, (k2, v2) ∈ m2 → ∃ v1, lookupM m1 k2 = some v1 ∧
              ∃ o, meaningfulCmp v2 v1 = some o ∧ o ≠ Ordering.gt := by
            intro k2 v2 hm2
            obtain ⟨j, hlj⟩ := lubMap2_lookup_some m2 m1 r1 r2 hr2 k2
              (Or.inr ⟨k2, v2, hm2, cmp_refl k2⟩)
            obtain ⟨v1, hlv1, hveq1⟩ := lookup_veqE m1 r2 hv2 k2 j hlj
            rcases lubMap2_lookup_inv m2 m1 r1 r2 hr2 k2 j hlj with hacc |
              ⟨k2x, v2x, hm2x, hck, hrest⟩
            · rcases lubMap1_lookup_inv m1 m2 [] r1 hr1 k2 j hacc with hnil |
                ⟨k1x, v1x, hm1x, hck, hrest⟩
              · simp [lookupM] at hnil
              · rcases hrest with ⟨hnone, hjv⟩ | ⟨w, hlw, hlub⟩
                · have hx : lookupM m2 k1x = some v2 := by
                    rw [lookup_congr hck m2]
                    exact lookup_self hs2 hm2
                  rw [hnone] at hx
                  exact Option.noConfusion hx
                · have hx : lookupM m2 k1x = some v2 := by
                    rw [lookup_congr hck m2]
                    exact lookup_self hs2 hm2
                  rw [hlw] at hx
                  injection hx with hww
                  subst hww
                  have hx1 : lookupM m1 k2 = some v1x := by
                    rw [lookup_congr (cmp_eq_comm hck) m1]
                    exact lookup_self hs1 hm1x
                  rw [hlv1] at hx1
                  injection hx1 with hxx
                  subst hxx
                  have hml := ((inner k1x v1 hm1x w hlw).2.2.2.1) j hlub
                    (veq_symm v1 j hveq1)
                  refine ⟨v1, hlv1, ?_⟩
                  rcases (mle_iff_mcmp w v1).mp hml with hy | hy
                  · exact ⟨.lt, hy, by simp⟩
                  · exact ⟨.eq, hy, by simp⟩
            · have hx : lookupM m2 k2 = some v2x := by
                rw [lookup_congr (cmp_eq_comm hck) m2]
                exact lookup_self hs2 hm2x
              rw [lookup_self hs2 hm2] at hx
              injection hx with hvv
              subst hvv
              rcases hrest with ⟨hnone, hjv⟩ | ⟨w, hlw, hlub⟩
              · have hx2 : lookupM m1 k2x = some v1 := by
                  rw [lookup_congr hck m1]
                  exact hlv1
                rw [hnone] at hx2
                exact Option.noConfusion hx2
              · have hx2 : lookupM m1 k2x = some v1 := by
                  rw [lookup_congr hck m1]
                  exact hlv1
                rw [hlw] at hx2
                injection hx2 with hww
                subst hww
                have hml := ((inner2 k2x v2 hm2x w hlw).2.2.2.2) j hlub
                  (veq_symm w j hveq1)
                refine ⟨w, hlv1, ?_⟩
                rcases (mle_iff_mcmp v2 w).mp hml with hy | hy
                · exact ⟨.lt, hy, by simp⟩
                · exact ⟨.eq, hy, by simp⟩
          obtain ⟨o, ho, hog⟩ := mapLe (m2.length + m1.length) m2 m1 .eq le_rfl hs2 hs1
            (by simp) hspec
          exact mle_of_mcmp _ _ o (by simp only [meaningfulCmp]; exact ho) hog
    · -- lub equals (up to ==) the second input: forces m1 ≤ m2
      intro j0 hj hv
      rcases hr1 : lubMap1 m1 m2 [] with _ | r1
      · simp only [lubV, hr1] at hj
        exact Option.noConfusion hj
      · rcases hr2 : lubMap2 m2 m1 r1 with _ | r2
        · simp only [lubV, hr1, hr2] at hj
          exact Option.noConfusion hj
        · simp only [lubV, hr1, hr2] at hj
          injection hj with hj2
          subst hj2
          have hv' : veqE r2 m2 = true := hv
          have hv2 : veqE m2 r2 = true := veqE_symm r2 m2 hv'
          have hspec : ∀ k1 v1, (k1, v1) ∈ m1 → ∃ v2, lookupM m2 k1 = some v2 ∧
              ∃ o, meaningfulCmp v1 v2 = some o ∧ o ≠ Ordering.gt := by
            intro k1 v1 hm1
            obtain ⟨j1, hlj1⟩ := lubMap1_lookup_some m1 m2 [] r1 hr1 k1
              (Or.inr ⟨k1, v1, hm1, cmp_refl k1⟩)
            obtain ⟨j, hlj⟩ := lubMap2_lookup_some m2 m1 r1 r2 hr2 k1 (Or.inl ⟨j1, hlj1⟩)
            obtain ⟨v2, hlv2, hveq2⟩ := lookup_veqE m2 r2 hv2 k1 j hlj
            rcases lubMap2_lookup_inv m2 m1 r1 r2 hr2 k1 j hlj with hacc |
              ⟨k2x, v2x, hm2x, hck, hrest⟩
            · rcases lubMap1_lookup_inv m1 m2 [] r1 hr1 k1 j hacc with hnil |
                ⟨k1x, v1x, hm1x, hck, hrest⟩
              · simp [lookupM] at hnil
              · rcases hrest with ⟨hnone, hjv⟩ | ⟨w, hlw, hlub⟩
                · have hx : lookupM m2 k1x = some v2 := by
                    rw [lookup_congr hck m2]
                    exact hlv2
                  rw [hnone] at hx
                  exact Option.noConfusion hx
                · have hx : lookupM m2 k1x = some v2 := by
                    rw [lookup_congr hck m2]
                    exact hlv2
                  rw [hlw] at hx
                  injection hx with hww
                  subst hww
                  have hx1 : lookupM m1 k1x = some v1 := by
                    rw [lookup_congr hck m1]
                    exact lookup_self hs1 hm1
                  rw [lookup_self hs1 hm1x] at hx1
                  injection hx1 with hvv
                  subst hvv
                  have hml := ((inner k1x v1x hm1x w hlw).2.2.2.2) j hlub
                    (veq_symm w j hveq2)
                  refine ⟨w, hlv2, ?_⟩
                  rcases (mle_iff_mcmp v1x w).mp hml with hy | hy
                  · exact ⟨.lt, hy, by simp⟩
                  · exact ⟨.eq, hy, by simp⟩
            · have hx : lookupM m2 k1 = some v2x := by
                rw [lookup_congr (cmp_eq_comm hck) m2]
                exact lookup_self hs2 hm2x
              rw [hlv2] at hx
              injection hx with hvv
              subst hvv
              rcases hrest with ⟨hnone, hjv⟩ | ⟨w, hlw, hlub⟩
              · have hx2 : lookupM m1 k2x = some v1 := by
                  rw [lookup_congr hck m1]
                  exact lookup_self hs1 hm1
                rw [hnone] at hx2
                exact Option.noConfusion hx2
              · have hx2 : lookupM m1 k2x = some v1 := by
                  rw [lookup_congr hck m1]
                  exact lookup_self hs1 hm1
                rw [hlw] at hx2
                injection hx2 with hww
                subst hww
                have hml := ((inner2 k2x v2 hm2x w hlw).2.2.2.1) j hlub
                  (veq_symm v2 j hveq2)
                refine ⟨v2, hlv2, ?_⟩
                rcases (mle_iff_mcmp w v2).mp hml with hy | hy
                · exact ⟨.lt, hy, by simp⟩
                · exact ⟨.eq, hy, by simp⟩
          obtain ⟨o, ho, hog⟩ := mapLe (m1.length + m2.length) m1 m2 .eq le_rfl hs1 hs2
            (by simp) hspec
          exact mle_of_mcmp _ _ o (by simp only [meaningfulCmp]; exact ho) hog
  | .nil, .bool _ | .nil, .float _ | .nil, .int _ | .nil, .array _ | .nil, .map _
  | .bool _, .nil | .bool _, .float _ | .bool _, .int _ | .bool _, .array _ | .bool _, .map _
  | .float _, .nil | .float _, .bool _ | .float _, .int _ | .float _, .array _ | .float _, .map _
  | .int _, .nil | .int _, .bool _ | .int _, .float _ | .int _, .array _ | .int _, .map _
  | .array _, .nil | .array _, .bool _ | .array _, .float _ | .array _, .int _ | .array _, .map _
  | .map _, .nil | .map _, .bool _ | .map _, .float _ | .map _, .int _ | .map _, .array _ =>
    refine ⟨fun hle => ?_, fun g hg _ => ?_, fun g hg _ => ?_,
      fun j hj _ => ?_, fun j hj _ => ?_⟩
    · simp [meaningful_le] at hle
    · simp [glbV] at hg
    · simp [glbV] at hg
    · simp [lubV] at hj
    · simp [lubV] at hj

/-- C6: the claim — values with a common lower (upper) bound have a
defined glb (lub) — fails on the code: both bounds abort with `None` on
the arrays `[{nil: nil}]` and `[{true: nil}]` although `[{}]` is a
common lower bound and `[{nil: nil, true: nil}]` a common upper
bound (the element maps are incomparable, and the loops abort on any
incomparable pair instead of bounding it). -/
theorem C6_counterexample :
    glbV (.array [.map [(.nil, .nil)]]) (.array [.map [(.bool true, .nil)]]) = none ∧
    lubV (.array [.map [(.nil, .nil)]]) (.array [.map [(.bool true, .nil)]]) = none ∧
    meaningful_le (.array [.map []]) (.array [.map [(.nil, .nil)]]) = true ∧
    meaningful_le (.array [.map []]) (.array [.map [(.bool true, .nil)]]) = true ∧
    meaningful_le (.array [.map [(.nil, .nil)]])
      (.array [.map [(.nil, .nil), (.bool true, .nil)]]) = true ∧
    meaningful_le (.array [.map [(.bool true, .nil)]])
      (.array [.map [(.nil, .nil), (.bool true, .nil)]]) = true := by
  refine ⟨?_, ?_, ?_, ?_, ?_, ?_⟩ <;>
    simp [glbV, glbArr, lubV, lubArr, meaningful_le, meaningfulCmp, mCmpArr,
      mCmpMap, cmpV, cmpBool]
/-- C6: amended. `greatest_lower_bound` and `least_upper_bound` abort with
`None` on any nested incomparable pair instead of falling back to a wider
bound, so they can return `None` even when common bounds exist — the
unconditional-existence half of the claim fails (see the counterexample).
The 'result equals an input iff the inputs are comparable' half holds in
full on well-formed values: under `meaningful_le a b` the glb is literally
`Some(a)` and both argument orders of the lub return `Some` of a value
`==`-equal (`PartialEq`) to the larger input `b`; conversely, whenever a
defined glb or lub is `==`-equal to one of the inputs, the inputs are
meaningfully comparable in the corresponding direction. -/
theorem C6_bounds_iff (a b : Value) (hwa : wf a = true) (hwb : wf b = true) :
    (meaningful_le a b = true →
      glbV a b = some a ∧
      (∃ j, lubV a b = some j ∧ veq j b = true) ∧
      (∃ j, lubV b a = some j ∧ veq j b = true)) ∧
    (∀ g, glbV a b = some g → veq g a = true ∨ veq g b = true →
      meaningful_le a b = true ∨ meaningful_le b a = true) ∧
    (∀ j, lubV a b = some j → veq j a = true ∨ veq j b = true →
      meaningful_le a b = true ∨ meaningful_le b a = true) := by
  obtain ⟨h1, h2, h3, h4, h5⟩ := lattice_main (sizeOf a + sizeOf b) a b le_rfl hwa hwb
  refine ⟨h1, ?_, ?_⟩
  · intro g hg hv
    rcases hv with hv | hv
    · exact Or.inl (h2 g hg hv)
    · exact Or.inr (h3 g hg hv)
  · intro j hj hv
    rcases hv with hv | hv
    · exact Or.inr (h4 j hj hv)
    · exact Or.inl (h5 j hj hv)

/-- C6 witness: the full bound structure at the comparable maps `{0: 1}`
and `{0: 2, 1: nil}`, and the converse direction at the glb of two
booleans. -/
theorem C6_bounds_iff_witness :
    (glbV (.map [(.int 0, .int 1)]) (.map [(.int 0, .int 2), (.int 1, .nil)]) =
       some (.map [(.int 0, .int 1)]) ∧
     (∃ j, lubV (.map [(.int 0, .int 1)]) (.map [(.int 0, .int 2), (.int 1, .nil)]) =
       some j ∧ veq j (.map [(.int 0, .int 2), (.int 1, .nil)]) = true) ∧
     (∃ j, lubV (.map [(.int 0, .int 2), (.int 1, .nil)]) (.map [(.int 0, .int 1)]) =
       some j ∧ veq j (.map [(.int 0, .int 2), (.int 1, .nil)]) = true)) ∧
    (meaningful_le (.bool false) (.bool true) = true ∨
     meaningful_le (.bool true) (.bool false) = true) :=
  ⟨(C6_bounds_iff (.map [(.int 0, .int 1)]) (.map [(.int 0, .int 2), (.int 1, .nil)])
      (by simp [wf, wfE, sortedE, cmpV, cmpInt]; try rfl)
      (by simp [wf, wfE, sortedE, cmpV, cmpInt]; try rfl)).1
    (by simp [meaningful_le, meaningfulCmp, mCmpMap, cmpV, cmpInt]; try rfl),
   (C6_bounds_iff (.bool false) (.bool true) rfl rfl).2.1
     (.bool false) (by simp [glbV]) (Or.inl rfl)⟩

theorem and31_eq_mod (b : Nat) : b &&& 31 = b % 32 := by
  rw [show (31 : Nat) = 2 ^ 5 - 1 from rfl, Nat.and_pow_two_sub_one_eq_mod]

theorem shr5_eq_div (b : Nat) : b >>> 5 = b / 32 := by
  rw [Nat.shiftRight_eq_div_pow]

theorem or160 (x : Nat) (h : x < 32) : 160 ||| x = 160 + x := by
  interval_cases x <;> try decide

theorem or224 (x : Nat) (h : x < 32) : 224 ||| x = 224 + x := by
  interval_cases x <;> try decide

theorem or96 (x : Nat) (h : x < 32) : 96 ||| x = 96 + x := by
  interval_cases x <;> try decide

theorem beBytes_length : ∀ (w n : Nat), (beBytes w n).length = w
  | 0, _ => rfl
  | w + 1, n => by simp [beBytes, beBytes_length w n]

theorem foldl_be (bs : List Nat) : ∀ a : Nat,
    bs.foldl (fun a b => a * 256 + b) a =
      a * 256 ^ bs.length + bs.foldl (fun a b => a * 256 + b) 0 := by
  induction bs with
  | nil => intro a; simp
  | cons c bs ih =>
    intro a
    simp only [List.foldl_cons, List.length_cons]
    rw [ih (a * 256 + c), ih (0 * 256 + c)]
    ring

theorem fromBE_cons (c : Nat) (bs : List Nat) :
    fromBE (c :: bs) = c * 256 ^ bs.length + fromBE bs := by
  show (c :: bs).foldl (fun a b => a * 256 + b) 0 = _
  simp only [List.foldl_cons]
  rw [foldl_be bs (0 * 256 + c)]
  ring_nf
  rfl

theorem pow256 (w : Nat) : (256 : Nat) ^ w = 2 ^ (8 * w) := by
  rw [show (256 : Nat) = 2 ^ 8 from rfl, ← pow_mul]

theorem fromBE_lt : ∀ bs : List Nat, (∀ x ∈ bs, x < 256) →
    fromBE bs < 2 ^ (8 * bs.length) := by
  intro bs
  induction bs with
  | nil => intro _; simp [fromBE]
  | cons c bs ih =>
    intro hb
    rw [fromBE_cons, pow256]
    have hc : c < 256 := hb c (List.mem_cons_self _ _)
    have ht := ih (fun x hx => hb x (List.mem_cons_of_mem _ hx))
    have h1 : (2 : Nat) ^ (8 * (c :: bs).length) = 256 * 2 ^ (8 * bs.length) := by
      simp only [List.length_cons]
      rw [show 8 * (bs.length + 1) = 8 * bs.length + 8 by ring, pow_add]
      ring
    rw [h1]
    calc c * 2 ^ (8 * bs.length) + fromBE bs
        < c * 2 ^ (8 * bs.length) + 2 ^ (8 * bs.length) := by omega
      _ = (c + 1) * 2 ^ (8 * bs.length) := by ring
      _ ≤ 256 * 2 ^ (8 * bs.length) := by
          exact Nat.mul_le_mul_right _ (by omega)

theorem fromBE_beBytes : ∀ (w n : Nat), fromBE (beBytes w n) = n % 2 ^ (8 * w) := by
  intro w
  induction w with
  | zero => intro n; simp [beBytes, fromBE, Nat.mod_one]
  | succ w ih =>
    intro n
    show fromBE ((n >>> (8 * w)) % 256 :: beBytes w n) = _
    rw [fromBE_cons, beBytes_length, ih n, pow256, Nat.shiftRight_eq_div_pow,
      show (2 : Nat) ^ (8 * w) = 2 ^ (8 * w) from rfl]
    have hsplit : n % 2 ^ (8 * (w + 1)) =
        n / 2 ^ (8 * w) % 256 * 2 ^ (8 * w) + n % 2 ^ (8 * w) := by
      have h1 : (2 : Nat) ^ (8 * (w + 1)) = 2 ^ (8 * w) * 256 := by
        rw [show 8 * (w + 1) = 8 * w + 8 by ring, pow_add]
        norm_num
      rw [h1, Nat.mod_mul]
      ring
    omega

theorem beBytes_high : ∀ (w a b : Nat), beBytes w (a * 2 ^ (8 * w) + b) = beBytes w b := by
  intro w
  induction w with
  | zero => intro a b; rfl
  | succ w ih =>
    intro a b
    show ((a * 2 ^ (8 * (w + 1)) + b) >>> (8 * w)) % 256 :: beBytes w (a * 2 ^ (8 * (w + 1)) + b)
      = (b >>> (8 * w)) % 256 :: beBytes w b
    have h1 : a * 2 ^ (8 * (w + 1)) + b = (a * 256) * 2 ^ (8 * w) + b := by
      rw [show 8 * (w + 1) = 8 * w + 8 by ring, pow_add]
      ring
    have hP : 0 < (2 : Nat) ^ (8 * w) := Nat.pos_pow_of_pos _ (by norm_num)
    congr 1
    · rw [h1, Nat.shiftRight_eq_div_pow, Nat.shiftRight_eq_div_pow]
      rw [show a * 256 * 2 ^ (8 * w) + b = 2 ^ (8 * w) * (a * 256) + b by ring]
      rw [Nat.mul_add_div hP]
      omega
    · rw [h1, ih]

theorem beBytes_fromBE : ∀ (bs : List Nat), (∀ x ∈ bs, x < 256) →
    beBytes bs.length (fromBE bs) = bs := by
  intro bs
  induction bs with
  | nil => intro _; rfl
  | cons c bs ih =>
    intro hb
    have hc : c < 256 := hb c (List.mem_cons_self _ _)
    have htl := ih (fun x hx => hb x (List.mem_cons_of_mem _ hx))
    have hlt := fromBE_lt bs (fun x hx => hb x (List.mem_cons_of_mem _ hx))
    rw [List.length_cons, fromBE_cons, pow256]
    show ((c * 2 ^ (8 * bs.length) + fromBE bs) >>> (8 * bs.length)) % 256 ::
        beBytes bs.length (c * 2 ^ (8 * bs.length) + fromBE bs) = c :: bs
    have hP : 0 < (2 : Nat) ^ (8 * bs.length) := Nat.pos_pow_of_pos _ (by norm_num)
    congr 1
    · rw [Nat.shiftRight_eq_div_pow]
      rw [show c * 2 ^ (8 * bs.length) + fromBE bs =
        2 ^ (8 * bs.length) * c + fromBE bs by ring]
      rw [Nat.mul_add_div hP, Nat.div_eq_of_lt hlt]
      omega
    · rw [beBytes_high, htl]

theorem readOpt_append (w : Nat) (pre t : List Nat) (hl : pre.length = w) :
    readOpt w (pre ++ t) = some (fromBE pre, t) := by
  unfold readOpt
  rw [if_neg (by simp [hl])]
  subst hl
  rw [List.take_left, List.drop_left]


mutual

def normNaN : Value → Value
  | .nil => .nil
  | .bool b => .bool b
  | .float bits => .float (if isNanBits bits then canonicalNaN else bits)
  | .int v => .int v
  | .array vs => .array (normL vs)
  | .map es => .map (normE es)

def normL : List Value → List Value
  | [] => []
  | v :: r => normNaN v :: normL r

def normE : List (Value × Value) → List (Value × Value)
  | [] => []
  | (k, v) :: r => (normNaN k, normNaN v) :: normE r

end

mutual

theorem veq_normNaN : ∀ v : Value, veq (normNaN v) v = true
  | .nil => rfl
  | .bool b => by simp [normNaN, veq]
  | .int n => by simp [normNaN, veq]
  | .float bits => by
    by_cases h : isNanBits bits = true
    · have hc : isNanBits canonicalNaN = true := by decide
      simp [normNaN, veq, h, hc]
    · simp only [Bool.not_eq_true] at h
      simp [normNaN, veq, h]
  | .array vs => by
    simp only [normNaN, veq]
    exact veqL_normL vs
  | .map es => by
    simp only [normNaN, veq]
    exact veqE_normE es

theorem veqL_normL : ∀ vs : List Value, veqL (normL vs) vs = true
  | [] => rfl
  | v :: r => by
    simp only [normL, veqL, Bool.and_eq_true]
    exact ⟨veq_normNaN v, veqL_normL r⟩

theorem veqE_normE : ∀ es : List (Value × Value), veqE (normE es) es = true
  | [] => rfl
  | (k, v) :: r => by
    simp only [normE, veqE, Bool.and_eq_true]
    exact ⟨⟨veq_normNaN k, veq_normNaN v⟩, veqE_normE r⟩

end

theorem cmp_norm (a b : Value) : cmpV (normNaN a) (normNaN b) = cmpV a b := by
  rw [cmp_congr_left (veq_cmp_eq _ _ (veq_normNaN a)) (normNaN b),
    cmp_congr_right (veq_cmp_eq _ _ (veq_normNaN b)) a]


theorem minCount_dec (n tag : Nat) (head : List Nat) (htag : tag = 160 ∨ tag = 224)
    (h : minCount n tag = some head) :
    ∃ hb hrest, head = hb :: hrest ∧ hb < 256 ∧ hb >>> 5 = tag / 32 ∧
      ∀ t : List Nat, decCountArg (hb &&& 31) (hrest ++ t) = some (n, t) := by
  have htlt : tag < 256 := by rcases htag with rfl | rfl <;> norm_num
  unfold minCount at h
  split_ifs at h with h1 h2 h3 h4 h5
  · -- inline, n ≤ 27
    injection h with hh
    subst hh
    have hor : tag ||| n = tag + n := by
      rcases htag with rfl | rfl
      · exact or160 n (by omega)
      · exact or224 n (by omega)
    refine ⟨tag + n, [], by rw [hor], by omega, ?_, ?_⟩
    · rw [shr5_eq_div]
      rcases htag with rfl | rfl <;> omega
    · intro t
      have ha : (tag + n) &&& 31 = n := by
        rw [and31_eq_mod]
        rcases htag with rfl | rfl <;> omega
      rw [ha]
      simp [decCountArg, h1]
  · -- 1-byte, 28 ≤ n ≤ 255
    injection h with hh
    subst hh
    have hor : tag ||| 28 = tag + 28 := by
      rcases htag with rfl | rfl
      · exact or160 28 (by omega)
      · exact or224 28 (by omega)
    refine ⟨tag + 28, beBytes 1 n, by rw [hor], by omega, ?_, ?_⟩
    · rw [shr5_eq_div]
      rcases htag with rfl | rfl <;> omega
    · intro t
      have ha : (tag + 28) &&& 31 = 28 := by
        rw [and31_eq_mod]
        rcases htag with rfl | rfl <;> omega
      rw [ha]
      unfold decCountArg
      rw [if_neg (by omega), if_pos rfl]
      rw [readOpt_append 1 _ t (beBytes_length 1 n), fromBE_beBytes]
      rw [Nat.mod_eq_of_lt (by norm_num; omega)]
      show (if 28 ≤ n then some (n, t) else none) = some (n, t)
      rw [if_pos (by omega)]
  · -- 2-byte, 256 ≤ n ≤ 65535
    injection h with hh
    subst hh
    have hor : tag ||| 29 = tag + 29 := by
      rcases htag with rfl | rfl
      · exact or160 29 (by omega)
      · exact or224 29 (by omega)
    refine ⟨tag + 29, beBytes 2 n, by rw [hor], by omega, ?_, ?_⟩
    · rw [shr5_eq_div]
      rcases htag with rfl | rfl <;> omega
    · intro t
      have ha : (tag + 29) &&& 31 = 29 := by
        rw [and31_eq_mod]
        rcases htag with rfl | rfl <;> omega
      rw [ha]
      unfold decCountArg
      rw [if_neg (by omega), if_neg (by omega), if_pos rfl]
      rw [readOpt_append 2 _ t (beBytes_length 2 n), fromBE_beBytes]
      rw [Nat.mod_eq_of_lt (by norm_num; omega)]
      show (if 2 ^ 8 ≤ n then some (n, t) else none) = some (n, t)
      rw [if_pos (by norm_num; omega)]
  · -- 4-byte, 65536 ≤ n ≤ 2^32 - 1
    injection h with hh
    subst hh
    have hor : tag ||| 30 = tag + 30 := by
      rcases htag with rfl | rfl
      · exact or160 30 (by omega)
      · exact or224 30 (by omega)
    refine ⟨tag + 30, beBytes 4 n, by rw [hor], by omega, ?_, ?_⟩
    · rw [shr5_eq_div]
      rcases htag with rfl | rfl <;> omega
    · intro t
      have ha : (tag + 30) &&& 31 = 30 := by
        rw [and31_eq_mod]
        rcases htag with rfl | rfl <;> omega
      rw [ha]
      unfold decCountArg
      rw [if_neg (by omega), if_neg (by omega), if_neg (by omega), if_pos rfl]
      rw [readOpt_append 4 _ t (beBytes_length 4 n), fromBE_beBytes]
      rw [Nat.mod_eq_of_lt (by norm_num; omega)]
      show (if 2 ^ 16 ≤ n then some (n, t) else none) = some (n, t)
      rw [if_pos (by norm_num; omega)]
  · -- 8-byte, 2^32 ≤ n ≤ 2^63 - 1
    injection h with hh
    subst hh
    have hor : tag ||| 31 = tag + 31 := by
      rcases htag with rfl | rfl
      · exact or160 31 (by omega)
      · exact or224 31 (by omega)
    refine ⟨tag + 31, beBytes 8 n, by rw [hor], by omega, ?_, ?_⟩
    · rw [shr5_eq_div]
      rcases htag with rfl | rfl <;> omega
    · intro t
      have ha : (tag + 31) &&& 31 = 31 := by
        rw [and31_eq_mod]
        rcases htag with rfl | rfl <;> omega
      rw [ha]
      unfold decCountArg
      rw [if_neg (by omega), if_neg (by omega), if_neg (by omega), if_neg (by omega)]
      rw [readOpt_append 8 _ t (beBytes_length 8 n), fromBE_beBytes]
      have h64 : n < 2 ^ (8 * 8) := by norm_num at h5 ⊢; omega
      rw [Nat.mod_eq_of_lt h64]
      have hcond : 2 ^ 32 ≤ n ∧ n ≤ 2 ^ 63 - 1 := by
        constructor
        · norm_num at h4
          omega
        · exact h5
      show (if 2 ^ 32 ≤ n ∧ n ≤ 2 ^ 63 - 1 then some (n, t) else none) = some (n, t)
      rw [if_pos hcond]


set_option maxHeartbeats 1000000 in
theorem decCInt_encInt (v : Int) (hlo : -(2 ^ 63) ≤ v) (hhi : v < 2 ^ 63) :
    ∃ hb hrest, encInt v = hb :: hrest ∧ hb < 256 ∧ hb >>> 5 = 3 ∧
      ∀ t : List Nat, decCInt (hb &&& 31) (hrest ++ t) = some (v, t) := by
  unfold encInt
  split_ifs with h1 h2 h3 h4
  · -- inline
    simp only [Bool.and_eq_true, decide_eq_true_eq] at h1
    have hto : v.toNat ≤ 27 := by omega
    have hor : 96 ||| v.toNat = 96 + v.toNat := or96 v.toNat (by omega)
    refine ⟨96 + v.toNat, [], by rw [hor], by omega, ?_, ?_⟩
    · rw [shr5_eq_div]
      omega
    · intro t
      have ha : (96 + v.toNat) &&& 31 = v.toNat := by
        rw [and31_eq_mod]
        omega
      rw [ha]
      unfold decCInt
      rw [if_pos hto]
      rw [Int.toNat_of_nonneg h1.1]
      simp
  · -- 1-byte
    simp only [Bool.and_eq_true, decide_eq_true_eq] at h1 h2
    refine ⟨0b01111100, beBytes 1 (v % 256).toNat, rfl, by norm_num, by decide, ?_⟩
    intro t
    have ha : (0b01111100 : Nat) &&& 31 = 28 := by decide
    rw [ha]
    have hm : (0 : Int) ≤ v % 256 := Int.emod_nonneg _ (by norm_num)
    have hmu : v % 256 < 256 := Int.emod_lt_of_pos _ (by norm_num)
    have hnn : ((v % 256).toNat : Int) = v % 2 ^ 8 := Int.toNat_of_nonneg hm
    have hlt : (v % 256).toNat < 2 ^ (8 * 1) := by omega
    unfold decCInt
    rw [if_neg (by norm_num), if_pos rfl,
      readOpt_append 1 _ t (beBytes_length _ _), fromBE_beBytes,
      Nat.mod_eq_of_lt hlt]
    have hsv : toSigned (v % 256).toNat 1 = v := by
      unfold toSigned
      split_ifs with hc
      · omega
      · push_neg at hc
        omega
    show (if 0 ≤ toSigned (v % 256).toNat 1 ∧ toSigned (v % 256).toNat 1 ≤ 27
        then none else some (toSigned (v % 256).toNat 1, t)) = some (v, t)
    rw [hsv, if_neg (by omega)]
  · -- 2-byte
    simp only [Bool.and_eq_true, decide_eq_true_eq] at h1 h2 h3
    refine ⟨0b01111101, beBytes 2 (v % 65536).toNat, rfl, by norm_num, by decide, ?_⟩
    intro t
    have ha : (0b01111101 : Nat) &&& 31 = 29 := by decide
    rw [ha]
    have hm : (0 : Int) ≤ v % 65536 := Int.emod_nonneg _ (by norm_num)
    have hmu : v % 65536 < 65536 := Int.emod_lt_of_pos _ (by norm_num)
    have hnn : ((v % 65536).toNat : Int) = v % 2 ^ 16 := Int.toNat_of_nonneg hm
    have hlt : (v % 65536).toNat < 2 ^ (8 * 2) := by norm_num; omega
    unfold decCInt
    rw [if_neg (by norm_num), if_neg (by norm_num), if_pos rfl,
      readOpt_append 2 _ t (beBytes_length _ _), fromBE_beBytes,
      Nat.mod_eq_of_lt hlt]
    have hsv : toSigned (v % 65536).toNat 2 = v := by
      unfold toSigned
      split_ifs with hc
      · norm_num at hc ⊢
        omega
      · push_neg at hc
        norm_num at hc ⊢
        omega
    show (if -128 ≤ toSigned (v % 65536).toNat 2 ∧ toSigned (v % 65536).toNat 2 ≤ 127
        then none else some (toSigned (v % 65536).toNat 2, t)) = some (v, t)
    rw [hsv, if_neg (by omega)]
  · -- 4-byte
    simp only [Bool.and_eq_true, decide_eq_true_eq] at h1 h2 h3 h4
    refine ⟨0b01111110, beBytes 4 (v % 4294967296).toNat, rfl, by norm_num, by decide, ?_⟩
    intro t
    have ha : (0b01111110 : Nat) &&& 31 = 30 := by decide
    rw [ha]
    have hm : (0 : Int) ≤ v % 4294967296 := Int.emod_nonneg _ (by norm_num)
    have hmu : v % 4294967296 < 4294967296 := Int.emod_lt_of_pos _ (by norm_num)
    have hnn : ((v % 4294967296).toNat : Int) = v % 2 ^ 32 := Int.toNat_of_nonneg hm
    have hlt : (v % 4294967296).toNat < 2 ^ (8 * 4) := by norm_num; omega
    unfold decCInt
    rw [if_neg (by norm_num), if_neg (by norm_num), if_neg (by norm_num), if_pos rfl,
      readOpt_append 4 _ t (beBytes_length _ _), fromBE_beBytes,
      Nat.mod_eq_of_lt hlt]
    have hsv : toSigned (v % 4294967296).toNat 4 = v := by
      unfold toSigned
      split_ifs with hc
      · norm_num at hc h3 ⊢
        omega
      · push_neg at hc
        norm_num at hc h3 ⊢
        omega
    show (if -(2 ^ 15) ≤ toSigned (v % 4294967296).toNat 4 ∧
        toSigned (v % 4294967296).toNat 4 ≤ 2 ^ 15 - 1
        then none else some (toSigned (v % 4294967296).toNat 4, t)) = some (v, t)
    rw [hsv, if_neg (by norm_num at h3 ⊢; omega)]
  · -- 8-byte
    simp only [Bool.and_eq_true, decide_eq_true_eq, not_and_or, not_le] at h1 h2 h3 h4
    refine ⟨0b01111111, beBytes 8 (v % 18446744073709551616).toNat, rfl, by norm_num, by decide, ?_⟩
    intro t
    have ha : (0b01111111 : Nat) &&& 31 = 31 := by decide
    rw [ha]
    have hm : (0 : Int) ≤ v % 18446744073709551616 := Int.emod_nonneg _ (by norm_num)
    have hmu : v % 18446744073709551616 < 18446744073709551616 := Int.emod_lt_of_pos _ (by norm_num)
    have hnn : ((v % 18446744073709551616).toNat : Int) = v % 2 ^ 64 := Int.toNat_of_nonneg hm
    have hlt : (v % 18446744073709551616).toNat < 2 ^ (8 * 8) := by norm_num; omega
    unfold decCInt
    rw [if_neg (by norm_num), if_neg (by norm_num), if_neg (by norm_num),
      if_neg (by norm_num),
      readOpt_append 8 _ t (beBytes_length _ _), fromBE_beBytes,
      Nat.mod_eq_of_lt hlt]
    have hsv : toSigned (v % 18446744073709551616).toNat 8 = v := by
      unfold toSigned
      split_ifs with hc
      · norm_num at hc ⊢
        omega
      · push_neg at hc
        norm_num at hc ⊢
        omega
    show (if -(2 ^ 31) ≤ toSigned (v % 18446744073709551616).toNat 8 ∧
        toSigned (v % 18446744073709551616).toNat 8 ≤ 2 ^ 31 - 1
        then none else some (toSigned (v % 18446744073709551616).toNat 8, t)) = some (v, t)
    rw [hsv, if_neg (by norm_num at h4 ⊢; omega)]


theorem sizeOf_elem_lt {vs : List Value} {x : Value} (h : x ∈ vs) :
    sizeOf x < sizeOf (Value.array vs) := by
  have h1 := List.sizeOf_lt_of_mem h
  have h2 : sizeOf (Value.array vs) = 1 + sizeOf vs := by simp
  omega

theorem sizeOf_entry_lt {es : List (Value × Value)} {k w : Value} (h : (k, w) ∈ es) :
    sizeOf k < sizeOf (Value.map es) ∧ sizeOf w < sizeOf (Value.map es) := by
  have h1 := List.sizeOf_lt_of_mem h
  simp only [Prod.mk.sizeOf_spec] at h1
  have h2 : sizeOf (Value.map es) = 1 + sizeOf es := by simp
  omega

theorem decC_tag3 (fuel : Nat) (b : Nat) (r : List Nat) (hb : b < 256)
    (h5 : b >>> 5 = 3) :
    decC (fuel + 1) (b :: r) =
      (match decCInt (b &&& 31) r with
        | none => none
        | some (v, r) => some (Value.int v, r)) := by
  simp only [decC]
  rw [if_neg (by omega), h5]
  norm_num

theorem decC_tag5 (fuel : Nat) (b : Nat) (r : List Nat) (hb : b < 256)
    (h5 : b >>> 5 = 5) :
    decC (fuel + 1) (b :: r) =
      (match decCountArg (b &&& 31) r with
        | none => none
        | some (n, r) =>
          match decCList fuel n r with
          | none => none
          | some (vs, r) => some (Value.array vs, r)) := by
  simp only [decC]
  rw [if_neg (by omega), h5]
  norm_num

theorem decC_tag7 (fuel : Nat) (b : Nat) (r : List Nat) (hb : b < 256)
    (h5 : b >>> 5 = 7) :
    decC (fuel + 1) (b :: r) =
      (match decCountArg (b &&& 31) r with
        | none => none
        | some (n, r) =>
          match decCEntries fuel n none r with
          | none => none
          | some (es, r) => some (Value.map es, r)) := by
  simp only [decC]
  rw [if_neg (by omega), h5]
  norm_num


theorem decC_of_encC : ∀ fuel : Nat, ∀ v : Value, wf v = true →
    ∀ bytes rest, encC v = some bytes → bytes.length < fuel →
    decC fuel (bytes ++ rest) = some (normNaN v, rest) := by
  intro fuel
  induction fuel using Nat.strong_induction_on with
  | _ fuel ihf =>
  intro v hwf bytes rest henc hsz
  cases fuel with
  | zero => omega
  | succ fuel =>
  cases v with
  | nil =>
    simp only [encC] at henc
    injection henc with hh
    subst hh
    show decC (fuel + 1) (0 :: rest) = _
    simp [decC, normNaN]
  | bool b =>
    simp only [encC] at henc
    injection henc with hh
    subst hh
    cases b
    · show decC (fuel + 1) (32 :: rest) = _
      simp [decC, normNaN]
      try decide
    · show decC (fuel + 1) (33 :: rest) = _
      simp [decC, normNaN]
      try decide
  | float bits =>
    simp only [encC] at henc
    injection henc with hh
    subst hh
    have hnb : (if isNanBits bits then canonicalNaN else bits) < 2 ^ 64 := by
      have := wf_float hwf
      split_ifs
      · decide
      · exact this
    show decC (fuel + 1)
      ((64 :: beBytes 8 (if isNanBits bits then canonicalNaN else bits)) ++ rest) = _
    simp only [List.cons_append, decC]
    rw [if_neg (by norm_num), show (64 : Nat) >>> 5 = 2 from rfl,
      show (64 : Nat) &&& 31 = 0 from rfl]
    norm_num
    rw [readOpt_append 8 _ rest (beBytes_length _ _), fromBE_beBytes,
      Nat.mod_eq_of_lt (by norm_num at hnb ⊢; omega)]
    cases hn : isNanBits bits <;> simp [hn, normNaN]
  | int n =>
    simp only [encC] at henc
    injection henc with hh
    subst hh
    have hwfi : -(2 ^ 63) ≤ n ∧ n < 2 ^ 63 := by
      have h' : ((decide (-(2 ^ 63) ≤ n)) && (decide (n < 2 ^ 63))) = true := hwf
      simp only [Bool.and_eq_true, decide_eq_true_eq] at h'
      exact h'
    obtain ⟨hb, hrest, hb1, hb2, hb3, hb4⟩ := decCInt_encInt n hwfi.1 hwfi.2
    rw [hb1, List.cons_append, decC_tag3 fuel hb _ hb2 hb3, hb4 rest]
    simp [normNaN]
  | array vs =>
    simp only [encC] at henc
    rcases hmc : minCount vs.length 0b10100000 with _ | head <;> rw [hmc] at henc
    · exact Option.noConfusion henc
    rcases hel : encCL vs with _ | body <;> rw [hel] at henc
    · exact Option.noConfusion henc
    injection henc with hh
    subst hh
    obtain ⟨hb, hrest, hh1, hh2, hh3, hh4⟩ :=
      minCount_dec vs.length 160 head (Or.inl rfl) hmc
    subst hh1
    have hlist : ∀ (l : List Value), (∀ x ∈ l, wf x = true) →
        ∀ bts rst, encCL l = some bts → bts.length < fuel →
        decCList fuel l.length (bts ++ rst) = some (normL l, rst) := by
      intro l
      induction l with
      | nil =>
        intro _ bts rst he _
        simp only [encCL] at he
        injection he with hh
        subst hh
        simp [decCList, normL]
      | cons x xs ihl =>
        intro hx bts rst he hblen
        simp only [encCL] at he
        rcases hex : encC x with _ | bx <;> rw [hex] at he
        · exact Option.noConfusion he
        rcases hexs : encCL xs with _ | bxs <;> rw [hexs] at he
        · exact Option.noConfusion he
        injection he with hh
        subst hh
        rw [List.length_append] at hblen
        have h1 := ihf fuel (by omega) x (hx x (List.mem_cons_self _ _))
          bx (bxs ++ rst) hex (by omega)
        have h2 := ihl (fun y hy => hx y (List.mem_cons_of_mem _ hy)) bxs rst hexs
          (by omega)
        show decCList fuel (xs.length + 1) ((bx ++ bxs) ++ rst) = _
        simp only [decCList, List.append_assoc, h1, h2, normL]
    have hmem : ∀ x ∈ vs, wf x = true := fun x hx => wfL_mem (wf_array hwf) hx
    have hbl : body.length < fuel := by
      rw [List.cons_append, List.length_cons, List.length_append] at hsz
      omega
    rw [List.append_assoc, List.cons_append, decC_tag5 fuel hb _ hh2 (by rw [hh3])]
    simp only [hh4 (body ++ rest), hlist vs hmem body rest hel hbl, normNaN]
  | map es =>
    simp only [encC] at henc
    rcases hmc : minCount es.length 0b11100000 with _ | head <;> rw [hmc] at henc
    · exact Option.noConfusion henc
    rcases hel : encCE es with _ | body <;> rw [hel] at henc
    · exact Option.noConfusion henc
    injection henc with hh
    subst hh
    obtain ⟨hb, hrest, hh1, hh2, hh3, hh4⟩ :=
      minCount_dec es.length 224 head (Or.inr rfl) hmc
    subst hh1
    have hsorted : sortedE es = true := wf_map_sorted hwf
    have hentries : ∀ (l : List (Value × Value)),
        (∀ p ∈ l, wf p.1 = true ∧ wf p.2 = true) →
        sortedE l = true →
        ∀ prev : Option Value,
        (∀ p', prev = some p' → ∃ p0, p' = normNaN p0 ∧ ∀ q ∈ l, cmpV p0 q.1 = .lt) →
        ∀ bts rst, encCE l = some bts → bts.length < fuel →
        decCEntries fuel l.length prev (bts ++ rst) = some (normE l, rst) := by
      intro l
      induction l with
      | nil =>
        intro _ _ prev _ bts rst he _
        simp only [encCE] at he
        injection he with hh
        subst hh
        simp [decCEntries, normE]
      | cons e r ihl =>
        obtain ⟨k, w⟩ := e
        intro hx hs prev hprev bts rst he hblen
        simp only [encCE] at he
        rcases hek : encC k with _ | bk <;> rw [hek] at he
        · exact Option.noConfusion he
        rcases hew : encC w with _ | bw <;> rw [hew] at he
        · exact Option.noConfusion he
        rcases her : encCE r with _ | brest <;> rw [her] at he
        · exact Option.noConfusion he
        injection he with hh
        subst hh
        rw [List.length_append, List.length_append] at hblen
        have hk1 := ihf fuel (by omega) k
          (hx (k, w) (List.mem_cons_self _ _)).1
          bk (bw ++ (brest ++ rst)) hek (by omega)
        have hw1 := ihf fuel (by omega) w
          (hx (k, w) (List.mem_cons_self _ _)).2
          bw (brest ++ rst) hew (by omega)
        have hr1 := ihl (fun y hy => hx y (List.mem_cons_of_mem _ hy))
          (sortedE_tail hs) (some (normNaN k)) ?hpr brest rst her (by omega)
        case hpr =>
          intro p' hp'
          injection hp' with hp''
          exact ⟨k, hp''.symm, fun q hq => sorted_head_lt k w r hs q hq⟩
        rw [show ((k, w) :: r).length = r.length + 1 from rfl,
          show ((bk ++ bw) ++ brest) ++ rst = bk ++ (bw ++ (brest ++ rst)) by
            simp [List.append_assoc]]
        cases prev with
        | none =>
          simp only [decCEntries, hk1, hw1, hr1, normE, eq_self_iff_true, if_true]
        | some p' =>
          obtain ⟨p0, rfl, hlt⟩ := hprev p' rfl
          have hc : (cmpV (normNaN p0) (normNaN k) == Ordering.lt) = true := by
            rw [cmp_norm, hlt (k, w) (List.mem_cons_self _ _)]
            rfl
          simp only [decCEntries, hk1, hw1, hr1, normE, hc, eq_self_iff_true, if_true]
    have hmem : ∀ p ∈ es, wf p.1 = true ∧ wf p.2 = true :=
      fun p hp => wfE_mem (wf_map_entries hwf) hp
    have hbl : body.length < fuel := by
      rw [List.cons_append, List.length_cons, List.length_append] at hsz
      omega
    rw [List.append_assoc, List.cons_append, decC_tag7 fuel hb _ hh2 (by rw [hh3])]
    simp only [hh4 (body ++ rest),
      hentries es hmem hsorted none (fun p' hp' => Option.noConfusion hp') body rest hel
        hbl,
      normNaN]


theorem take_lt {r : List Nat} {w : Nat} (hb : ∀ x ∈ r, x < 256) :
    ∀ x ∈ r.take w, x < 256 :=
  fun x hx => hb x (List.mem_of_mem_take hx)

theorem length_take_of_le {r : List Nat} {w : Nat} (h : w ≤ r.length) :
    (r.take w).length = w := by
  simp [List.length_take]
  omega

theorem readOpt_inv {w : Nat} {r r1 : List Nat} {n : Nat}
    (hb : ∀ x ∈ r, x < 256) (h : readOpt w r = some (n, r1)) :
    r = r.take w ++ r1 ∧ n = fromBE (r.take w) ∧ (r.take w).length = w ∧
      n < 2 ^ (8 * w) := by
  unfold readOpt at h
  split_ifs at h with hlen
  injection h with h1
  injection h1 with h2 h3
  subst h2
  subst h3
  have hlw : (r.take w).length = w := length_take_of_le (by omega)
  refine ⟨(List.take_append_drop w r).symm, rfl, hlw, ?_⟩
  have := fromBE_lt (r.take w) (take_lt hb)
  rw [hlw] at this
  exact this

theorem decCountArg_enc (tag arg : Nat) (htag : tag = 160 ∨ tag = 224)
    (harg : arg ≤ 31) (r : List Nat) (n : Nat) (r1 : List Nat)
    (hb : ∀ x ∈ r, x < 256) (h : decCountArg arg r = some (n, r1)) :
    ∃ cb, r = cb ++ r1 ∧ minCount n tag = some ((tag + arg) :: cb) ∧
      n ≤ 2 ^ 63 - 1 := by
  have hor : ∀ x : Nat, x < 32 → tag ||| x = tag + x := by
    intro x hx
    rcases htag with rfl | rfl
    · exact or160 x hx
    · exact or224 x hx
  unfold decCountArg at h
  split_ifs at h with h1 h2 h3 h4
  · -- inline
    injection h with h'
    injection h' with ha hb'
    subst ha
    subst hb'
    refine ⟨[], rfl, ?_, by omega⟩
    unfold minCount
    rw [if_pos h1, hor arg (by omega)]
  · -- arg = 28
    subst h2
    rcases hro : readOpt 1 r with _ | p <;> rw [hro] at h
    · exact Option.noConfusion h
    obtain ⟨m, r2⟩ := p
    obtain ⟨hsplit, hm, hlw, hmlt⟩ := readOpt_inv hb hro
    change (if 28 ≤ m then some (m, r2) else none) = some (n, r1) at h
    split_ifs at h with h5
    injection h with h'
    injection h' with ha hb'
    subst ha
    subst hb'
    have hbb : beBytes 1 m = r.take 1 := by
      have hx := beBytes_fromBE (r.take 1) (take_lt hb)
      rw [hlw] at hx
      rw [hm]
      exact hx
    refine ⟨r.take 1, hsplit, ?_, by norm_num at hmlt ⊢; omega⟩
    unfold minCount
    rw [if_neg (by omega), if_pos (by norm_num at hmlt ⊢; omega)]
    rw [hor 28 (by norm_num), hbb]
  · -- arg = 29
    subst h3
    rcases hro : readOpt 2 r with _ | p <;> rw [hro] at h
    · exact Option.noConfusion h
    obtain ⟨m, r2⟩ := p
    obtain ⟨hsplit, hm, hlw, hmlt⟩ := readOpt_inv hb hro
    change (if 2 ^ 8 ≤ m then some (m, r2) else none) = some (n, r1) at h
    split_ifs at h with h5
    injection h with h'
    injection h' with ha hb'
    subst ha
    subst hb'
    have hbb : beBytes 2 m = r.take 2 := by
      have hx := beBytes_fromBE (r.take 2) (take_lt hb)
      rw [hlw] at hx
      rw [hm]
      exact hx
    refine ⟨r.take 2, hsplit, ?_, by norm_num at hmlt ⊢; omega⟩
    unfold minCount
    rw [if_neg (by norm_num at h5 ⊢; omega), if_neg (by norm_num at h5 ⊢; omega),
      if_pos (by norm_num at hmlt ⊢; omega)]
    rw [hor 29 (by norm_num), hbb]
  · -- arg = 30
    subst h4
    rcases hro : readOpt 4 r with _ | p <;> rw [hro] at h
    · exact Option.noConfusion h
    obtain ⟨m, r2⟩ := p
    obtain ⟨hsplit, hm, hlw, hmlt⟩ := readOpt_inv hb hro
    change (if 2 ^ 16 ≤ m then some (m, r2) else none) = some (n, r1) at h
    split_ifs at h with h5
    injection h with h'
    injection h' with ha hb'
    subst ha
    subst hb'
    have hbb : beBytes 4 m = r.take 4 := by
      have hx := beBytes_fromBE (r.take 4) (take_lt hb)
      rw [hlw] at hx
      rw [hm]
      exact hx
    refine ⟨r.take 4, hsplit, ?_, by norm_num at hmlt ⊢; omega⟩
    unfold minCount
    rw [if_neg (by norm_num at h5 ⊢; omega), if_neg (by norm_num at h5 ⊢; omega),
      if_neg (by norm_num at h5 ⊢; omega), if_pos (by norm_num at hmlt ⊢; omega)]
    rw [hor 30 (by norm_num), hbb]
  · -- arg = 31
    have h31 : arg = 31 := by omega
    subst h31
    rcases hro : readOpt 8 r with _ | p <;> rw [hro] at h
    · exact Option.noConfusion h
    obtain ⟨m, r2⟩ := p
    obtain ⟨hsplit, hm, hlw, hmlt⟩ := readOpt_inv hb hro
    change (if 2 ^ 32 ≤ m ∧ m ≤ 2 ^ 63 - 1 then some (m, r2) else none) = some (n, r1) at h
    split_ifs at h with h5
    injection h with h'
    injection h' with ha hb'
    subst ha
    subst hb'
    have hbb : beBytes 8 m = r.take 8 := by
      have hx := beBytes_fromBE (r.take 8) (take_lt hb)
      rw [hlw] at hx
      rw [hm]
      exact hx
    refine ⟨r.take 8, hsplit, ?_, h5.2⟩
    unfold minCount
    rw [if_neg (by norm_num at h5 ⊢; omega), if_neg (by norm_num at h5 ⊢; omega),
      if_neg (by norm_num at h5 ⊢; omega), if_neg (by norm_num at h5 ⊢; omega),
      if_pos h5.2]
    rw [hor 31 (by norm_num), hbb]


theorem decCInt_enc (arg : Nat) (harg : arg ≤ 31) (r : List Nat) (v : Int)
    (r1 : List Nat) (hb : ∀ x ∈ r, x < 256) (h : decCInt arg r = some (v, r1)) :
    ∃ cb, r = cb ++ r1 ∧ encInt v = (96 + arg) :: cb ∧
      -(2 ^ 63) ≤ v ∧ v < 2 ^ 63 := by
  unfold decCInt at h
  split_ifs at h with h1 h2 h3 h4
  · -- inline
    injection h with h'
    injection h' with ha hb'
    subst hb'
    refine ⟨[], rfl, ?_, by omega, by omega⟩
    unfold encInt
    rw [if_pos (show ((0 ≤ v : Bool) && (v ≤ 27 : Bool)) = true by
      simp only [Bool.and_eq_true, decide_eq_true_eq]
      omega)]
    have hto : v.toNat = arg := by omega
    rw [hto, or96 arg (by omega)]
  · -- arg = 28
    subst h2
    rcases hro : readOpt 1 r with _ | p <;> rw [hro] at h
    · exact Option.noConfusion h
    obtain ⟨m, r2⟩ := p
    obtain ⟨hsplit, hm, hlw, hmlt⟩ := readOpt_inv hb hro
    change (if 0 ≤ toSigned m 1 ∧ toSigned m 1 ≤ 27 then none
      else some (toSigned m 1, r2)) = some (v, r1) at h
    split_ifs at h with h5
    injection h with h'
    injection h' with ha hb'
    subst ha
    subst hb'
    norm_num at hmlt
    have hrange : -128 ≤ toSigned m 1 ∧ toSigned m 1 ≤ 127 := by
      unfold toSigned
      split_ifs <;> norm_num <;> omega
    have hmod : (toSigned m 1 % 256).toNat = m := by
      unfold toSigned
      split_ifs <;> norm_num <;> omega
    have hbb : beBytes 1 m = r.take 1 := by
      have hx := beBytes_fromBE (r.take 1) (take_lt hb)
      rw [hlw] at hx
      rw [hm]
      exact hx
    refine ⟨r.take 1, hsplit, ?_, by omega, by omega⟩
    unfold encInt
    rw [if_neg (show ¬((0 ≤ toSigned m 1 : Bool) && (toSigned m 1 ≤ 27 : Bool)) = true by
      simp only [Bool.and_eq_true, decide_eq_true_eq]
      omega)]
    rw [if_pos (show ((-128 ≤ toSigned m 1 : Bool) && (toSigned m 1 ≤ 127 : Bool)) = true by
      simp only [Bool.and_eq_true, decide_eq_true_eq]
      omega)]
    rw [hmod, hbb]
  · -- arg = 29
    subst h3
    rcases hro : readOpt 2 r with _ | p <;> rw [hro] at h
    · exact Option.noConfusion h
    obtain ⟨m, r2⟩ := p
    obtain ⟨hsplit, hm, hlw, hmlt⟩ := readOpt_inv hb hro
    change (if -128 ≤ toSigned m 2 ∧ toSigned m 2 ≤ 127 then none
      else some (toSigned m 2, r2)) = some (v, r1) at h
    split_ifs at h with h5
    injection h with h'
    injection h' with ha hb'
    subst ha
    subst hb'
    norm_num at hmlt
    have hrange : -32768 ≤ toSigned m 2 ∧ toSigned m 2 ≤ 32767 := by
      unfold toSigned
      split_ifs <;> norm_num <;> omega
    have hmod : (toSigned m 2 % 65536).toNat = m := by
      unfold toSigned
      split_ifs <;> norm_num <;> omega
    have hbb : beBytes 2 m = r.take 2 := by
      have hx := beBytes_fromBE (r.take 2) (take_lt hb)
      rw [hlw] at hx
      rw [hm]
      exact hx
    refine ⟨r.take 2, hsplit, ?_, by omega, by omega⟩
    unfold encInt
    rw [if_neg (show ¬((0 ≤ toSigned m 2 : Bool) && (toSigned m 2 ≤ 27 : Bool)) = true by
      simp only [Bool.and_eq_true, decide_eq_true_eq]
      omega)]
    rw [if_neg (show ¬((-128 ≤ toSigned m 2 : Bool) && (toSigned m 2 ≤ 127 : Bool)) = true by
      simp only [Bool.and_eq_true, decide_eq_true_eq]
      omega)]
    rw [if_pos (show ((-32768 ≤ toSigned m 2 : Bool) && (toSigned m 2 ≤ 32767 : Bool)) = true by
      simp only [Bool.and_eq_true, decide_eq_true_eq]
      omega)]
    rw [hmod, hbb]
  · -- arg = 30
    subst h4
    rcases hro : readOpt 4 r with _ | p <;> rw [hro] at h
    · exact Option.noConfusion h
    obtain ⟨m, r2⟩ := p
    obtain ⟨hsplit, hm, hlw, hmlt⟩ := readOpt_inv hb hro
    change (if -(2 ^ 15) ≤ toSigned m 4 ∧ toSigned m 4 ≤ 2 ^ 15 - 1 then none
      else some (toSigned m 4, r2)) = some (v, r1) at h
    split_ifs at h with h5
    injection h with h'
    injection h' with ha hb'
    subst ha
    subst hb'
    norm_num at hmlt h5
    have hrange : -2147483648 ≤ toSigned m 4 ∧ toSigned m 4 ≤ 2147483647 := by
      unfold toSigned
      split_ifs <;> norm_num <;> omega
    have hmod : (toSigned m 4 % 4294967296).toNat = m := by
      unfold toSigned
      split_ifs <;> norm_num <;> omega
    have hbb : beBytes 4 m = r.take 4 := by
      have hx := beBytes_fromBE (r.take 4) (take_lt hb)
      rw [hlw] at hx
      rw [hm]
      exact hx
    refine ⟨r.take 4, hsplit, ?_, by omega, by omega⟩
    unfold encInt
    rw [if_neg (show ¬((0 ≤ toSigned m 4 : Bool) && (toSigned m 4 ≤ 27 : Bool)) = true by
      simp only [Bool.and_eq_true, decide_eq_true_eq]
      omega)]
    rw [if_neg (show ¬((-128 ≤ toSigned m 4 : Bool) && (toSigned m 4 ≤ 127 : Bool)) = true by
      simp only [Bool.and_eq_true, decide_eq_true_eq]
      omega)]
    rw [if_neg (show ¬((-32768 ≤ toSigned m 4 : Bool) && (toSigned m 4 ≤ 32767 : Bool)) = true by
      simp only [Bool.and_eq_true, decide_eq_true_eq]
      omega)]
    rw [if_pos (show ((-2147483648 ≤ toSigned m 4 : Bool) &&
        (toSigned m 4 ≤ 2147483647 : Bool)) = true by
      simp only [Bool.and_eq_true, decide_eq_true_eq]
      omega)]
    rw [hmod, hbb]
  · -- arg = 31
    have h31 : arg = 31 := by omega
    subst h31
    rcases hro : readOpt 8 r with _ | p <;> rw [hro] at h
    · exact Option.noConfusion h
    obtain ⟨m, r2⟩ := p
    obtain ⟨hsplit, hm, hlw, hmlt⟩ := readOpt_inv hb hro
    change (if -(2 ^ 31) ≤ toSigned m 8 ∧ toSigned m 8 ≤ 2 ^ 31 - 1 then none
      else some (toSigned m 8, r2)) = some (v, r1) at h
    split_ifs at h with h5
    injection h with h'
    injection h' with ha hb'
    subst ha
    subst hb'
    norm_num at hmlt h5
    have hrange : -(2 ^ 63) ≤ toSigned m 8 ∧ toSigned m 8 < 2 ^ 63 := by
      unfold toSigned
      split_ifs <;> norm_num <;> omega
    have hmod : (toSigned m 8 % 18446744073709551616).toNat = m := by
      unfold toSigned
      split_ifs <;> norm_num <;> omega
    have hbb : beBytes 8 m = r.take 8 := by
      have hx := beBytes_fromBE (r.take 8) (take_lt hb)
      rw [hlw] at hx
      rw [hm]
      exact hx
    refine ⟨r.take 8, hsplit, ?_, by norm_num at hrange ⊢; omega,
      by norm_num at hrange ⊢; omega⟩
    unfold encInt
    rw [if_neg (show ¬((0 ≤ toSigned m 8 : Bool) && (toSigned m 8 ≤ 27 : Bool)) = true by
      simp only [Bool.and_eq_true, decide_eq_true_eq]
      omega)]
    rw [if_neg (show ¬((-128 ≤ toSigned m 8 : Bool) && (toSigned m 8 ≤ 127 : Bool)) = true by
      simp only [Bool.and_eq_true, decide_eq_true_eq]
      omega)]
    rw [if_neg (show ¬((-32768 ≤ toSigned m 8 : Bool) && (toSigned m 8 ≤ 32767 : Bool)) = true by
      simp only [Bool.and_eq_true, decide_eq_true_eq]
      omega)]
    rw [if_neg (show ¬((-2147483648 ≤ toSigned m 8 : Bool) &&
        (toSigned m 8 ≤ 2147483647 : Bool)) = true by
      simp only [Bool.and_eq_true, decide_eq_true_eq]
      omega)]
    rw [hmod, hbb]


theorem bytes_tail {b : Nat} {r : List Nat} (hb : ∀ x ∈ b :: r, x < 256) :
    ∀ x ∈ r, x < 256 := fun x hx => hb x (List.mem_cons_of_mem _ hx)

theorem bytes_right {a r : List Nat} (hb : ∀ x ∈ a ++ r, x < 256) :
    ∀ x ∈ r, x < 256 := fun x hx => hb x (List.mem_append_right _ hx)

theorem encCL_cons_eq {v : Value} {vs : List Value} {b rest : List Nat}
    (h1 : encC v = some b) (h2 : encCL vs = some rest) :
    encCL (v :: vs) = some (b ++ rest) := by
  simp only [encCL]
  rw [h1, h2]

theorem encCE_cons_eq {k v : Value} {es : List (Value × Value)}
    {bk bv rest : List Nat} (h1 : encC k = some bk) (h2 : encC v = some bv)
    (h3 : encCE es = some rest) :
    encCE ((k, v) :: es) = some (bk ++ bv ++ rest) := by
  simp only [encCE]
  rw [h1, h2, h3]

theorem encC_array_eq {vs : List Value} {hd body : List Nat}
    (h1 : minCount vs.length 160 = some hd) (h2 : encCL vs = some body) :
    encC (.array vs) = some (hd ++ body) := by
  simp only [encC]
  rw [h1, h2]

theorem encC_map_eq {es : List (Value × Value)} {hd body : List Nat}
    (h1 : minCount es.length 224 = some hd) (h2 : encCE es = some body) :
    encC (.map es) = some (hd ++ body) := by
  simp only [encC]
  rw [h1, h2]

theorem encC_of_decC : ∀ fuel : Nat, ∀ input v rest,
    (∀ x ∈ input, x < 256) → decC fuel input = some (v, rest) →
    ∃ bytes, input = bytes ++ rest ∧ encC v = some bytes ∧ wf v = true := by
  intro fuel
  induction fuel using Nat.strong_induction_on with
  | _ fuel ihf =>
  intro input v rest hbytes h
  cases fuel with
  | zero =>
    simp only [decC] at h
    exact Option.noConfusion h
  | succ fuel =>
  cases input with
  | nil =>
    simp only [decC] at h
    exact Option.noConfusion h
  | cons b r =>
  have hb0 : b < 256 := hbytes b (List.mem_cons_self _ _)
  have hbr : ∀ x ∈ r, x < 256 := bytes_tail hbytes
  have hdecomp : b = (b >>> 5) * 32 + (b &&& 31) := by
    rw [shr5_eq_div, and31_eq_mod]
    omega
  have ha31 : b &&& 31 ≤ 31 := by
    rw [and31_eq_mod]
    omega
  have hlistrec : ∀ n inp vs r2, (∀ x ∈ inp, x < 256) →
      decCList fuel n inp = some (vs, r2) →
      ∃ lb, inp = lb ++ r2 ∧ encCL vs = some lb ∧ wfL vs = true ∧
        vs.length = n := by
    intro n
    induction n with
    | zero =>
      intro inp vs r2 hbv hl
      simp only [decCList] at hl
      injection hl with hh
      injection hh with h1 h2
      subst h1
      subst h2
      refine ⟨[], rfl, ?_, ?_, rfl⟩
      · simp [encCL]
      · simp [wfL]
    | succ n ihn =>
      intro inp vs r2 hbv hl
      simp only [decCList] at hl
      rcases hk : decC fuel inp with _ | p
      · rw [hk] at hl
        exact Option.noConfusion hl
      obtain ⟨w, r1⟩ := p
      simp only [hk] at hl
      rcases hrest : decCList fuel n r1 with _ | q
      · rw [hrest] at hl
        exact Option.noConfusion hl
      obtain ⟨ws, r3⟩ := q
      simp only [hrest] at hl
      injection hl with hh
      injection hh with h1 h2
      subst h1
      subst h2
      obtain ⟨wb, hsp1, henc1, hwf1⟩ := ihf fuel (by omega) inp w r1 hbv hk
      have hbv1 : ∀ x ∈ r1, x < 256 := by
        rw [hsp1] at hbv
        exact bytes_right hbv
      obtain ⟨lb, hsp2, henc2, hwf2, hlen2⟩ := ihn r1 ws r3 hbv1 hrest
      refine ⟨wb ++ lb, ?_, encCL_cons_eq henc1 henc2, ?_, ?_⟩
      · rw [hsp1, hsp2]
        simp [List.append_assoc]
      · simp only [wfL, Bool.and_eq_true]
        exact ⟨hwf1, hwf2⟩
      · simp [hlen2]
  have hentrec : ∀ n prev inp es r2, (∀ x ∈ inp, x < 256) →
      decCEntries fuel n prev inp = some (es, r2) →
      ∃ eb, inp = eb ++ r2 ∧ encCE es = some eb ∧ wfE es = true ∧
        es.length = n ∧ sortedE es = true ∧
        ∀ p, prev = some p → ∀ q ∈ es, cmpV p q.1 = Ordering.lt := by
    intro n
    induction n with
    | zero =>
      intro prev inp es r2 hbv hl
      simp only [decCEntries] at hl
      injection hl with hh
      injection hh with h1 h2
      subst h1
      subst h2
      refine ⟨[], rfl, ?_, ?_, rfl, rfl, ?_⟩
      · simp [encCE]
      · simp [wfE]
      · intro p _ q hq
        exact absurd hq (List.not_mem_nil q)
    | succ n ihn =>
      intro prev inp es r2 hbv hl
      simp only [decCEntries] at hl
      rcases hk : decC fuel inp with _ | p1
      · rw [hk] at hl
        exact Option.noConfusion hl
      obtain ⟨k, r1⟩ := p1
      simp only [hk] at hl
      split_ifs at hl with hc
      rcases hv : decC fuel r1 with _ | p2
      · rw [hv] at hl
        exact Option.noConfusion hl
      obtain ⟨w, r2x⟩ := p2
      simp only [hv] at hl
      rcases he : decCEntries fuel n (some k) r2x with _ | p3
      · rw [he] at hl
        exact Option.noConfusion hl
      obtain ⟨es1, r3⟩ := p3
      simp only [he] at hl
      injection hl with hh
      injection hh with h1 h2
      subst h1
      subst h2
      obtain ⟨kb, hspk, henck, hwfk⟩ := ihf fuel (by omega) inp k r1 hbv hk
      have hbv1 : ∀ x ∈ r1, x < 256 := by
        rw [hspk] at hbv
        exact bytes_right hbv
      obtain ⟨vb, hspv, hencv, hwfv⟩ := ihf fuel (by omega) r1 w r2x hbv1 hv
      have hbv2 : ∀ x ∈ r2x, x < 256 := by
        rw [hspv] at hbv1
        exact bytes_right hbv1
      obtain ⟨rb, hspr, hencr, hwfr, hlenr, hsortr, hprevr⟩ :=
        ihn (some k) r2x es1 r3 hbv2 he
      have hkq : ∀ q ∈ es1, cmpV k q.1 = Ordering.lt := hprevr k rfl
      refine ⟨kb ++ vb ++ rb, ?_, encCE_cons_eq henck hencv hencr, ?_, ?_, ?_, ?_⟩
      · rw [hspk, hspv, hspr]
        simp [List.append_assoc]
      · simp only [wfE, Bool.and_eq_true]
        exact ⟨⟨hwfk, hwfv⟩, hwfr⟩
      · simp [hlenr]
      · cases es1 with
        | nil => rfl
        | cons q rest1 =>
          obtain ⟨k2, v2⟩ := q
          have hk2 : cmpV k k2 = Ordering.lt := hkq (k2, v2) (List.mem_cons_self _ _)
          simp [sortedE, hk2, hsortr]
          rfl
      · intro p hp q hq
        subst hp
        have hpk : cmpV p k = Ordering.lt := by
          have hcx : (cmpV p k == Ordering.lt) = true := hc
          rcases hcv : cmpV p k with _ | _ | _
          · rfl
          · rw [hcv] at hcx
            exact Bool.noConfusion hcx
          · rw [hcv] at hcx
            exact Bool.noConfusion hcx
        rcases List.mem_cons.mp hq with hq1 | hq2
        · rw [hq1]
          exact hpk
        · exact (cmp_trans p k q.1).1 hpk (hkq q hq2)
  simp only [decC] at h
  rw [if_neg (show ¬ 256 ≤ b by omega)] at h
  by_cases h0 : b >>> 5 = 0
  · rw [if_pos h0] at h
    split_ifs at h with ha
    · injection h with hh
      injection hh with h1 h2
      subst h1
      subst h2
      have hb0x : b = 0 := by
        rw [h0, ha] at hdecomp
        omega
      subst hb0x
      refine ⟨[0], rfl, ?_, ?_⟩
      · simp [encC]
      · simp [wf]
  rw [if_neg h0] at h
  by_cases h1 : b >>> 5 = 1
  · rw [if_pos h1] at h
    split_ifs at h with ha0 ha1
    · injection h with hh
      injection hh with hx1 hx2
      subst hx1
      subst hx2
      have hbx : b = 32 := by
        rw [h1, ha0] at hdecomp
        omega
      subst hbx
      refine ⟨[32], rfl, ?_, ?_⟩
      · simp [encC]
      · simp [wf]
    · injection h with hh
      injection hh with hx1 hx2
      subst hx1
      subst hx2
      have hbx : b = 33 := by
        rw [h1, ha1] at hdecomp
        omega
      subst hbx
      refine ⟨[33], rfl, ?_, ?_⟩
      · simp [encC]
      · simp [wf]
  rw [if_neg h1] at h
  by_cases h2 : b >>> 5 = 2
  · rw [if_pos h2] at h
    split_ifs at h with ha0
    · rcases hro : readOpt 8 r with _ | p
      · rw [hro] at h
        exact Option.noConfusion h
      obtain ⟨bits, r2⟩ := p
      simp only [hro] at h
      split_ifs at h with hnan
      injection h with hh
      injection hh with hx1 hx2
      subst hx1
      subst hx2
      obtain ⟨hsplit, hm, hlw, hmlt⟩ := readOpt_inv hbr hro
      have hbx : b = 64 := by
        rw [h2, ha0] at hdecomp
        omega
      subst hbx
      have hblt : bits < 2 ^ 64 := by
        norm_num at hmlt
        omega
      have hbb : beBytes 8 bits = r.take 8 := by
        have hx := beBytes_fromBE (r.take 8) (take_lt hbr)
        rw [hlw] at hx
        rw [hm]
        exact hx
      have hif : (if isNanBits bits then canonicalNaN else bits) = bits := by
        cases hni : isNanBits bits
        · rfl
        · rw [hni] at hnan
          simp only [Bool.true_and, decide_eq_true_eq, not_not] at hnan
          rw [hnan]
          simp
      refine ⟨64 :: beBytes 8 bits, ?_, ?_, ?_⟩
      · rw [hsplit, hbb, List.cons_append]
      · simp only [encC]
        rw [hif]
      · simp only [wf, decide_eq_true_eq]
        exact hblt
  rw [if_neg h2] at h
  by_cases h3 : b >>> 5 = 3
  · rw [if_pos h3] at h
    rcases hdi : decCInt (b &&& 31) r with _ | p
    · rw [hdi] at h
      exact Option.noConfusion h
    obtain ⟨iv, r2⟩ := p
    simp only [hdi] at h
    injection h with hh
    injection hh with hx1 hx2
    subst hx1
    subst hx2
    obtain ⟨cb, hsp, hei, hlo, hhi⟩ := decCInt_enc (b &&& 31) ha31 r iv r2 hbr hdi
    have hb96 : b = 96 + (b &&& 31) := by
      rw [h3] at hdecomp
      omega
    refine ⟨(96 + (b &&& 31)) :: cb, ?_, ?_, ?_⟩
    · conv_lhs => rw [hb96]
      rw [hsp, List.cons_append]
    · simp only [encC]
      rw [hei]
    · simp only [wf, Bool.and_eq_true, decide_eq_true_eq]
      exact ⟨hlo, hhi⟩
  rw [if_neg h3] at h
  by_cases h4 : b >>> 5 = 4
  · rw [if_pos h4] at h
    exact Option.noConfusion h
  rw [if_neg h4] at h
  by_cases h5 : b >>> 5 = 5
  · rw [if_pos h5] at h
    rcases hca : decCountArg (b &&& 31) r with _ | p
    · rw [hca] at h
      exact Option.noConfusion h
    obtain ⟨n, r2⟩ := p
    simp only [hca] at h
    rcases hdl : decCList fuel n r2 with _ | q
    · rw [hdl] at h
      exact Option.noConfusion h
    obtain ⟨vs, r3⟩ := q
    simp only [hdl] at h
    injection h with hh
    injection hh with hx1 hx2
    subst hx1
    subst hx2
    obtain ⟨cb, hsp1, hmin, hnle⟩ :=
      decCountArg_enc 160 (b &&& 31) (Or.inl rfl) ha31 r n r2 hbr hca
    have hbv2 : ∀ x ∈ r2, x < 256 := by
      rw [hsp1] at hbr
      exact bytes_right hbr
    obtain ⟨lb, hsp2, hencl, hwfl, hlen⟩ := hlistrec n r2 vs r3 hbv2 hdl
    have hbx : b = 160 + (b &&& 31) := by
      rw [h5] at hdecomp
      omega
    refine ⟨((160 + (b &&& 31)) :: cb) ++ lb, ?_, ?_, ?_⟩
    · conv_lhs => rw [hbx]
      rw [hsp1, hsp2, List.append_assoc, List.cons_append]
    · exact encC_array_eq (by rw [hlen]; exact hmin) hencl
    · simp only [wf, Bool.and_eq_true, decide_eq_true_eq]
      refine ⟨?_, hwfl⟩
      rw [hlen]
      omega
  rw [if_neg h5] at h
  by_cases h6 : b >>> 5 = 6
  · rw [if_pos h6] at h
    exact Option.noConfusion h
  rw [if_neg h6] at h
  have h7 : b >>> 5 = 7 := by
    rw [shr5_eq_div] at h0 h1 h2 h3 h4 h5 h6 ⊢
    omega
  rcases hca : decCountArg (b &&& 31) r with _ | p
  · rw [hca] at h
    exact Option.noConfusion h
  obtain ⟨n, r2⟩ := p
  simp only [hca] at h
  rcases hde : decCEntries fuel n none r2 with _ | q
  · rw [hde] at h
    exact Option.noConfusion h
  obtain ⟨es, r3⟩ := q
  simp only [hde] at h
  injection h with hh
  injection hh with hx1 hx2
  subst hx1
  subst hx2
  obtain ⟨cb, hsp1, hmin, hnle⟩ :=
    decCountArg_enc 224 (b &&& 31) (Or.inr rfl) ha31 r n r2 hbr hca
  have hbv2 : ∀ x ∈ r2, x < 256 := by
    rw [hsp1] at hbr
    exact bytes_right hbr
  obtain ⟨eb, hsp2, hence, hwfe, hlen, hsort, _⟩ := hentrec n none r2 es r3 hbv2 hde
  have hbx : b = 224 + (b &&& 31) := by
    rw [h7] at hdecomp
    omega
  refine ⟨((224 + (b &&& 31)) :: cb) ++ eb, ?_, ?_, ?_⟩
  · conv_lhs => rw [hbx]
    rw [hsp1, hsp2, List.append_assoc, List.cons_append]
  · exact encC_map_eq (by rw [hlen]; exact hmin) hence
  · simp only [wf, Bool.and_eq_true, decide_eq_true_eq]
    exact ⟨⟨by rw [hlen]; omega, hsort⟩, hwfe⟩

mutual

/-- The canonic encoder is total on well-formed values. -/
theorem encC_some : ∀ v : Value, wf v = true → ∃ bytes, encC v = some bytes
  | .nil, _ => ⟨[0], by simp only [encC]⟩
  | .bool b, _ => ⟨[if b then 33 else 32], by simp only [encC]⟩
  | .float bits, _ => ⟨64 :: beBytes 8 (if isNanBits bits then canonicalNaN else bits),
      by simp only [encC]⟩
  | .int v, _ => ⟨encInt v, by simp only [encC]⟩
  | .array vs, h => by
    have hlen : vs.length < 2 ^ 63 := by
      have h' : ((decide (vs.length < 2 ^ 63)) && wfL vs) = true := h
      simp only [Bool.and_eq_true, decide_eq_true_eq] at h'
      exact h'.1
    obtain ⟨head, hmc⟩ : ∃ head, minCount vs.length 160 = some head := by
      unfold minCount
      split_ifs <;> first | exact ⟨_, rfl⟩ | omega
    obtain ⟨body, hbody⟩ := encCL_some vs (wf_array h)
    exact ⟨head ++ body, by simp only [encC, hmc, hbody]⟩
  | .map es, h => by
    have hlen : es.length < 2 ^ 63 := by
      have h' : (((decide (es.length < 2 ^ 63)) && sortedE es) && wfE es) = true := h
      simp only [Bool.and_eq_true, decide_eq_true_eq] at h'
      exact h'.1.1
    obtain ⟨head, hmc⟩ : ∃ head, minCount es.length 224 = some head := by
      unfold minCount
      split_ifs <;> first | exact ⟨_, rfl⟩ | omega
    obtain ⟨body, hbody⟩ := encCE_some es (wf_map_entries h)
    exact ⟨head ++ body, by simp only [encC, hmc, hbody]⟩
termination_by v => sizeOf v

theorem encCL_some : ∀ vs : List Value, wfL vs = true → ∃ bytes, encCL vs = some bytes
  | [], _ => ⟨[], by simp only [encCL]⟩
  | v :: r, h => by
    have h' : (wf v && wfL r) = true := h
    simp only [Bool.and_eq_true] at h'
    obtain ⟨b1, hb1⟩ := encC_some v h'.1
    obtain ⟨b2, hb2⟩ := encCL_some r h'.2
    exact ⟨b1 ++ b2, by simp only [encCL, hb1, hb2]⟩
termination_by vs => sizeOf vs

theorem encCE_some : ∀ es : List (Value × Value), wfE es = true →
    ∃ bytes, encCE es = some bytes
  | [], _ => ⟨[], by simp only [encCE]⟩
  | (k, v) :: r, h => by
    have h' : ((wf k && wf v) && wfE r) = true := h
    simp only [Bool.and_eq_true] at h'
    obtain ⟨bk, hbk⟩ := encC_some k h'.1.1
    obtain ⟨bv, hbv⟩ := encC_some v h'.1.2
    obtain ⟨br, hbr⟩ := encCE_some r h'.2
    exact ⟨bk ++ bv ++ br, by simp only [encCE, hbk, hbv, hbr]⟩
termination_by es => sizeOf es

end

/-- C1: confirmed against the spec-modelled canonic codec (the canonic
encoder/decoder named by the claim is described by the spec but absent
from the crate's source, so `encC`/`decodeCanonic` are modelled from the
spec text). Round-trip law: the canonic encoder succeeds on every
well-formed value and the canonic decoder maps its output back to the
value (up to the canonic NaN normalization, which is invisible to
`PartialEq`); conversely, on every canonic-accepted prefix the decoder
consumes exactly the canonic encoding of the decoded value, so the
canonic encoding is the only byte sequence the canonic decoder accepts
for a value. -/
theorem C1_canonic_roundtrip :
    (∀ v : Value, wf v = true → ∃ bytes, encC v = some bytes ∧
       decodeCanonic bytes = some (normNaN v, []) ∧ veq (normNaN v) v = true) ∧
    (∀ input (v : Value) rest, (∀ x ∈ input, x < 256) →
       decodeCanonic input = some (v, rest) →
       ∃ bytes, input = bytes ++ rest ∧ encC v = some bytes ∧ wf v = true) := by
  constructor
  · intro v hw
    obtain ⟨bytes, hb⟩ := encC_some v hw
    refine ⟨bytes, hb, ?_, veq_normNaN v⟩
    have hd := decC_of_encC (bytes.length + 1) v hw bytes [] hb (by omega)
    rw [List.append_nil] at hd
    exact hd
  · intro input v rest hbs h
    exact encC_of_decC (input.length + 1) input v rest hbs h

/-- C1 witness: the law applied to the array `[300, nil]`, and the
converse applied to the accepted input `21` (canonic `true`). -/
theorem C1_canonic_roundtrip_witness :
    (∃ bytes, encC (.array [.int 300, .nil]) = some bytes ∧
       decodeCanonic bytes = some (normNaN (.array [.int 300, .nil]), []) ∧
       veq (normNaN (.array [.int 300, .nil])) (.array [.int 300, .nil]) = true) ∧
    (∃ bytes, [0x21] = bytes ++ ([] : List Nat) ∧ encC (.bool true) = some bytes ∧
       wf (.bool true) = true) :=
  ⟨C1_canonic_roundtrip.1 (.array [.int 300, .nil]) (by decide),
   C1_canonic_roundtrip.2 [0x21] (.bool true) [] (by decide)
     (by simp [decodeCanonic, decC]; decide)⟩

end VV
